import Mathlib

/-!
The package chessimage: FEN parsing and board rendering.

A shallow embedding of `chessimage.go` (package `chessimage`) and of the parts
of the Go standard library it calls, followed by theorems about `GetPosition`
and `DisplayBoard`.

Conventions of the embedding

* A Go `string` is a sequence of bytes: `GoString = List UInt8`.  Text is
  UTF-8, but a Go string may hold any bytes, and the HTTP path hands
  `GetPosition` whatever bytes the request path decodes to.
* A `rune` is a natural number (the decoder never yields a negative one).
* Go's `int` is the 64-bit two's-complement integer of the amd64/arm64 ports;
  arithmetic the program performs on it is wrapped by `wrapInt`.
* `error` values record which `errors.New("Bad fen")` statement produced them
  together with their text.
* A run-time panic, or an abort of the runtime for lack of memory, is the
  `none` of an `Option`.
* The memory the runtime can obtain for one allocation is a parameter, `avail`,
  of the functions that allocate the pixel buffer.
-/

namespace Chessimage

/-! ## Go strings -/

/-- A Go string: an immutable sequence of bytes. -/
abbrev GoString := List UInt8

/-- The constant `utf8.RuneError`, U+FFFD. -/
def RuneError : Nat := 0xFFFD

/-- The constant `utf8.MaxRune`. -/
def MaxRune : Nat := 0x10FFFF

/-- Classification of a first byte, as stored in the table `first` of package
`unicode/utf8`: ASCII (`as`), invalid (`xx`), or a lead byte with the size of
its sequence and the accepted range of the second byte. -/
inductive FirstInfo where
  | ascii : FirstInfo
  | invalid : FirstInfo
  | lead (sz lo hi : Nat) : FirstInfo
deriving DecidableEq, Repr

/-- The table `first` of package `unicode/utf8`, together with the
`acceptRanges` entry each lead byte selects. -/
def first (s0 : Nat) : FirstInfo :=
  if s0 < 0x80 then .ascii
  else if s0 < 0xC2 then .invalid
  else if s0 ≤ 0xDF then .lead 2 0x80 0xBF
  else if s0 = 0xE0 then .lead 3 0xA0 0xBF
  else if s0 ≤ 0xEC then .lead 3 0x80 0xBF
  else if s0 = 0xED then .lead 3 0x80 0x9F
  else if s0 ≤ 0xEF then .lead 3 0x80 0xBF
  else if s0 = 0xF0 then .lead 4 0x90 0xBF
  else if s0 ≤ 0xF3 then .lead 4 0x80 0xBF
  else if s0 = 0xF4 then .lead 4 0x80 0x8F
  else .invalid

/-- The byte of `s` at index `i` as a number (`0` past the end; every use is
guarded by a length test). -/
def byteAt (s : GoString) (i : Nat) : Nat := (s.getD i 0).toNat

/-- The function `utf8.DecodeRuneInString`: the first rune of `s` and its width.
An invalid or truncated encoding yields `(RuneError, 1)`, the empty string
`(RuneError, 0)`. -/
def DecodeRuneInString (s : GoString) : Nat × Nat :=
  let n := s.length
  if n < 1 then (RuneError, 0) else
  let s0 := byteAt s 0
  match first s0 with
  | .ascii => (s0, 1)
  | .invalid => (RuneError, 1)
  | .lead sz lo hi =>
    if n < sz then (RuneError, 1) else
    let s1 := byteAt s 1
    if s1 < lo ∨ hi < s1 then (RuneError, 1) else
    if sz ≤ 2 then (((s0 &&& 0x1F) <<< 6) ||| (s1 &&& 0x3F), 2) else
    let s2 := byteAt s 2
    if s2 < 0x80 ∨ 0xBF < s2 then (RuneError, 1) else
    if sz ≤ 3 then
      (((s0 &&& 0x0F) <<< 12) ||| ((s1 &&& 0x3F) <<< 6) ||| (s2 &&& 0x3F), 3) else
    let s3 := byteAt s 3
    if s3 < 0x80 ∨ 0xBF < s3 then (RuneError, 1) else
    (((s0 &&& 0x07) <<< 18) ||| ((s1 &&& 0x3F) <<< 12) ||| ((s2 &&& 0x3F) <<< 6)
      ||| (s3 &&& 0x3F), 4)

/-- The loop `for _, c := range s`, with `skip` bytes of the rune decoded last
still to be passed over: at each rune boundary the rune at that offset is
decoded and the offset advances by its width. -/
def rangeFrom : Nat → GoString → List Nat
  | _, [] => []
  | skip + 1, _ :: s => rangeFrom skip s
  | 0, b :: s =>
    let d := DecodeRuneInString (b :: s)
    d.1 :: rangeFrom (d.2 - 1) s

/-- The runes that `for _, c := range s` yields, in order. -/
def runes (s : GoString) : List Nat := rangeFrom 0 s

/-- The conversion `byte(x)`: the low eight bits. -/
def toByte (x : Nat) : UInt8 := UInt8.ofNat (x % 256)

/-- The conversion `string(c)` of a rune (`utf8.EncodeRune`): the UTF-8
encoding of `c`, or that of U+FFFD when `c` is a surrogate or out of range. -/
def EncodeRune (r : Nat) : GoString :=
  if r ≤ 0x7F then [toByte r]
  else if r ≤ 0x7FF then [toByte (0xC0 ||| (r >>> 6)), toByte (0x80 ||| (r &&& 0x3F))]
  else if MaxRune < r ∨ (0xD800 ≤ r ∧ r ≤ 0xDFFF) then [0xEF, 0xBF, 0xBD]
  else if r ≤ 0xFFFF then
    [toByte (0xE0 ||| (r >>> 12)), toByte (0x80 ||| ((r >>> 6) &&& 0x3F)),
      toByte (0x80 ||| (r &&& 0x3F))]
  else
    [toByte (0xF0 ||| (r >>> 18)), toByte (0x80 ||| ((r >>> 12) &&& 0x3F)),
      toByte (0x80 ||| ((r >>> 6) &&& 0x3F)), toByte (0x80 ||| (r &&& 0x3F))]

/-- A Go string literal: the UTF-8 bytes of the text. -/
def str (s : String) : GoString := s.data.flatMap (fun c => EncodeRune c.toNat)

/-- The function `strings.Split(s, sep)` for a one-byte `sep`: the pieces of `s` between
the occurrences of `sep`; always at least one piece. -/
def Split : GoString → UInt8 → List GoString
  | [], _ => [[]]
  | b :: s, sep =>
    if b = sep then [] :: Split s sep
    else
      match Split s sep with
      | [] => [[b]]
      | seg :: rest => (b :: seg) :: rest

/-- Largest value of Go's `int`. -/
def maxInt : Int := 2 ^ 63 - 1

/-- Digit loop of `strconv.Atoi`: the value of a run of ASCII digits read
after `acc`, or `none` at the first byte that is not a digit. -/
def atoiDigits : GoString → Nat → Option Nat
  | [], acc => some acc
  | b :: s, acc =>
    if 48 ≤ b.toNat ∧ b.toNat ≤ 57 then atoiDigits s (acc * 10 + (b.toNat - 48))
    else none

/-- The function `strconv.Atoi`: an optional sign, then one or more ASCII digits, the
value fitting in an `int`; `none` stands for a non-nil error. -/
def Atoi (s : GoString) : Option Int :=
  match s with
  | [] => none
  | b :: t =>
    let neg := b = 45
    let ds := if b = 45 ∨ b = 43 then t else s
    match ds with
    | [] => none
    | _ :: _ =>
      match atoiDigits ds 0 with
      | none => none
      | some v =>
        if neg then (if (v : Int) ≤ maxInt + 1 then some (-(v : Int)) else none)
        else (if (v : Int) ≤ maxInt then some (v : Int) else none)

/-! ## The parser -/

/-- The three `return nil, errors.New("Bad fen")` statements of `GetPosition`,
in source order.  The constructor records which statement returned; the Go
value is an `*errors.errorString`, of which a caller can read the text
`Error()` and nothing else. -/
inductive FenError where
  | badParts : FenError
  | badRankCount : FenError
  | badRankLength : FenError
deriving DecidableEq, Repr

/-- The method `Error()` of the returned error: the text given to `errors.New`. -/
def FenError.Error : FenError → GoString
  | .badParts => str "Bad fen"
  | .badRankCount => str "Bad fen"
  | .badRankLength => str "Bad fen"

/-- The struct `Position`. -/
structure Position where
  pieces : List (List GoString)
  active : GoString
  castling : GoString
  enpassant : GoString
  halfmove : Int
  fullmove : Int
deriving DecidableEq, Repr

deriving instance DecidableEq for Except

/-- The marker `"_"` of an empty square. -/
def emptyCell : GoString := [95]

/-- One iteration of the loop over the characters of a rank (lines 85-93):
`rank` after the rune `c` has been handled. -/
def rankStep (rank : List GoString) (c : Nat) : List GoString :=
  let p := EncodeRune c
  match Atoi p with
  | some count => rank ++ List.replicate count.toNat emptyCell
  | none => rank ++ [p]

/-- The loop `for _, c := range rps` of lines 83-94, started from the empty
`rank`. -/
def expandRank (rps : GoString) : List GoString :=
  (runes rps).foldl rankStep []

/-- The loop `for i, rps := range fenpieces` of lines 82-99, from index `i`
on, with `pieces` as built so far. -/
def rankLoop : Nat → List GoString → List (List GoString) →
    Except FenError (List (List GoString))
  | _, [], pieces => .ok pieces
  | i, rps :: rest, pieces =>
    let rank := expandRank rps
    if rank.length ≠ 8 then .error .badRankLength
    else rankLoop (i + 1) rest (pieces.set (7 - i) rank)

/-- The function `GetPosition`. -/
def GetPosition (fen : GoString) : Except FenError Position :=
  match Split fen 32 with
  | [] => .error .badParts
  | parts0 :: _ =>
    let fenpieces := Split parts0 47
    if fenpieces.length ≠ 8 then .error .badRankCount
    else
      match rankLoop 0 fenpieces (List.replicate 8 []) with
      | .error e => .error e
      | .ok pieces =>
        .ok { pieces := pieces, active := [], castling := [], enpassant := [],
              halfmove := 0, fullmove := 0 }

/-! ## Go's `int` -/

/-- Two's-complement wrap-around of the 64-bit `int`: the value an arithmetic
operation leaves when its exact result is `x`. -/
def wrapInt (x : Int) : Int := (x + 9223372036854775808) % 18446744073709551616
  - 9223372036854775808

/-! ## Packages `image`, `image/color` and `image/draw` -/

/-- The struct `image.Point`. -/
structure Point where
  X : Int
  Y : Int
deriving DecidableEq, Repr

/-- The struct `image.Rectangle`: the points with `Min.X ≤ x < Max.X` and
`Min.Y ≤ y < Max.Y`. -/
structure Rectangle where
  Min : Point
  Max : Point
deriving DecidableEq, Repr

/-- The point `image.ZP`. -/
def ZP : Point := ⟨0, 0⟩

/-- The rectangle `image.ZR`. -/
def ZR : Rectangle := ⟨ZP, ZP⟩

/-- The method `Point.Add`. -/
def Point.Add (p q : Point) : Point := ⟨wrapInt (p.X + q.X), wrapInt (p.Y + q.Y)⟩

/-- The method `Point.Sub`. -/
def Point.Sub (p q : Point) : Point := ⟨wrapInt (p.X - q.X), wrapInt (p.Y - q.Y)⟩

/-- The function `image.Rect`: the rectangle with the given corners, the
minimum and maximum coordinates swapped where necessary so that it is
well-formed. -/
def Rect (x0 y0 x1 y1 : Int) : Rectangle :=
  { Min := ⟨if x0 > x1 then x1 else x0, if y0 > y1 then y1 else y0⟩,
    Max := ⟨if x0 > x1 then x0 else x1, if y0 > y1 then y0 else y1⟩ }

/-- The method `Rectangle.Empty`. -/
def Rectangle.Empty (r : Rectangle) : Prop := r.Min.X ≥ r.Max.X ∨ r.Min.Y ≥ r.Max.Y

instance (r : Rectangle) : Decidable r.Empty := by
  unfold Rectangle.Empty; exact inferInstance

/-- The method `Rectangle.Add`: the rectangle translated by `p`. -/
def Rectangle.Add (r : Rectangle) (p : Point) : Rectangle := ⟨r.Min.Add p, r.Max.Add p⟩

/-- The method `Rectangle.Intersect`: the largest rectangle contained in both,
`image.ZR` when they do not overlap. -/
def Rectangle.Intersect (r s : Rectangle) : Rectangle :=
  let t : Rectangle :=
    { Min := ⟨if r.Min.X < s.Min.X then s.Min.X else r.Min.X,
              if r.Min.Y < s.Min.Y then s.Min.Y else r.Min.Y⟩,
      Max := ⟨if r.Max.X > s.Max.X then s.Max.X else r.Max.X,
              if r.Max.Y > s.Max.Y then s.Max.Y else r.Max.Y⟩ }
  if t.Empty then ZR else t

/-- The method `Point.In`. -/
def Point.In (p : Point) (r : Rectangle) : Prop :=
  r.Min.X ≤ p.X ∧ p.X < r.Max.X ∧ r.Min.Y ≤ p.Y ∧ p.Y < r.Max.Y

instance (p : Point) (r : Rectangle) : Decidable (p.In r) := by
  unfold Point.In; exact inferInstance

/-- The struct `color.RGBA`: an alpha-premultiplied colour with 8 bits per
channel. -/
structure RGBA where
  R : Nat
  G : Nat
  B : Nat
  A : Nat
deriving DecidableEq, Repr

/-- A `color.Color`, given by the four 16-bit alpha-premultiplied values its
method `RGBA()` returns. -/
structure Color where
  r : Nat
  g : Nat
  b : Nat
  a : Nat
deriving DecidableEq, Repr

set_option linter.dupNamespace false in
/-- The method `RGBA()` of `color.RGBA`: each channel `c` becomes `c | c<<8`. -/
def RGBA.RGBA (c : RGBA) : Color :=
  ⟨c.R ||| (c.R <<< 8), c.G ||| (c.G <<< 8), c.B ||| (c.B <<< 8), c.A ||| (c.A <<< 8)⟩

/-- An `image.Image`: its `Bounds()` and, for every point, the colour `At`
returns. -/
structure Image where
  Bounds : Rectangle
  At : Int → Int → Color

/-- The image `&image.Uniform{c}`: the colour `c` everywhere within bounds
that reach 10^9 in every direction. -/
def Uniform (c : RGBA) : Image :=
  { Bounds := ⟨⟨-1000000000, -1000000000⟩, ⟨1000000000, 1000000000⟩⟩,
    At := fun _ _ => c.RGBA }

/-- An `*image.RGBA`: its rectangle `Rect` and, for the pixel at `(x, y)`, the
four bytes `Pix` holds for it.  Outside `Rect` there is no pixel. -/
structure RGBAImage where
  Rect : Rectangle
  Pix : Int → Int → RGBA

/-- The method `Rectangle.Dx`: the width. -/
def Rectangle.Dx (r : Rectangle) : Int := wrapInt (r.Max.X - r.Min.X)

/-- The method `Rectangle.Dy`: the height. -/
def Rectangle.Dy (r : Rectangle) : Int := wrapInt (r.Max.Y - r.Min.Y)

/-- The function `mul3NonNeg` of package `image`: the product `x*y*z`, or -1
when an argument is negative or the product overflows an `int`.  The two calls
of `bits.Mul64` have a high word other than zero exactly when the products
`x*y` and `(x*y)*z` reach 2^64, and `int(lo)` is negative when the low word
reaches 2^63; the further test `uint64(a) != lo` never holds for the 64-bit
`int`. -/
def mul3NonNeg (x y z : Int) : Int :=
  if x < 0 ∨ y < 0 ∨ z < 0 then -1
  else if 18446744073709551616 ≤ x * y then -1
  else if 18446744073709551616 ≤ x * y * z then -1
  else if 9223372036854775808 ≤ x * y * z then -1
  else x * y * z

/-- The function `pixelBufferLength` of package `image`: the number of bytes of
the pixel buffer of the rectangle `r`; it panics ("Rectangle has huge or
negative dimensions") when `mul3NonNeg` returns a negative number. -/
def pixelBufferLength (bytesPerPixel : Int) (r : Rectangle) : Option Int :=
  let totalLength := mul3NonNeg bytesPerPixel r.Dx r.Dy
  if totalLength < 0 then none else some totalLength

/-- The constant `maxAlloc` of the runtime on the 64-bit ports: 2^48, the
largest size of one allocation. -/
def maxAlloc : Int := 281474976710656

/-- The allocation `make([]uint8, len)`, `true` when it returns a slice.
`makeslice` panics ("len out of range") when `len` is negative or exceeds
`maxAlloc`; otherwise it asks the allocator for `len` bytes, and the runtime
aborts ("out of memory") when it cannot obtain them.  `avail` is the largest
number of bytes the allocator can obtain for the slice; it depends on the
machine and is a parameter. -/
def makeslice (avail : Nat) (len : Int) : Bool :=
  if len < 0 ∨ maxAlloc < len then false
  else if len ≤ (avail : Int) then true
  else false

/-- The function `image.NewRGBA`: the buffer of
`pixelBufferLength(4, r, "RGBA")` bytes that `make` allocates, every pixel
zero; `none` when `pixelBufferLength` or `make` does not return. -/
def NewRGBA (avail : Nat) (r : Rectangle) : Option RGBAImage :=
  match pixelBufferLength 4 r with
  | none => none
  | some len =>
    if makeslice avail len then some { Rect := r, Pix := fun _ _ => ⟨0, 0, 0, 0⟩ }
    else none

/-- The method `RGBAAt`: the pixel at `(x, y)`, the zero colour outside the
rectangle. -/
def RGBAImage.RGBAAt (m : RGBAImage) (x y : Int) : RGBA :=
  if (⟨x, y⟩ : Point).In m.Rect then m.Pix x y else ⟨0, 0, 0, 0⟩

/-- The compositing operators `draw.Over` and `draw.Src`. -/
inductive Op where
  | Over : Op
  | Src : Op
deriving DecidableEq, Repr

/-- One channel of `draw.Over` without a mask, in `uint32` arithmetic:
`uint8((d*a + s*m) / m >> 8)` with `m = 0xFFFF` and `a = (m - sa) * 0x101`. -/
def overChannel (d s sa : Nat) : Nat :=
  ((((d * (((0xFFFF + 4294967296 - sa) % 4294967296 * 0x101) % 4294967296)
      + s * 0xFFFF) % 4294967296) / 0xFFFF) >>> 8) % 256

/-- One channel of `draw.Src` without a mask: `uint8(s * m / m >> 8)`. -/
def srcChannel (s : Nat) : Nat := ((((s * 0xFFFF) % 4294967296) / 0xFFFF) >>> 8) % 256

/-- The pixel `draw.Draw` leaves where the destination held `d` and the source
colour is `s`. -/
def blend (op : Op) (d : RGBA) (s : Color) : RGBA :=
  match op with
  | .Src => ⟨srcChannel s.r, srcChannel s.g, srcChannel s.b, srcChannel s.a⟩
  | .Over => ⟨overChannel d.R s.r s.a, overChannel d.G s.g s.a, overChannel d.B s.b s.a,
      overChannel d.A s.a s.a⟩

/-- The function `draw.Draw(dst, r, src, sp, op)` on an `*image.RGBA`: `r` is
clipped to the bounds of `dst` and to those of `src` translated so that `sp`
falls on `r.Min`; every pixel of the clipped rectangle is composited with the
source pixel aligned to it, every other pixel is left as it is. -/
def Draw (dst : RGBAImage) (r : Rectangle) (src : Image) (sp : Point) (op : Op) :
    RGBAImage :=
  let orig := r.Min
  let r1 := (r.Intersect dst.Rect).Intersect (src.Bounds.Add (orig.Sub sp))
  if r1.Empty then dst
  else
    { Rect := dst.Rect,
      Pix := fun x y =>
        if (⟨x, y⟩ : Point).In r1 then
          blend op (dst.Pix x y)
            (src.At (wrapInt (sp.X + (x - orig.X))) (wrapInt (sp.Y + (y - orig.Y))))
        else dst.Pix x y }

/-! ## The renderer -/

/-- The constant `SQUARE_SIZE`. -/
def SQUARE_SIZE : Int := 45

/-- The struct `BoardConfig`. -/
structure BoardConfig where
  SquareSize : Int
  BoardSize : Int
deriving DecidableEq, Repr

/-- The function `NewBoardConfig`. -/
def NewBoardConfig (SquareSize : Int) : BoardConfig :=
  { SquareSize := SquareSize, BoardSize := wrapInt (SquareSize * 8) }

/-- The colour `black` of `DisplayBoard`, that of the dark squares. -/
def black : RGBA := ⟨77, 109, 146, 255⟩

/-- The colour `white` of `DisplayBoard`, that of the light squares. -/
def white : RGBA := ⟨236, 236, 215, 255⟩

/-- The rectangle `s` of lines 120-121 for the cell at rank `r` and file `f`:
`image.Rect(p.X, p.Y, p.X+SquareSize, p.Y+SquareSize)` with
`p = (f*SquareSize, BoardSize - r*SquareSize - SquareSize)`. -/
def cellRect (bc : BoardConfig) (r f : Nat) : Rectangle :=
  let pX := wrapInt ((f : Int) * bc.SquareSize)
  let pY := wrapInt (wrapInt (bc.BoardSize - wrapInt ((r : Int) * bc.SquareSize))
    - bc.SquareSize)
  Rect pX pY (wrapInt (pX + bc.SquareSize)) (wrapInt (pY + bc.SquareSize))

/-- The body of the inner loop of `DisplayBoard` (lines 120-128) for the cell
at rank `r` and file `f` holding `ss`, on the buffer `m`.  `pieces` is the
global sprite map; a symbol it lacks yields a nil image, on which `draw.Draw`
panics. -/
def drawCell (bc : BoardConfig) (pieces : GoString → Option Image) (r f : Nat)
    (ss : GoString) (m : RGBAImage) : Option RGBAImage :=
  let s := cellRect bc r f
  let m1 := if (r + f) % 2 = 1 then Draw m s (Uniform white) ZP .Src else m
  if ss ≠ emptyCell then
    match pieces ss with
    | none => none
    | some sprite => some (Draw m1 s sprite ZP .Over)
  else some m1

/-- The loop `for f, ss := range fs` of `DisplayBoard`, from file `f` on. -/
def drawRank (bc : BoardConfig) (pieces : GoString → Option Image) (r : Nat) :
    Nat → List GoString → RGBAImage → Option RGBAImage
  | _, [], m => some m
  | f, ss :: fs, m =>
    match drawCell bc pieces r f ss m with
    | none => none
    | some m1 => drawRank bc pieces r (f + 1) fs m1

/-- The loop `for r, fs := range pos.pieces` of `DisplayBoard`, from rank `r`
on. -/
def drawRanks (bc : BoardConfig) (pieces : GoString → Option Image) :
    Nat → List (List GoString) → RGBAImage → Option RGBAImage
  | _, [], m => some m
  | r, fs :: rest, m =>
    match drawRank bc pieces r 0 fs m with
    | none => none
    | some m1 => drawRanks bc pieces (r + 1) rest m1

/-- The function `DisplayBoard`, up to the call of `jpeg.Encode`: the pixel
buffer `m` handed to the encoder, or `none` when `image.NewRGBA` does not
return the buffer or drawing panics.  The global sprite map `pieces` and the
memory `avail` the allocator can obtain are parameters. -/
def DisplayBoard (avail : Nat) (bc : BoardConfig) (pos : Position)
    (pieces : GoString → Option Image) : Option RGBAImage :=
  match NewRGBA avail (Rect 0 0 bc.BoardSize bc.BoardSize) with
  | none => none
  | some m =>
    let m := Draw m m.Rect (Uniform black) ZP .Src
    drawRanks bc pieces 0 pos.pieces m

/-! ## The specification's vocabulary -/

/-- The piece-placement field of a FEN: the text before the first space. -/
def placement (fen : GoString) : GoString := fen.takeWhile (fun b => b != 32)

/-- As the specification words it: an ASCII digit `d` stands for `d` empty
markers, any other character for the one-character string of itself. -/
def cellsOf (c : Nat) : List GoString :=
  if 48 ≤ c ∧ c ≤ 57 then List.replicate (c - 48) emptyCell else [EncodeRune c]

/-- As the specification words it: the cells a rank segment expands to, the
concatenation of `cellsOf` over its characters from left to right. -/
def expansion (seg : GoString) : List GoString := (runes seg).flatMap cellsOf

/-- As the specification words it: the digit-expanded cell count of a segment;
a digit contributes its value, every other character one. -/
def cellCount (seg : GoString) : Nat :=
  ((runes seg).map (fun c => if 48 ≤ c ∧ c ≤ 57 then c - 48 else 1)).sum

/-- The part of a rank segment that stands before a position in the placement
field, `a` being the text before the position: what follows the last `/`. -/
def segBefore (a : GoString) : GoString :=
  (a.reverse.takeWhile (fun x => x != 47)).reverse

/-- The part of a rank segment that stands after a position, `b` being the
text after the position: what precedes the first `/` or space. -/
def segAfter (b : GoString) : GoString := b.takeWhile (fun x => x != 47 && x != 32)

/-- The array `piece_names`: the twelve canonical piece symbols. -/
def piece_names : List GoString :=
  [str "r", str "n", str "b", str "q", str "k", str "p",
   str "R", str "N", str "B", str "Q", str "K", str "P"]

/-- The conversion `color.RGBAModel.Convert`: a colour as the 8-bit pixel an
`*image.RGBA` holds for it, `uint8(c >> 8)` on every channel. -/
def RGBAModel (c : Color) : RGBA :=
  ⟨(c.r >>> 8) % 256, (c.g >>> 8) % 256, (c.b >>> 8) % 256, (c.a >>> 8) % 256⟩

/-! ## Start-up and the HTTP handler -/

/-- The global map `pieces` after the assignment `pieces[p] = m`. -/
def setPiece (pieces : GoString → Option Image) (p : GoString) (m : Image) :
    GoString → Option Image :=
  fun k => if k = p then some m else pieces k

/-- What a run of `InitPieces` leaves: the error it returns (`none` for nil),
the global map `pieces`, and the names `LoadPiece` was called with, in order. -/
structure InitResult (E : Type) where
  err : Option E
  pieces : GoString → Option Image
  calls : List GoString

/-- The loop `for _, p := range piece_names` of `InitPieces` over the names
still to load.  `LoadPiece`, which reads and decodes `images/<name>.png`, is a
parameter: a function from the name to the image or the error. -/
def InitPiecesFrom {E : Type} (LoadPiece : GoString → Except E Image) :
    List GoString → (GoString → Option Image) → List GoString → InitResult E
  | [], pieces, calls => { err := none, pieces := pieces, calls := calls }
  | p :: rest, pieces, calls =>
    match LoadPiece p with
    | .error err => { err := some err, pieces := pieces, calls := calls ++ [p] }
    | .ok m => InitPiecesFrom LoadPiece rest (setPiece pieces p m) (calls ++ [p])

/-- The function `InitPieces`, run on the global map `pieces`. -/
def InitPieces {E : Type} (LoadPiece : GoString → Except E Image)
    (pieces : GoString → Option Image) : InitResult E :=
  InitPiecesFrom LoadPiece piece_names pieces []

/-- What the function `init` leaves: the global map `pieces`, the error it
logged with `log.Println` (if any), and the patterns registered with
`http.HandleFunc`. -/
structure InitState (E : Type) where
  pieces : GoString → Option Image
  logged : Option E
  handlers : List GoString

/-- The function `init`: it logs the error of `InitPieces`, if there is one,
and then registers `handler` for the pattern `"/"`. -/
def init {E : Type} (LoadPiece : GoString → Except E Image)
    (pieces : GoString → Option Image) : InitState E :=
  let res := InitPieces LoadPiece pieces
  { pieces := res.pieces, logged := res.err, handlers := [str "/"] }

/-- How a run of `main` ends: `log.Fatal` exits the process, a panic or an
abort of the runtime, or `DisplayBoard` has written the image of the buffer
`m` to standard output. -/
inductive MainOutcome where
  | fatal : MainOutcome
  | panicked : MainOutcome
  | rendered (m : RGBAImage) : MainOutcome

/-- The function `main`.  The error of `GetPosition` is not looked at: with a
nil `pos`, `DisplayBoard` panics. -/
def main {E : Type} (avail : Nat) (LoadPiece : GoString → Except E Image)
    (pieces : GoString → Option Image) : MainOutcome :=
  let res := InitPieces LoadPiece pieces
  match res.err with
  | some _ => .fatal
  | none =>
    let bc := NewBoardConfig SQUARE_SIZE
    match GetPosition
      (str "rnbqkbnr/pp1ppppp/8/2p5/4P3/5N2/PPPP1PPP/RNBQKB1R b KQkq - 1 2") with
    | .error _ => .panicked
    | .ok pos =>
      match DisplayBoard avail bc pos res.pieces with
      | none => .panicked
      | some m => .rendered m

/-- The function `strings.Trim(s, cutset)` for a one-byte cutset: `s` without
its leading and trailing bytes equal to `c`. -/
def Trim (s : GoString) (c : UInt8) : GoString :=
  ((s.dropWhile (fun b => b == c)).reverse.dropWhile (fun b => b == c)).reverse

/-- The test `validHeaderFieldByte` of package `net/textproto`: the bytes of
an RFC 7230 token. -/
def validHeaderFieldByte (c : UInt8) : Bool :=
  (48 ≤ c.toNat ∧ c.toNat ≤ 57) ∨ (65 ≤ c.toNat ∧ c.toNat ≤ 90) ∨
    (97 ≤ c.toNat ∧ c.toNat ≤ 122) ∨
    c.toNat ∈ [33, 35, 36, 37, 38, 39, 42, 43, 45, 46, 94, 95, 96, 124, 126]

/-- The second loop of `canonicalMIMEHeaderKey`: the first letter and every
letter after a dash in upper case, every other letter in lower case. -/
def canonicalLoop : Bool → GoString → GoString
  | _, [] => []
  | upper, c :: a =>
    let c1 : UInt8 :=
      if upper ∧ 97 ≤ c.toNat ∧ c.toNat ≤ 122 then toByte (c.toNat - 32)
      else if ¬ upper ∧ 65 ≤ c.toNat ∧ c.toNat ≤ 90 then toByte (c.toNat + 32)
      else c
    c1 :: canonicalLoop (c1 == 45) a

/-- The function `textproto.CanonicalMIMEHeaderKey`, which `Header.Set`
applies to the key: a key with a byte that is no token byte is left as it
is. -/
def CanonicalMIMEHeaderKey (s : GoString) : GoString :=
  if s.all validHeaderFieldByte then canonicalLoop true s else s

/-- What the server sends for a request once the handler has returned: the
status (200 unless `WriteHeader` was called), the header fields the handler
set, and the bytes it wrote. -/
structure Response where
  status : Nat
  header : List (GoString × GoString)
  body : GoString
deriving DecidableEq, Repr

/-- The function `handler` for a request with `r.URL.Path = path`.  `pieces`
is the global sprite map, `encode m` the bytes `jpeg.Encode` writes for the
buffer `m` and `avail` the memory the allocator can obtain.  `none` is a panic
of the handler or an abort of the runtime, after which the server sends no
response. -/
def handler (avail : Nat) (pieces : GoString → Option Image)
    (encode : RGBAImage → GoString) (path : GoString) : Option Response :=
  let bc := NewBoardConfig SQUARE_SIZE
  let fen := Trim path 47
  match GetPosition fen with
  | .error err => some { status := 400, header := [], body := err.Error }
  | .ok pos =>
    match DisplayBoard avail bc pos pieces with
    | none => none
    | some m =>
      some { status := 200,
             header := [(CanonicalMIMEHeaderKey (str "Content-type"), str "image/jpeg")],
             body := encode m }

/-! ## Lemmas on the library functions -/

theorem toByte_toNat (x : Nat) : (toByte x).toNat = x % 256 := by
  unfold toByte
  exact UInt8.toNat_ofNat_of_lt (Nat.mod_lt _ (by decide))

theorem Split_cons (b : UInt8) (s : GoString) (sep : UInt8) :
    Split (b :: s) sep =
      if b = sep then [] :: Split s sep
      else
        match Split s sep with
        | [] => [[b]]
        | seg :: rest => (b :: seg) :: rest := rfl

theorem Split_ne_nil (s : GoString) (sep : UInt8) : Split s sep ≠ [] := by
  induction s with
  | nil => simp [Split]
  | cons b s ih =>
    unfold Split
    split_ifs
    · simp
    · cases h : Split s sep <;> simp

theorem Split_length (s : GoString) (sep : UInt8) :
    (Split s sep).length = s.count sep + 1 := by
  induction s with
  | nil => simp [Split]
  | cons b s ih =>
    unfold Split
    by_cases hb : b = sep
    · subst hb
      simp [ih]
    · have hne : (b == sep) = false := by simpa using hb
      rw [if_neg hb, List.count_cons, hne]
      cases h : Split s sep with
      | nil => exact absurd h (Split_ne_nil s sep)
      | cons seg rest => rw [h] at ih; simpa using ih

theorem Split_append_sep (p s : GoString) (sep : UInt8) (hp : sep ∉ p) :
    Split (p ++ sep :: s) sep = p :: Split s sep := by
  induction p with
  | nil => simp [Split]
  | cons b p ih =>
    have hb : b ≠ sep := fun h => hp (by simp [h])
    have hp2 : sep ∉ p := fun h => hp (by simp [h])
    rw [List.cons_append, Split_cons, if_neg hb, ih hp2]

theorem Split_of_not_mem (p : GoString) (sep : UInt8) (hp : sep ∉ p) :
    Split p sep = [p] := by
  induction p with
  | nil => simp [Split]
  | cons b p ih =>
    have hb : b ≠ sep := fun h => hp (by simp [h])
    have hp2 : sep ∉ p := fun h => hp (by simp [h])
    unfold Split
    rw [if_neg hb, ih hp2]

theorem Split_head (s : GoString) (sep : UInt8) :
    ∃ rest, Split s sep = s.takeWhile (fun b => b != sep) :: rest := by
  induction s with
  | nil => exact ⟨[], by simp [Split]⟩
  | cons b s ih =>
    obtain ⟨rest, hrest⟩ := ih
    unfold Split
    by_cases hb : b = sep
    · subst hb
      exact ⟨Split s b, by simp⟩
    · rw [if_neg hb, hrest]
      refine ⟨rest, ?_⟩
      have hne : (b != sep) = true := by simpa using hb
      simp [List.takeWhile_cons, hne]

theorem Split_not_mem (s : GoString) (sep : UInt8) :
    ∀ seg ∈ Split s sep, sep ∉ seg := by
  induction s with
  | nil => simp [Split]
  | cons b s ih =>
    unfold Split
    by_cases hb : b = sep
    · subst hb
      intro seg hseg
      simp only [if_true, List.mem_cons] at hseg
      rcases hseg with h | h
      · subst h; simp
      · exact ih seg h
    · rw [if_neg hb]
      cases h : Split s sep with
      | nil => exact absurd h (Split_ne_nil s sep)
      | cons seg0 rest =>
        rw [h] at ih
        intro seg hseg
        simp only [List.mem_cons] at hseg
        rcases hseg with h1 | h1
        · subst h1
          have := ih seg0 (by simp)
          simp only [List.mem_cons, not_or]
          exact ⟨fun e => hb e.symm, this⟩
        · exact ih seg (by simp [h1])

theorem Split_intercalate (segs : List GoString) (sep : UInt8) (hne : segs ≠ [])
    (h : ∀ seg ∈ segs, sep ∉ seg) :
    Split (List.intercalate [sep] segs) sep = segs := by
  induction segs with
  | nil => exact absurd rfl hne
  | cons a rest ih =>
    cases rest with
    | nil =>
      have : List.intercalate [sep] [a] = a := by simp [List.intercalate]
      rw [this]
      exact Split_of_not_mem a sep (h a (by simp))
    | cons b rest2 =>
      have hrec := ih (by simp) (fun seg hseg => h seg (by simp [hseg]))
      have : List.intercalate [sep] (a :: b :: rest2)
          = a ++ sep :: List.intercalate [sep] (b :: rest2) := by
        simp [List.intercalate, List.intersperse]
      rw [this, Split_append_sep _ _ _ (h a (by simp)), hrec]

/-- A string whose first byte is neither a sign nor a digit is no number. -/
theorem Atoi_of_high (b : UInt8) (t : GoString) (hb : 128 ≤ b.toNat) :
    Atoi (b :: t) = none := by
  have h45 : b ≠ 45 := by
    intro h; rw [h] at hb; exact absurd hb (by decide)
  have h43 : b ≠ 43 := by
    intro h; rw [h] at hb; exact absurd hb (by decide)
  have hd : ¬ (48 ≤ b.toNat ∧ b.toNat ≤ 57) := by omega
  simp [Atoi, h45, h43, atoiDigits, hd]

/-- The encoding of a rune above U+007F starts with a byte of value 128 or
more. -/
theorem EncodeRune_high (c : Nat) (hc : 0x7F < c) :
    ∃ b t, EncodeRune c = b :: t ∧ 128 ≤ b.toNat := by
  have e2 : ∀ x < 32, 0xC0 ||| x = 0xC0 + x := by decide
  have e3 : ∀ x < 16, 0xE0 ||| x = 0xE0 + x := by decide
  have e4 : ∀ x < 8, 0xF0 ||| x = 0xF0 + x := by decide
  unfold EncodeRune
  rw [if_neg (by omega)]
  split_ifs with h1 h2 h3
  · refine ⟨_, _, rfl, ?_⟩
    have hx : c >>> 6 < 32 := by
      rw [Nat.shiftRight_eq_div_pow]; omega
    rw [toByte_toNat, e2 _ hx]; omega
  · exact ⟨_, _, rfl, by decide⟩
  · refine ⟨_, _, rfl, ?_⟩
    have hx : c >>> 12 < 16 := by
      rw [Nat.shiftRight_eq_div_pow]; omega
    rw [toByte_toNat, e3 _ hx]; omega
  · refine ⟨_, _, rfl, ?_⟩
    have hx : c >>> 18 < 8 := by
      rw [Nat.shiftRight_eq_div_pow]
      simp only [MaxRune] at h2
      omega
    rw [toByte_toNat, e4 _ hx]; omega

/-- On the one-rune string of `c`, `strconv.Atoi` succeeds exactly when `c` is
an ASCII digit, with the digit's value. -/
theorem Atoi_EncodeRune (c : Nat) :
    Atoi (EncodeRune c) = if 48 ≤ c ∧ c ≤ 57 then some ((c : Int) - 48) else none := by
  by_cases hc : c ≤ 0x7F
  · have hE : EncodeRune c = [toByte c] := by simp [EncodeRune, hc]
    have hn : (toByte c).toNat = c := by rw [toByte_toNat]; omega
    have h45 : toByte c = 45 ↔ c = 45 := by
      rw [UInt8.ext_iff, hn]; exact Iff.rfl
    have h43 : toByte c = 43 ↔ c = 43 := by
      rw [UInt8.ext_iff, hn]; exact Iff.rfl
    rw [hE]
    by_cases hd : 48 ≤ c ∧ c ≤ 57
    · have n45 : ¬ c = 45 := by omega
      have n43 : ¬ c = 43 := by omega
      have hle : ((c - 48 : Nat) : Int) ≤ maxInt := by
        simp only [maxInt]; omega
      simp only [Atoi, h45, h43, n45, n43, or_self, if_false, atoiDigits, hn, hd, and_self,
        if_true, Nat.zero_mul, Nat.zero_add, hle, decide_False, Bool.false_eq_true]
      congr 1
      omega
    · rw [if_neg hd]
      by_cases hs : c = 45 ∨ c = 43
      · have : toByte c = 45 ∨ toByte c = 43 := by rw [h45, h43]; exact hs
        simp [Atoi, this]
      · have : ¬ (toByte c = 45 ∨ toByte c = 43) := by rw [h45, h43]; exact hs
        simp [Atoi, this, atoiDigits, hn, hd]
  · obtain ⟨b, t, hE, hb⟩ := EncodeRune_high c (by omega)
    rw [hE, Atoi_of_high b t hb, if_neg (by omega)]

/-- One step of the rank loop appends the cells the specification assigns to
the character. -/
theorem rankStep_eq (rank : List GoString) (c : Nat) :
    rankStep rank c = rank ++ cellsOf c := by
  unfold rankStep cellsOf
  simp only [Atoi_EncodeRune]
  split_ifs with h
  · simp only
    congr 2
    omega
  · rfl

theorem foldl_rankStep (cs : List Nat) (acc : List GoString) :
    cs.foldl rankStep acc = acc ++ cs.flatMap cellsOf := by
  induction cs generalizing acc with
  | nil => simp
  | cons c cs ih => simp [List.foldl_cons, ih, rankStep_eq, List.flatMap_cons]

/-- The rank loop computes the expansion of the specification. -/
theorem expandRank_eq_expansion (rps : GoString) : expandRank rps = expansion rps := by
  simp [expandRank, expansion, foldl_rankStep]

theorem cellsOf_length (c : Nat) :
    (cellsOf c).length = if 48 ≤ c ∧ c ≤ 57 then c - 48 else 1 := by
  unfold cellsOf
  split_ifs <;> simp

theorem flatMap_cellsOf_length (cs : List Nat) :
    (cs.flatMap cellsOf).length
      = (cs.map (fun c => if 48 ≤ c ∧ c ≤ 57 then c - 48 else 1)).sum := by
  induction cs with
  | nil => simp
  | cons c cs ih => simp [List.flatMap_cons, ih, cellsOf_length]

/-- The number of cells of an expanded segment is its digit-expanded count. -/
theorem expansion_length (seg : GoString) : (expansion seg).length = cellCount seg := by
  unfold expansion cellCount
  exact flatMap_cellsOf_length (runes seg)

theorem drop_set_self {α : Type} (l : List α) (k : Nat) (x : α) (h : k < l.length) :
    (l.set k x).drop k = x :: l.drop (k + 1) := by
  induction l generalizing k with
  | nil => simp at h
  | cons a l ih =>
    cases k with
    | zero => simp
    | succ k =>
      simp only [List.set_cons_succ, List.drop_succ_cons]
      exact ih k (by simpa using h)

/-- The loop over the eight segments: it fails at a segment that does not
expand to eight cells, and otherwise leaves the expansions in reverse order in
the first `segs.length` slots. -/
theorem rankLoop_eq (segs : List GoString) :
    ∀ (i : Nat) (pieces : List (List GoString)), i + segs.length = 8 → pieces.length = 8 →
      rankLoop i segs pieces =
        if ∀ seg ∈ segs, (expandRank seg).length = 8 then
          .ok ((segs.map expandRank).reverse ++ pieces.drop segs.length)
        else .error .badRankLength := by
  induction segs with
  | nil => intro i pieces _ _; simp [rankLoop]
  | cons seg rest ih =>
    intro i pieces hi hp
    simp only [List.length_cons] at hi
    unfold rankLoop
    by_cases h8 : (expandRank seg).length = 8
    · have hk : 7 - i = rest.length := by omega
      simp only [h8, ne_eq, not_true_eq_false, if_false]
      rw [ih (i + 1) _ (by omega) (by simp [hp])]
      have hall : (∀ s ∈ seg :: rest, (expandRank s).length = 8)
          ↔ ∀ s ∈ rest, (expandRank s).length = 8 := by
        simp [h8]
      simp only [hall]
      split_ifs with hr
      · congr 1
        rw [hk, drop_set_self _ _ _ (by omega)]
        simp
      · rfl
    · have hall : ¬ ∀ s ∈ seg :: rest, (expandRank s).length = 8 := by
        intro h; exact h8 (h seg (by simp))
      simp [h8, hall]

/-- The first element of `strings.Split(fen, " ")` is the placement field. -/
theorem Split_space_head (fen : GoString) :
    ∃ rest, Split fen 32 = placement fen :: rest := Split_head fen 32

/-- What `GetPosition` computes, in terms of the placement field. -/
theorem GetPosition_eq (fen : GoString) :
    GetPosition fen =
      if (Split (placement fen) 47).length ≠ 8 then .error .badRankCount
      else if ∀ seg ∈ Split (placement fen) 47, (expansion seg).length = 8 then
        .ok { pieces := ((Split (placement fen) 47).map expansion).reverse,
              active := [], castling := [], enpassant := [], halfmove := 0, fullmove := 0 }
      else .error .badRankLength := by
  obtain ⟨rest, hrest⟩ := Split_space_head fen
  unfold GetPosition
  rw [hrest]
  simp only
  by_cases h8 : (Split (placement fen) 47).length = 8
  · simp only [h8, ne_eq, not_true_eq_false, if_false]
    rw [rankLoop_eq _ 0 _ (by omega) (by simp)]
    have hmap : (Split (placement fen) 47).map expandRank
        = (Split (placement fen) 47).map expansion :=
      List.map_congr_left (fun a _ => expandRank_eq_expansion a)
    simp only [expandRank_eq_expansion, hmap, h8]
    split_ifs with hall
    · simp
    · rfl
  · simp [h8]

theorem placement_of_not_mem (p : GoString) (hp : (32 : UInt8) ∉ p) : placement p = p := by
  unfold placement
  rw [List.takeWhile_eq_self_iff]
  intro b hb
  have : b ≠ 32 := fun h => hp (h ▸ hb)
  simpa using this

theorem placement_append (p s : GoString) (hp : (32 : UInt8) ∉ p) :
    placement (p ++ 32 :: s) = p := by
  unfold placement
  induction p with
  | nil => simp
  | cons b p ih =>
    have hb : b ≠ 32 := fun h => hp (by simp [h])
    have hp2 : (32 : UInt8) ∉ p := fun h => hp (by simp [h])
    have hne : (b != 32) = true := by simpa using hb
    simp [List.takeWhile_cons, hne, ih hp2]

theorem first_lead (s0 sz lo hi : Nat) (h : first s0 = .lead sz lo hi) :
    (sz = 2 ∨ sz = 3 ∨ sz = 4) ∧ 128 ≤ lo := by
  unfold first at h
  repeat' split at h
  all_goals (cases h <;> simp)

theorem first_ascii (s0 : Nat) (h : s0 < 128) : first s0 = .ascii := by
  simp [first, h]

/-- An ASCII byte decodes to itself, with width one. -/
theorem DecodeRune_ascii (b : UInt8) (s : GoString) (h : b.toNat < 128) :
    DecodeRuneInString (b :: s) = (b.toNat, 1) := by
  simp [DecodeRuneInString, byteAt, first_ascii _ h]

/-- The bytes after the first that a decoded rune spans are continuation
bytes, of value 128 or more. -/
theorem DecodeRune_skipped (b : UInt8) (s : GoString) (j : Nat)
    (hj : j < (DecodeRuneInString (b :: s)).2 - 1) :
    j < s.length ∧ 128 ≤ (s.getD j 0).toNat := by
  unfold DecodeRuneInString at hj
  simp only [List.length_cons, byteAt, List.getD_cons_zero, List.getD_cons_succ] at hj
  rw [if_neg (by omega)] at hj
  cases hf : first b.toNat with
  | ascii => rw [hf] at hj; simp at hj
  | invalid => rw [hf] at hj; simp at hj
  | lead sz lo hi =>
    obtain ⟨hsz, hlo⟩ := first_lead _ _ _ _ hf
    rw [hf] at hj
    simp only at hj
    split_ifs at hj with h1 h2 h3 h4 h5 h6 <;> simp only [Nat.sub_self, Nat.not_lt_zero,
      Nat.add_one_sub_one] at hj
    · have : j = 0 := by omega
      subst this
      exact ⟨by omega, by omega⟩
    · have : j = 0 ∨ j = 1 := by omega
      rcases this with rfl | rfl
      · exact ⟨by omega, by omega⟩
      · exact ⟨by omega, by omega⟩
    · have : j = 0 ∨ j = 1 ∨ j = 2 := by omega
      rcases this with rfl | rfl | rfl
      · exact ⟨by omega, by omega⟩
      · exact ⟨by omega, by omega⟩
      · exact ⟨by omega, by omega⟩

/-- Every ASCII byte of a string is one of the runes `range` yields: a rune
boundary is never lost inside a multi-byte sequence. -/
theorem ascii_mem_rangeFrom (s : GoString) :
    ∀ skip : Nat, (∀ j, j < skip → j < s.length → 128 ≤ (s.getD j 0).toNat) →
      ∀ b ∈ s, b.toNat < 128 → b.toNat ∈ rangeFrom skip s := by
  induction s with
  | nil => intro _ _ b hb; simp at hb
  | cons a s ih =>
    intro skip hskip b hb hlt
    cases skip with
    | zero =>
      simp only [rangeFrom, List.mem_cons]
      rcases List.mem_cons.mp hb with rfl | hbs
      · left; rw [DecodeRune_ascii _ _ hlt]
      · right
        exact ih _ (fun j hj _ => (DecodeRune_skipped a s j hj).2) b hbs hlt
    | succ k =>
      simp only [rangeFrom]
      have ha : 128 ≤ a.toNat := by
        have := hskip 0 (by omega) (by simp)
        simpa using this
      rcases List.mem_cons.mp hb with rfl | hbs
      · omega
      · refine ih k (fun j hj hjl => ?_) b hbs hlt
        have := hskip (j + 1) (by omega) (by simp; omega)
        simpa using this

theorem ascii_mem_runes (s : GoString) (b : UInt8) (hb : b ∈ s) (hlt : b.toNat < 128) :
    b.toNat ∈ runes s :=
  ascii_mem_rangeFrom s 0 (fun _ hj _ => absurd hj (by omega)) b hb hlt

theorem flatMap_cellsOf_nondigit (cs : List Nat) (h : ∀ c ∈ cs, ¬ (48 ≤ c ∧ c ≤ 57)) :
    cs.flatMap cellsOf = cs.map EncodeRune := by
  induction cs with
  | nil => simp
  | cons c cs ih =>
    have hc : ¬ (48 ≤ c ∧ c ≤ 57) := h c (by simp)
    rw [List.flatMap_cons, List.map_cons, ih (fun d hd => h d (by simp [hd]))]
    simp [cellsOf, hc]

/-- Board rank `7 - i` of the reversed list of eight expansions is the
expansion of segment `i`. -/
theorem board_rank {α : Type} (segs : List GoString) (f : GoString → α)
    (h8 : segs.length = 8) (i : Nat) (hi : i < 8) :
    ∃ seg, segs[i]? = some seg ∧ ((segs.map f).reverse)[7 - i]? = some (f seg) := by
  have hl : i < segs.length := by omega
  refine ⟨segs[i], List.getElem?_eq_getElem hl, ?_⟩
  rw [List.getElem?_reverse (by simp; omega)]
  simp only [List.length_map, h8]
  have : 8 - 1 - (7 - i) = i := by omega
  rw [this, List.getElem?_map, List.getElem?_eq_getElem hl]
  rfl

theorem intercalate_cons_cons (sep : UInt8) (a b : GoString) (rest : List GoString) :
    List.intercalate [sep] (a :: b :: rest)
      = a ++ sep :: List.intercalate [sep] (b :: rest) := by
  simp [List.intercalate, List.intersperse]

theorem mem_intercalate (segs : List GoString) (sep x : UInt8)
    (hx : x ∈ List.intercalate [sep] segs) : x = sep ∨ ∃ seg ∈ segs, x ∈ seg := by
  induction segs with
  | nil => simp [List.intercalate] at hx
  | cons a rest ih =>
    cases rest with
    | nil =>
      have : List.intercalate [sep] [a] = a := by simp [List.intercalate]
      rw [this] at hx
      exact Or.inr ⟨a, by simp, hx⟩
    | cons b rest2 =>
      rw [intercalate_cons_cons, List.mem_append, List.mem_cons] at hx
      rcases hx with h | h | h
      · exact Or.inr ⟨a, by simp, h⟩
      · exact Or.inl h
      · rcases ih h with h1 | ⟨seg, hseg, hxs⟩
        · exact Or.inl h1
        · exact Or.inr ⟨seg, by simp [hseg], hxs⟩

/-! ## Lemmas on the allocation of the pixel buffer -/

theorem NewRGBA_of_some (avail : Nat) (r : Rectangle) (m : RGBAImage)
    (h : NewRGBA avail r = some m) :
    m = { Rect := r, Pix := fun _ _ => ⟨0, 0, 0, 0⟩ } := by
  unfold NewRGBA at h
  split at h
  · cases h
  · split at h
    · exact (Option.some.inj h).symm
    · cases h

/-- The two steps of `DisplayBoard`: the allocation, then the drawing on a
buffer of zero pixels. -/
theorem DisplayBoard_eq (avail : Nat) (bc : BoardConfig) (pos : Position)
    (pieces : GoString → Option Image) :
    DisplayBoard avail bc pos pieces =
      if (NewRGBA avail (Rect 0 0 bc.BoardSize bc.BoardSize)).isSome then
        drawRanks bc pieces 0 pos.pieces
          (Draw { Rect := Rect 0 0 bc.BoardSize bc.BoardSize, Pix := fun _ _ => ⟨0, 0, 0, 0⟩ }
            (Rect 0 0 bc.BoardSize bc.BoardSize) (Uniform black) ZP .Src)
      else none := by
  unfold DisplayBoard
  cases h : NewRGBA avail (Rect 0 0 bc.BoardSize bc.BoardSize) with
  | none => rfl
  | some m =>
    rw [NewRGBA_of_some _ _ _ h]
    rfl

/-- When drawing panics, `DisplayBoard` hands over no buffer, whatever memory
is available. -/
theorem DisplayBoard_eq_none (avail : Nat) (bc : BoardConfig) (pos : Position)
    (pieces : GoString → Option Image)
    (h : (drawRanks bc pieces 0 pos.pieces
      (Draw { Rect := Rect 0 0 bc.BoardSize bc.BoardSize, Pix := fun _ _ => ⟨0, 0, 0, 0⟩ }
        (Rect 0 0 bc.BoardSize bc.BoardSize) (Uniform black) ZP .Src)).isSome = false) :
    DisplayBoard avail bc pos pieces = none := by
  rw [DisplayBoard_eq]
  split_ifs
  · exact Option.not_isSome_iff_eq_none.mp (by rw [h]; simp)
  · rfl

/-! ## Theorems on `GetPosition` -/

/-- C1: when the placement field of a FEN splits on `/` into exactly eight
segments and each of them expands to exactly eight cells, `GetPosition`
returns no error, and the board it returns has eight ranks of eight cells. -/
theorem GetPosition_ok_of_valid (fen : GoString)
    (h8 : (Split (placement fen) 47).length = 8)
    (hc : ∀ seg ∈ Split (placement fen) 47, cellCount seg = 8) :
    ∃ pos, GetPosition fen = .ok pos ∧ pos.pieces.length = 8 ∧
      ∀ rank ∈ pos.pieces, rank.length = 8 := by
  have hall : ∀ seg ∈ Split (placement fen) 47, (expansion seg).length = 8 :=
    fun seg hseg => by rw [expansion_length]; exact hc seg hseg
  refine ⟨_, by rw [GetPosition_eq, if_neg (by simp [h8]), if_pos hall], ?_, ?_⟩
  · simp [h8]
  · intro rank hrank
    simp only [List.mem_reverse, List.mem_map] at hrank
    obtain ⟨seg, hseg, rfl⟩ := hrank
    exact hall seg hseg

theorem GetPosition_ok_of_valid_witness :
    (Split (placement (str "rnbqkbnr/pp1ppppp/8/2p5/4P3/5N2/PPPP1PPP/RNBQKB1R w - 0 1"))
        47).length = 8 ∧
      ∃ pos, GetPosition (str "rnbqkbnr/pp1ppppp/8/2p5/4P3/5N2/PPPP1PPP/RNBQKB1R w - 0 1")
          = .ok pos ∧ pos.pieces.length = 8 ∧ ∀ rank ∈ pos.pieces, rank.length = 8 :=
  ⟨by decide, GetPosition_ok_of_valid _ (by decide) (by decide)⟩

/-- C2: when the placement field does not contain exactly seven `/`,
`GetPosition` fails at the rank-count test and returns no board; so it does on
the empty string and on every string that starts with a space. -/
theorem GetPosition_badRankCount (fen : GoString)
    (h : (placement fen).count 47 ≠ 7) :
    GetPosition fen = .error .badRankCount ∧
      GetPosition [] = .error .badRankCount ∧
      ∀ s : GoString, GetPosition (32 :: s) = .error .badRankCount := by
  have key : ∀ f : GoString, (placement f).count 47 ≠ 7 →
      GetPosition f = .error .badRankCount := by
    intro f hf
    rw [GetPosition_eq, if_pos]
    rw [Split_length]
    omega
  refine ⟨key fen h, key [] (by decide), fun s => key _ ?_⟩
  simp [placement]

theorem GetPosition_badRankCount_witness :
    (placement (str "8/8/8/8/8/8/8/8/8 w")).count 47 ≠ 7 ∧
      GetPosition (str "8/8/8/8/8/8/8/8/8 w") = .error .badRankCount :=
  ⟨by decide, (GetPosition_badRankCount _ (by decide)).1⟩

/-- C3: when the placement field has exactly eight segments and the segment
of index `i`, whichever of the eight it is, has a digit-expanded cell count
other than eight, `GetPosition` fails at the rank-length test and returns no
board. -/
theorem GetPosition_badRankLength (fen : GoString)
    (h8 : (Split (placement fen) 47).length = 8)
    (i : Nat) (seg : GoString) (hi : (Split (placement fen) 47)[i]? = some seg)
    (hbad : cellCount seg ≠ 8) :
    GetPosition fen = .error .badRankLength := by
  rw [GetPosition_eq, if_neg (by simp [h8]), if_neg]
  intro hall
  have hmem : seg ∈ Split (placement fen) 47 := List.getElem?_mem hi
  exact hbad (by rw [← expansion_length]; exact hall seg hmem)

theorem GetPosition_badRankLength_witness :
    (Split (placement (str "8/8/8/8/8/8/8/ppppppp")) 47)[7]? = some (str "ppppppp") ∧
      GetPosition (str "8/8/8/8/8/8/8/ppppppp") = .error .badRankLength :=
  ⟨by decide, GetPosition_badRankLength (str "8/8/8/8/8/8/8/ppppppp") (by decide) 7
    (str "ppppppp") (by decide) (by decide)⟩

/-- C4: in an accepted FEN the rank at board index `7 - i` is what the rank
loop makes of segment `i` of the placement field; for the starting position
board rank 7 is `r n b q k b n r` and board rank 0 is `R N B Q K B N R`. -/
theorem GetPosition_rank_order (fen : GoString) (pos : Position)
    (h : GetPosition fen = .ok pos) (i : Nat) (hi : i < 8) :
    (∃ seg, (Split (placement fen) 47)[i]? = some seg ∧
        pos.pieces[7 - i]? = some (expandRank seg)) ∧
      ∃ start, GetPosition (str "rnbqkbnr/pppppppp/8/8/8/8/PPPPPPPP/RNBQKBNR") = .ok start ∧
        start.pieces[7]? = some [str "r", str "n", str "b", str "q", str "k", str "b",
          str "n", str "r"] ∧
        start.pieces[0]? = some [str "R", str "N", str "B", str "Q", str "K", str "B",
          str "N", str "R"] := by
  constructor
  · rw [GetPosition_eq] at h
    split_ifs at h with h1 h2
    have h8 : (Split (placement fen) 47).length = 8 := by simpa using h1
    cases h
    obtain ⟨seg, hseg, hrank⟩ := board_rank (Split (placement fen) 47) expansion h8 i hi
    exact ⟨seg, hseg, by rw [expandRank_eq_expansion]; exact hrank⟩
  · refine ⟨_, rfl, ?_, ?_⟩ <;> decide

theorem GetPosition_rank_order_witness :
    GetPosition (str "8/8/8/8/8/8/8/RNBQKBNR") = .ok
        { pieces := [[str "R", str "N", str "B", str "Q", str "K", str "B", str "N",
            str "R"]] ++ List.replicate 7 (List.replicate 8 emptyCell),
          active := [], castling := [], enpassant := [], halfmove := 0, fullmove := 0 } ∧
      ∃ seg, (Split (placement (str "8/8/8/8/8/8/8/RNBQKBNR")) 47)[7]? = some seg ∧
        ([[str "R", str "N", str "B", str "Q", str "K", str "B", str "N", str "R"]] ++
          List.replicate 7 (List.replicate 8 emptyCell))[7 - 7]? = some (expandRank seg) :=
  ⟨by decide,
    (GetPosition_rank_order (str "8/8/8/8/8/8/8/RNBQKBNR")
      { pieces := [[str "R", str "N", str "B", str "Q", str "K", str "B", str "N",
          str "R"]] ++ List.replicate 7 (List.replicate 8 emptyCell),
        active := [], castling := [], enpassant := [], halfmove := 0, fullmove := 0 }
      (by decide) 7 (by decide)).1⟩

/-- C5: in an accepted FEN the rank at board index `7 - i` is the
concatenation, over the characters of segment `i` from left to right, of `d`
empty markers for an ASCII digit `d` and of the one-character string of any
other character; `"8"` gives eight empty markers and `"p2p4"` gives
`p _ _ p _ _ _ _`. -/
theorem GetPosition_rank_expansion (fen : GoString) (pos : Position)
    (h : GetPosition fen = .ok pos) (i : Nat) (hi : i < 8) :
    (∃ seg, (Split (placement fen) 47)[i]? = some seg ∧
        pos.pieces[7 - i]? = some ((runes seg).flatMap cellsOf)) ∧
      expandRank (str "8") = List.replicate 8 (str "_") ∧
      expandRank (str "p2p4") = [str "p", str "_", str "_", str "p", str "_", str "_",
        str "_", str "_"] := by
  refine ⟨?_, by decide, by decide⟩
  rw [GetPosition_eq] at h
  split_ifs at h with h1 h2
  have h8 : (Split (placement fen) 47).length = 8 := by simpa using h1
  cases h
  exact board_rank (Split (placement fen) 47) expansion h8 i hi

theorem GetPosition_rank_expansion_witness :
    GetPosition (str "p2p4/8/8/8/8/8/8/8") = .ok
        { pieces := List.replicate 7 (List.replicate 8 emptyCell) ++
            [[str "p", str "_", str "_", str "p", str "_", str "_", str "_", str "_"]],
          active := [], castling := [], enpassant := [], halfmove := 0, fullmove := 0 } ∧
      ∃ seg, (Split (placement (str "p2p4/8/8/8/8/8/8/8")) 47)[0]? = some seg ∧
        (List.replicate 7 (List.replicate 8 emptyCell) ++
          [[str "p", str "_", str "_", str "p", str "_", str "_", str "_", str "_"]])[7 - 0]?
          = some ((runes seg).flatMap cellsOf) :=
  ⟨by decide,
    (GetPosition_rank_expansion (str "p2p4/8/8/8/8/8/8/8")
      { pieces := List.replicate 7 (List.replicate 8 emptyCell) ++
          [[str "p", str "_", str "_", str "p", str "_", str "_", str "_", str "_"]],
        active := [], castling := [], enpassant := [], halfmove := 0, fullmove := 0 }
      (by decide) 0 (by decide)).1⟩

/-- C6: `GetPosition` looks at the first space-delimited field only: for a
string `p` without a space and any string `s`, `GetPosition (p ++ " " ++ s)`
has the outcome of `GetPosition p`; the example FEN with the fields
`b KQkq - 1 2` is accepted with the board of the same FEN without them. -/
theorem GetPosition_first_field (p s : GoString) (hp : (32 : UInt8) ∉ p) :
    GetPosition (p ++ 32 :: s) = GetPosition p ∧
      ∃ pos,
        GetPosition (str "rnbqkbnr/pp1ppppp/8/2p5/4P3/5N2/PPPP1PPP/RNBQKB1R b KQkq - 1 2")
          = .ok pos ∧
        GetPosition (str "rnbqkbnr/pp1ppppp/8/2p5/4P3/5N2/PPPP1PPP/RNBQKB1R") = .ok pos := by
  constructor
  · rw [GetPosition_eq, GetPosition_eq p, placement_append p s hp, placement_of_not_mem p hp]
  · exact ⟨_, rfl, by decide⟩

theorem GetPosition_first_field_witness :
    (32 : UInt8) ∉ str "8/8/8/8/8/8/8/7" ∧
      GetPosition (str "8/8/8/8/8/8/8/7" ++ 32 :: str "w KQkq - 0 1")
        = GetPosition (str "8/8/8/8/8/8/8/7") :=
  ⟨by decide, (GetPosition_first_field _ _ (by decide)).1⟩

/-- C7: no piece symbol is validated.  A placement field made of eight
segments, each of exactly eight characters none of which is an ASCII digit,
`/` or a space, is accepted, and cell `(7 - i, j)` holds the one-character
string of character `j` of segment `i`, whatever that character is;
`"xxxxxxxx/8/8/8/8/8/8/8"` is accepted with rank 7 made of eight `x`. -/
theorem GetPosition_any_symbol (segs : List GoString) (h8 : segs.length = 8)
    (hseg : ∀ seg ∈ segs, (runes seg).length = 8 ∧
      ∀ c ∈ runes seg, ¬ (48 ≤ c ∧ c ≤ 57) ∧ c ≠ 47 ∧ c ≠ 32) :
    (∃ pos, GetPosition (List.intercalate [47] segs) = .ok pos ∧
        ∀ i j, i < 8 → j < 8 →
          ∃ seg c rank, segs[i]? = some seg ∧ (runes seg)[j]? = some c ∧
            pos.pieces[7 - i]? = some rank ∧ rank[j]? = some (EncodeRune c)) ∧
      ∃ pos, GetPosition (str "xxxxxxxx/8/8/8/8/8/8/8") = .ok pos ∧
        pos.pieces[7]? = some (List.replicate 8 (str "x")) := by
  refine ⟨?_, ⟨_, rfl, by decide⟩⟩
  have h47 : ∀ seg ∈ segs, (47 : UInt8) ∉ seg := by
    intro seg hs hmem
    have := ascii_mem_runes seg 47 hmem (by decide)
    exact ((hseg seg hs).2 _ this).2.1 rfl
  have h32 : ∀ seg ∈ segs, (32 : UInt8) ∉ seg := by
    intro seg hs hmem
    have := ascii_mem_runes seg 32 hmem (by decide)
    exact ((hseg seg hs).2 _ this).2.2 rfl
  have hfield : (32 : UInt8) ∉ List.intercalate [47] segs := by
    intro hmem
    rcases mem_intercalate segs 47 32 hmem with h | ⟨seg, hs, hx⟩
    · exact absurd h (by decide)
    · exact h32 seg hs hx
  have hsplit : Split (List.intercalate [47] segs) 47 = segs :=
    Split_intercalate segs 47 (by intro h; rw [h] at h8; simp at h8) h47
  have hexp : ∀ seg ∈ segs, expansion seg = (runes seg).map EncodeRune := fun seg hs =>
    flatMap_cellsOf_nondigit _ (fun c hc => ((hseg seg hs).2 c hc).1)
  have hall : ∀ seg ∈ segs, (expansion seg).length = 8 := by
    intro seg hs
    rw [hexp seg hs, List.length_map]
    exact (hseg seg hs).1
  refine ⟨_, by rw [GetPosition_eq, placement_of_not_mem _ hfield, hsplit,
    if_neg (by simp [h8]), if_pos hall], ?_⟩
  intro i j hi hj
  obtain ⟨seg, hsegi, hrank⟩ := board_rank segs expansion h8 i hi
  have hs : seg ∈ segs := List.getElem?_mem hsegi
  have hj8 : j < (runes seg).length := by rw [(hseg seg hs).1]; exact hj
  refine ⟨seg, (runes seg)[j], expansion seg, hsegi, List.getElem?_eq_getElem hj8, hrank, ?_⟩
  rw [hexp seg hs, List.getElem?_map, List.getElem?_eq_getElem hj8]
  rfl

theorem GetPosition_any_symbol_witness :
    (List.replicate 8 (str "xyzXYZ_é")).length = 8 ∧
    ∃ pos, GetPosition (List.intercalate [47] (List.replicate 8 (str "xyzXYZ_é"))) = .ok pos ∧
      ∀ i j, i < 8 → j < 8 →
        ∃ seg c rank, (List.replicate 8 (str "xyzXYZ_é"))[i]? = some seg ∧
          (runes seg)[j]? = some c ∧
          pos.pieces[7 - i]? = some rank ∧ rank[j]? = some (EncodeRune c) :=
  ⟨by decide,
    (GetPosition_any_symbol (List.replicate 8 (str "xyzXYZ_é")) (by decide) (by decide)).1⟩

/-- C8, refuted as stated: `GetPosition` accepts `"xxxxxxxx/8/8/8/8/8/8/8"` and
the board it returns has cells holding `"x"`, which is neither the empty
marker nor one of the twelve names in `piece_names`; with a sprite map that
has exactly those twelve keys `DisplayBoard` finds no sprite for it and
panics, whatever memory is available. -/
theorem GetPosition_noncanonical_cell :
    ∃ pos, GetPosition (str "xxxxxxxx/8/8/8/8/8/8/8") = .ok pos ∧
      (¬ ∀ rank ∈ pos.pieces, ∀ cell ∈ rank, cell = emptyCell ∨ cell ∈ piece_names) ∧
      ∀ avail, (DisplayBoard avail (NewBoardConfig SQUARE_SIZE) pos
        (fun ss => if ss ∈ piece_names then some (Uniform white) else none)).isSome
        = false := by
  refine ⟨_, rfl, ?_, ?_⟩
  · decide!
  · intro avail
    rw [DisplayBoard_eq_none avail _ _ _ (by decide!)]
    rfl

/-- C8, amended: every cell of an accepted board holds the empty marker or
the one-character string of a character of the placement field that is not an
ASCII digit; the character need not be a canonical piece symbol. -/
theorem GetPosition_cells (fen : GoString) (pos : Position)
    (h : GetPosition fen = .ok pos) :
    ∀ rank ∈ pos.pieces, ∀ cell ∈ rank,
      cell = emptyCell ∨
        ∃ seg ∈ Split (placement fen) 47, ∃ c ∈ runes seg,
          ¬ (48 ≤ c ∧ c ≤ 57) ∧ cell = EncodeRune c := by
  rw [GetPosition_eq] at h
  split_ifs at h with h1 h2
  cases h
  intro rank hrank cell hcell
  simp only [List.mem_reverse, List.mem_map] at hrank
  obtain ⟨seg, hseg, rfl⟩ := hrank
  simp only [expansion, List.mem_flatMap] at hcell
  obtain ⟨c, hc, hcc⟩ := hcell
  unfold cellsOf at hcc
  split_ifs at hcc with hd
  · left
    exact (List.mem_replicate.mp hcc).2
  · right
    exact ⟨seg, hseg, c, hc, hd, by simpa using hcc⟩

theorem GetPosition_cells_witness :
    GetPosition (str "xxxxxxxx/8/8/8/8/8/8/8") = .ok
        { pieces := List.replicate 7 (List.replicate 8 emptyCell) ++
            [List.replicate 8 (str "x")],
          active := [], castling := [], enpassant := [], halfmove := 0, fullmove := 0 } ∧
      (str "x" = emptyCell ∨
        ∃ seg ∈ Split (placement (str "xxxxxxxx/8/8/8/8/8/8/8")) 47, ∃ c ∈ runes seg,
          ¬ (48 ≤ c ∧ c ≤ 57) ∧ str "x" = EncodeRune c) :=
  ⟨by decide,
    GetPosition_cells (str "xxxxxxxx/8/8/8/8/8/8/8")
      { pieces := List.replicate 7 (List.replicate 8 emptyCell) ++
          [List.replicate 8 (str "x")],
        active := [], castling := [], enpassant := [], halfmove := 0, fullmove := 0 }
      (by decide) (List.replicate 8 (str "x")) (by decide) (str "x") (by decide)⟩

/-! ## Lemmas on rectangles and drawing -/

/-- Within the range of `int` nothing wraps. -/
theorem wrapInt_of_range (x : Int) (h1 : -9223372036854775808 ≤ x)
    (h2 : x < 9223372036854775808) : wrapInt x = x := by
  unfold wrapInt
  omega

theorem In_Intersect (p : Point) (r s : Rectangle) :
    p.In (r.Intersect s) ↔ p.In r ∧ p.In s := by
  unfold Rectangle.Intersect
  simp only [Rectangle.Empty]
  split_ifs <;> simp only [Point.In, ZR, ZP] <;> omega

theorem not_In_of_Empty (p : Point) (r : Rectangle) (h : r.Empty) : ¬ p.In r := by
  unfold Rectangle.Empty at h
  unfold Point.In
  omega

theorem Draw_Rect (dst : RGBAImage) (r : Rectangle) (src : Image) (sp : Point) (op : Op) :
    (Draw dst r src sp op).Rect = dst.Rect := by
  unfold Draw
  simp only
  split_ifs <;> rfl

/-- The pixels of `draw.Draw`: inside the rectangle, the destination and the
translated source bounds a pixel is composited, elsewhere it is kept. -/
theorem Draw_Pix (dst : RGBAImage) (r : Rectangle) (src : Image) (sp : Point) (op : Op)
    (x y : Int) :
    (Draw dst r src sp op).Pix x y =
      if (⟨x, y⟩ : Point).In r ∧ (⟨x, y⟩ : Point).In dst.Rect ∧
          (⟨x, y⟩ : Point).In (src.Bounds.Add (r.Min.Sub sp)) then
        blend op (dst.Pix x y)
          (src.At (wrapInt (sp.X + (x - r.Min.X))) (wrapInt (sp.Y + (y - r.Min.Y))))
      else dst.Pix x y := by
  have hin : (⟨x, y⟩ : Point).In
        ((r.Intersect dst.Rect).Intersect (src.Bounds.Add (r.Min.Sub sp))) ↔
      ((⟨x, y⟩ : Point).In r ∧ (⟨x, y⟩ : Point).In dst.Rect ∧
        (⟨x, y⟩ : Point).In (src.Bounds.Add (r.Min.Sub sp))) := by
    rw [In_Intersect, In_Intersect, and_assoc]
  unfold Draw
  simp only
  by_cases he : ((r.Intersect dst.Rect).Intersect (src.Bounds.Add (r.Min.Sub sp))).Empty
  · rw [if_pos he, if_neg (fun hc => not_In_of_Empty _ _ he (hin.mpr hc))]
  · rw [if_neg he]
    simp only
    by_cases hc : (⟨x, y⟩ : Point).In r ∧ (⟨x, y⟩ : Point).In dst.Rect ∧
        (⟨x, y⟩ : Point).In (src.Bounds.Add (r.Min.Sub sp))
    · rw [if_pos hc, if_pos (hin.mpr hc)]
    · rw [if_neg hc, if_neg (fun h => hc (hin.mp h))]

/-- A pixel outside the rectangle given to `draw.Draw` is left as it is. -/
theorem Draw_Pix_outside (dst : RGBAImage) (r : Rectangle) (src : Image) (sp : Point)
    (op : Op) (x y : Int) (h : ¬ (⟨x, y⟩ : Point).In r) :
    (Draw dst r src sp op).Pix x y = dst.Pix x y := by
  rw [Draw_Pix, if_neg (fun hc => h hc.1)]

theorem NewBoardConfig_of_range (S : Int) (h0 : 0 ≤ S) (h1 : 8 * S ≤ maxInt) :
    NewBoardConfig S = { SquareSize := S, BoardSize := 8 * S } := by
  unfold NewBoardConfig
  unfold maxInt at h1
  rw [wrapInt_of_range _ (by omega) (by omega)]
  congr 1
  omega

/-- Without overflow and for a non-negative square size the rectangle of the
cell at rank `r`, file `f` has the corners the arithmetic of lines 120-121
names. -/
theorem cellRect_of_range (S : Int) (h0 : 0 ≤ S) (h1 : 8 * S ≤ maxInt) (r f : Nat)
    (hr : r ≤ 7) (hf : f ≤ 7) :
    cellRect (NewBoardConfig S) r f =
      { Min := ⟨f * S, 8 * S - r * S - S⟩, Max := ⟨f * S + S, 8 * S - r * S - S + S⟩ } := by
  rw [NewBoardConfig_of_range S h0 h1]
  unfold maxInt at h1
  have hf0 : 0 ≤ (f : Int) * S := by positivity
  have hf7 : (f : Int) * S ≤ 7 * S := by
    have : (f : Int) ≤ 7 := by exact_mod_cast hf
    nlinarith
  have hr0 : 0 ≤ (r : Int) * S := by positivity
  have hr7 : (r : Int) * S ≤ 7 * S := by
    have : (r : Int) ≤ 7 := by exact_mod_cast hr
    nlinarith
  unfold cellRect
  simp only
  generalize (f : Int) * S = a at hf0 hf7
  generalize (r : Int) * S = b at hr0 hr7
  rw [wrapInt_of_range a (by omega) (by omega), wrapInt_of_range b (by omega) (by omega),
    wrapInt_of_range (8 * S - b) (by omega) (by omega),
    wrapInt_of_range (8 * S - b - S) (by omega) (by omega),
    wrapInt_of_range (a + S) (by omega) (by omega),
    wrapInt_of_range (8 * S - b - S + S) (by omega) (by omega)]
  unfold Rect
  rw [if_neg (by omega), if_neg (by omega), if_neg (by omega), if_neg (by omega)]

theorem In_cellRect (S : Int) (h0 : 0 ≤ S) (h1 : 8 * S ≤ maxInt) (r f : Nat)
    (hr : r ≤ 7) (hf : f ≤ 7) (x y : Int) :
    (⟨x, y⟩ : Point).In (cellRect (NewBoardConfig S) r f) ↔
      (f : Int) * S ≤ x ∧ x < f * S + S ∧ 8 * S - r * S - S ≤ y ∧ y < 8 * S - r * S := by
  rw [cellRect_of_range S h0 h1 r f hr hf]
  simp only [Point.In]
  constructor <;> intro h <;> refine ⟨h.1, h.2.1, h.2.2.1, ?_⟩ <;> have := h.2.2.2 <;> omega

/-- For a positive square size the rectangles of two cells of the 8x8 grid
share a pixel only when they are the same cell. -/
theorem cellRect_disjoint (S : Int) (h0 : 0 < S) (h1 : 8 * S ≤ maxInt) (r f r0 f0 : Nat)
    (hr : r ≤ 7) (hf : f ≤ 7) (hr0 : r0 ≤ 7) (hf0 : f0 ≤ 7) (x y : Int)
    (h : (⟨x, y⟩ : Point).In (cellRect (NewBoardConfig S) r0 f0))
    (h2 : (⟨x, y⟩ : Point).In (cellRect (NewBoardConfig S) r f)) : r = r0 ∧ f = f0 := by
  rw [In_cellRect S (le_of_lt h0) h1 r0 f0 hr0 hf0] at h
  rw [In_cellRect S (le_of_lt h0) h1 r f hr hf] at h2
  have key : ∀ a b : Nat, ∀ u : Int, (a : Int) * S ≤ u → u < a * S + S →
      (b : Int) * S ≤ u → u < b * S + S → a = b := by
    intro a b u ha1 ha2 hb1 hb2
    rcases Nat.lt_trichotomy a b with hlt | heq | hgt
    · have : (a : Int) + 1 ≤ b := by exact_mod_cast hlt
      have := mul_le_mul_of_nonneg_right this (le_of_lt h0)
      rw [add_mul, one_mul] at this
      omega
    · exact heq
    · have : (b : Int) + 1 ≤ a := by exact_mod_cast hgt
      have := mul_le_mul_of_nonneg_right this (le_of_lt h0)
      rw [add_mul, one_mul] at this
      omega
  refine ⟨?_, key f f0 x h2.1 h2.2.1 h.1 h.2.1⟩
  exact key r r0 (8 * S - y - 1) (by omega) (by omega) (by omega) (by omega)

theorem blend_Src_white (d : RGBA) : blend .Src d white.RGBA = white := by
  simp only [blend]
  decide

theorem blend_Src_black (d : RGBA) : blend .Src d black.RGBA = black := by
  simp only [blend]
  decide

/-- Filling a rectangle from a uniform source: a pixel of the rectangle that
lies in the destination takes the colour, provided the rectangle starts at
non-negative coordinates below 2^62 and the pixel is less than 10^9 away from
its corner. -/
theorem Draw_Uniform_Pix (dst : RGBAImage) (r : Rectangle) (c : RGBA) (x y : Int)
    (hr : (⟨x, y⟩ : Point).In r) (hd : (⟨x, y⟩ : Point).In dst.Rect)
    (hx0 : 0 ≤ r.Min.X) (hy0 : 0 ≤ r.Min.Y)
    (hx1 : r.Min.X ≤ 4611686018427387904) (hy1 : r.Min.Y ≤ 4611686018427387904)
    (hx : x < r.Min.X + 1000000000) (hy : y < r.Min.Y + 1000000000) :
    (Draw dst r (Uniform c) ZP .Src).Pix x y = blend .Src (dst.Pix x y) c.RGBA := by
  rw [Draw_Pix, if_pos]
  · rfl
  · refine ⟨hr, hd, ?_⟩
    simp only [Point.In] at hr
    simp only [Point.In, Uniform, Rectangle.Add, Point.Add, Point.Sub, ZP, sub_zero]
    rw [wrapInt_of_range r.Min.X (by omega) (by omega),
      wrapInt_of_range r.Min.Y (by omega) (by omega),
      wrapInt_of_range (-1000000000 + r.Min.X) (by omega) (by omega),
      wrapInt_of_range (-1000000000 + r.Min.Y) (by omega) (by omega),
      wrapInt_of_range (1000000000 + r.Min.X) (by omega) (by omega),
      wrapInt_of_range (1000000000 + r.Min.Y) (by omega) (by omega)]
    omega

/-- The two steps of drawing a cell: the light square, if any, then the
sprite, if any, both confined to the rectangle of the cell. -/
theorem drawCell_some (bc : BoardConfig) (pieces : GoString → Option Image) (r f : Nat)
    (ss : GoString) (m m1 : RGBAImage) (h : drawCell bc pieces r f ss m = some m1) :
    ∃ m0, (m0 = m ∨ m0 = Draw m (cellRect bc r f) (Uniform white) ZP .Src) ∧
      (m1 = m0 ∨ ∃ sprite, m1 = Draw m0 (cellRect bc r f) sprite ZP .Over) := by
  unfold drawCell at h
  simp only at h
  refine ⟨if (r + f) % 2 = 1 then Draw m (cellRect bc r f) (Uniform white) ZP .Src else m,
    ?_, ?_⟩
  · by_cases hodd : (r + f) % 2 = 1
    · right; rw [if_pos hodd]
    · left; rw [if_neg hodd]
  · by_cases hss : ss ≠ emptyCell
    · rw [if_pos hss] at h
      cases hp : pieces ss with
      | none => rw [hp] at h; cases h
      | some sprite =>
        rw [hp] at h
        right
        exact ⟨sprite, (Option.some.inj h).symm⟩
    · rw [if_neg hss] at h
      left
      exact (Option.some.inj h).symm

theorem drawCell_Rect (bc : BoardConfig) (pieces : GoString → Option Image) (r f : Nat)
    (ss : GoString) (m m1 : RGBAImage) (h : drawCell bc pieces r f ss m = some m1) :
    m1.Rect = m.Rect := by
  obtain ⟨m0, h0, h1⟩ := drawCell_some bc pieces r f ss m m1 h
  have e0 : m0.Rect = m.Rect := by
    rcases h0 with rfl | rfl
    · rfl
    · rw [Draw_Rect]
  rcases h1 with rfl | ⟨sprite, rfl⟩
  · exact e0
  · rw [Draw_Rect, e0]

/-- Drawing a cell leaves every pixel outside the rectangle of the cell as it
is. -/
theorem drawCell_outside (bc : BoardConfig) (pieces : GoString → Option Image) (r f : Nat)
    (ss : GoString) (m m1 : RGBAImage) (h : drawCell bc pieces r f ss m = some m1)
    (x y : Int) (hout : ¬ (⟨x, y⟩ : Point).In (cellRect bc r f)) :
    m1.Pix x y = m.Pix x y := by
  obtain ⟨m0, h0, h1⟩ := drawCell_some bc pieces r f ss m m1 h
  have e0 : m0.Pix x y = m.Pix x y := by
    rcases h0 with rfl | rfl
    · rfl
    · rw [Draw_Pix_outside _ _ _ _ _ _ _ hout]
  rcases h1 with rfl | ⟨sprite, rfl⟩
  · exact e0
  · rw [Draw_Pix_outside _ _ _ _ _ _ _ hout, e0]

/-- Drawing an empty cell draws no sprite: the buffer is the one left by the
light square, if one is drawn. -/
theorem drawCell_empty (bc : BoardConfig) (pieces : GoString → Option Image) (r f : Nat)
    (m : RGBAImage) :
    drawCell bc pieces r f emptyCell m =
      some (if (r + f) % 2 = 1 then Draw m (cellRect bc r f) (Uniform white) ZP .Src
        else m) := by
  unfold drawCell
  simp

theorem drawRank_Rect (bc : BoardConfig) (pieces : GoString → Option Image) (r : Nat) :
    ∀ (cells : List GoString) (f : Nat) (m m1 : RGBAImage),
      drawRank bc pieces r f cells m = some m1 → m1.Rect = m.Rect := by
  intro cells
  induction cells with
  | nil => intro f m m1 h; simp only [drawRank] at h; cases h; rfl
  | cons ss fs ih =>
    intro f m m1 h
    simp only [drawRank] at h
    cases hc : drawCell bc pieces r f ss m with
    | none => rw [hc] at h; cases h
    | some m2 =>
      rw [hc] at h
      rw [ih _ _ _ h, drawCell_Rect _ _ _ _ _ _ _ hc]

/-- The loop over the files of a rank leaves a pixel as it is when the pixel
lies in none of the rectangles of the cells drawn. -/
theorem drawRank_outside (bc : BoardConfig) (pieces : GoString → Option Image) (r : Nat)
    (x y : Int) :
    ∀ (cells : List GoString) (f : Nat) (m m1 : RGBAImage),
      drawRank bc pieces r f cells m = some m1 →
      (∀ j, j < cells.length → ¬ (⟨x, y⟩ : Point).In (cellRect bc r (f + j))) →
      m1.Pix x y = m.Pix x y := by
  intro cells
  induction cells with
  | nil => intro f m m1 h _; simp only [drawRank] at h; cases h; rfl
  | cons ss fs ih =>
    intro f m m1 h hout
    simp only [drawRank] at h
    cases hc : drawCell bc pieces r f ss m with
    | none => rw [hc] at h; cases h
    | some m2 =>
      rw [hc] at h
      have h0 : ¬ (⟨x, y⟩ : Point).In (cellRect bc r f) := by
        have := hout 0 (by simp)
        simpa using this
      rw [ih (f + 1) m2 m1 h (fun j hj => by
        have := hout (j + 1) (by simp; omega)
        rwa [show f + (j + 1) = f + 1 + j by omega] at this)]
      exact drawCell_outside _ _ _ _ _ _ _ hc x y h0

/-- The loop over the files of a rank, seen from a pixel of the empty cell at
file `F` (index `k` of the cells still to draw) that lies in no other
rectangle of the rank: the pixel ends light when the square is light and is
left as it was otherwise. -/
theorem drawRank_target (bc : BoardConfig) (pieces : GoString → Option Image) (r F : Nat)
    (x y : Int) (R : Rectangle)
    (hin : (⟨x, y⟩ : Point).In (cellRect bc r F))
    (hwhite : ∀ dst : RGBAImage, dst.Rect = R →
      (Draw dst (cellRect bc r F) (Uniform white) ZP .Src).Pix x y = white) :
    ∀ (cells : List GoString) (f : Nat) (m m1 : RGBAImage),
      drawRank bc pieces r f cells m = some m1 → m.Rect = R →
      ∀ k, f + k = F → cells[k]? = some emptyCell →
      (∀ j, j < cells.length → j ≠ k → ¬ (⟨x, y⟩ : Point).In (cellRect bc r (f + j))) →
      m1.Pix x y = if (r + F) % 2 = 1 then white else m.Pix x y := by
  intro cells
  induction cells with
  | nil => intro f m m1 _ _ k _ hk; simp at hk
  | cons ss fs ih =>
    intro f m m1 h hR k hF hk hout
    simp only [drawRank] at h
    cases hc : drawCell bc pieces r f ss m with
    | none => rw [hc] at h; cases h
    | some m2 =>
      rw [hc] at h
      cases k with
      | zero =>
        simp only [List.getElem?_cons_zero, Option.some.injEq] at hk
        subst hk
        simp only [Nat.add_zero] at hF
        subst hF
        rw [drawCell_empty] at hc
        have hm2 := (Option.some.inj hc).symm
        rw [drawRank_outside bc pieces r x y fs (f + 1) m2 m1 h (fun j hj => by
          have := hout (j + 1) (by simp; omega) (by omega)
          rwa [show f + (j + 1) = f + 1 + j by omega] at this)]
        rw [hm2]
        by_cases hodd : (r + f) % 2 = 1
        · rw [if_pos hodd, if_pos hodd]
          exact hwhite m hR
        · rw [if_neg hodd, if_neg hodd]
      | succ k =>
        simp only [List.getElem?_cons_succ] at hk
        have h0 : ¬ (⟨x, y⟩ : Point).In (cellRect bc r f) := by
          have := hout 0 (by simp) (by omega)
          simpa using this
        have e2 : m2.Pix x y = m.Pix x y := drawCell_outside _ _ _ _ _ _ _ hc x y h0
        have hR2 : m2.Rect = R := by rw [drawCell_Rect _ _ _ _ _ _ _ hc, hR]
        have := ih (f + 1) m2 m1 h hR2 k (by omega) hk
          (fun j hj hjk => by
            have := hout (j + 1) (by simp; omega) (by omega)
            rwa [show f + (j + 1) = f + 1 + j by omega] at this)
        rw [this, e2]

theorem drawRanks_Rect (bc : BoardConfig) (pieces : GoString → Option Image) :
    ∀ (ranks : List (List GoString)) (r : Nat) (m m1 : RGBAImage),
      drawRanks bc pieces r ranks m = some m1 → m1.Rect = m.Rect := by
  intro ranks
  induction ranks with
  | nil => intro r m m1 h; simp only [drawRanks] at h; cases h; rfl
  | cons fs rest ih =>
    intro r m m1 h
    simp only [drawRanks] at h
    cases hc : drawRank bc pieces r 0 fs m with
    | none => rw [hc] at h; cases h
    | some m2 =>
      rw [hc] at h
      rw [ih _ _ _ h, drawRank_Rect _ _ _ _ _ _ _ hc]

/-- The loop over the ranks leaves a pixel as it is when the pixel lies in
none of the rectangles of the cells drawn. -/
theorem drawRanks_outside (bc : BoardConfig) (pieces : GoString → Option Image)
    (x y : Int) :
    ∀ (ranks : List (List GoString)) (r : Nat) (m m1 : RGBAImage),
      drawRanks bc pieces r ranks m = some m1 →
      (∀ i j rank, ranks[i]? = some rank → j < rank.length →
        ¬ (⟨x, y⟩ : Point).In (cellRect bc (r + i) j)) →
      m1.Pix x y = m.Pix x y := by
  intro ranks
  induction ranks with
  | nil => intro r m m1 h _; simp only [drawRanks] at h; cases h; rfl
  | cons fs rest ih =>
    intro r m m1 h hout
    simp only [drawRanks] at h
    cases hc : drawRank bc pieces r 0 fs m with
    | none => rw [hc] at h; cases h
    | some m2 =>
      rw [hc] at h
      rw [ih (r + 1) m2 m1 h (fun i j rank hi hj => by
        have := hout (i + 1) j rank (by simpa using hi) hj
        rwa [show r + (i + 1) = r + 1 + i by omega] at this)]
      exact drawRank_outside bc pieces r x y fs 0 m m2 hc (fun j hj => by
        have := hout 0 j fs (by simp) hj
        simpa using this)

/-- The loop over the ranks, seen from a pixel of the empty cell at rank `T`
(index `i` of the ranks still to draw) and file `F` that lies in no other
rectangle drawn. -/
theorem drawRanks_target (bc : BoardConfig) (pieces : GoString → Option Image) (T F : Nat)
    (x y : Int) (R : Rectangle)
    (hin : (⟨x, y⟩ : Point).In (cellRect bc T F))
    (hwhite : ∀ dst : RGBAImage, dst.Rect = R →
      (Draw dst (cellRect bc T F) (Uniform white) ZP .Src).Pix x y = white) :
    ∀ (ranks : List (List GoString)) (r : Nat) (m m1 : RGBAImage),
      drawRanks bc pieces r ranks m = some m1 → m.Rect = R →
      ∀ i rank, r + i = T → ranks[i]? = some rank → rank[F]? = some emptyCell →
      (∀ i2 j rank2, ranks[i2]? = some rank2 → j < rank2.length → (i2 ≠ i ∨ j ≠ F) →
        ¬ (⟨x, y⟩ : Point).In (cellRect bc (r + i2) j)) →
      m1.Pix x y = if (T + F) % 2 = 1 then white else m.Pix x y := by
  intro ranks
  induction ranks with
  | nil => intro r m m1 _ _ i rank _ hi; simp at hi
  | cons fs rest ih =>
    intro r m m1 h hR i rank hT hi hk hout
    simp only [drawRanks] at h
    cases hc : drawRank bc pieces r 0 fs m with
    | none => rw [hc] at h; cases h
    | some m2 =>
      rw [hc] at h
      cases i with
      | zero =>
        simp only [List.getElem?_cons_zero, Option.some.injEq] at hi
        subst hi
        simp only [Nat.add_zero] at hT
        subst hT
        rw [drawRanks_outside bc pieces x y rest (r + 1) m2 m1 h (fun i j rank hi hj => by
          have := hout (i + 1) j rank (by simpa using hi) hj (Or.inl (by omega))
          rwa [show r + (i + 1) = r + 1 + i by omega] at this)]
        exact drawRank_target bc pieces r F x y R hin hwhite fs 0 m m2 hc
          hR F (by omega) hk (fun j hj hjk => by
            have := hout 0 j fs (by simp) hj (Or.inr hjk)
            simpa using this)
      | succ i =>
        simp only [List.getElem?_cons_succ] at hi
        have e2 : m2.Pix x y = m.Pix x y :=
          drawRank_outside bc pieces r x y fs 0 m m2 hc (fun j hj => by
            have := hout 0 j fs (by simp) hj (Or.inl (by omega))
            simpa using this)
        have hR2 : m2.Rect = R := by rw [drawRank_Rect _ _ _ _ _ _ _ hc, hR]
        have := ih (r + 1) m2 m1 h hR2 i rank (by omega) hi hk
          (fun i2 j rank2 hi2 hj hne => by
            have := hout (i2 + 1) j rank2 (by simpa using hi2) hj
              (by rcases hne with h1 | h1
                  · exact Or.inl (by omega)
                  · exact Or.inr h1)
            rwa [show r + (i2 + 1) = r + 1 + i2 by omega] at this)
        rw [this, e2]

theorem drawRank_isSome (bc : BoardConfig) (pieces : GoString → Option Image) (r : Nat) :
    ∀ (cells : List GoString) (f : Nat) (m : RGBAImage),
      (∀ ss ∈ cells, ss ≠ emptyCell → (pieces ss).isSome) →
      (drawRank bc pieces r f cells m).isSome := by
  intro cells
  induction cells with
  | nil => intro f m _; simp [drawRank]
  | cons ss fs ih =>
    intro f m hs
    simp only [drawRank]
    have hcell : ∃ m2, drawCell bc pieces r f ss m = some m2 := by
      unfold drawCell
      simp only
      by_cases hss : ss ≠ emptyCell
      · rw [if_pos hss]
        obtain ⟨sprite, hsp⟩ := Option.isSome_iff_exists.mp (hs ss (by simp) hss)
        rw [hsp]
        exact ⟨_, rfl⟩
      · rw [if_neg hss]
        exact ⟨_, rfl⟩
    obtain ⟨m2, hm2⟩ := hcell
    rw [hm2]
    exact ih (f + 1) m2 (fun s hsm => hs s (by simp [hsm]))

/-- When every occupied cell has a sprite in the map, the drawing loops run to
the end. -/
theorem drawRanks_isSome (bc : BoardConfig) (pieces : GoString → Option Image) :
    ∀ (ranks : List (List GoString)) (r : Nat) (m : RGBAImage),
      (∀ rank ∈ ranks, ∀ ss ∈ rank, ss ≠ emptyCell → (pieces ss).isSome) →
      (drawRanks bc pieces r ranks m).isSome := by
  intro ranks
  induction ranks with
  | nil => intro r m _; simp [drawRanks]
  | cons fs rest ih =>
    intro r m hs
    simp only [drawRanks]
    obtain ⟨m2, hm2⟩ := Option.isSome_iff_exists.mp
      (drawRank_isSome bc pieces r fs 0 m (hs fs (by simp)))
    rw [hm2]
    exact ih (r + 1) m2 (fun rank hr => hs rank (by simp [hr]))

theorem Rect_origin (B : Int) (hB : 0 ≤ B) : Rect 0 0 B B = ⟨⟨0, 0⟩, ⟨B, B⟩⟩ := by
  unfold Rect
  rw [if_neg (by omega), if_neg (by omega)]

theorem makeslice_iff (avail : Nat) (n : Int) :
    makeslice avail n = true ↔ 0 ≤ n ∧ n ≤ maxAlloc ∧ n ≤ avail := by
  unfold makeslice
  split_ifs <;> simp <;> omega

/-- The buffer length of a square at the origin. -/
theorem pixelBufferLength_square (B : Int) (h0 : 0 ≤ B) (h1 : B ≤ maxInt) :
    pixelBufferLength 4 ⟨⟨0, 0⟩, ⟨B, B⟩⟩ =
      if 4 * B * B < 9223372036854775808 then some (4 * B * B) else none := by
  unfold maxInt at h1
  have hdx : wrapInt (B - 0) = B := by
    rw [sub_zero]; exact wrapInt_of_range _ (by omega) (by omega)
  have hP : 0 ≤ 4 * B * B := by nlinarith
  unfold pixelBufferLength mul3NonNeg Rectangle.Dx Rectangle.Dy
  simp only [hdx]
  by_cases hA : 4 * B * B < 9223372036854775808
  · have hB : B < 4294967296 := by
      by_contra h
      push_neg at h
      nlinarith
    have c1 : ¬ ((4 : Int) < 0 ∨ B < 0 ∨ B < 0) := by omega
    have c2 : ¬ (18446744073709551616 ≤ 4 * B) := by omega
    have c3 : ¬ (18446744073709551616 ≤ 4 * B * B) := by omega
    have c4 : ¬ (9223372036854775808 ≤ 4 * B * B) := by omega
    rw [if_neg c1, if_neg c2, if_neg c3, if_neg c4, if_neg (by omega), if_pos hA]
  · rw [if_neg hA]
    split_ifs <;> first | rfl | omega

/-- The function `image.NewRGBA` on a square at the origin with a side within
the range of `int`: it returns the buffer exactly when the `4*B*B` bytes are at
most `maxAlloc` and can be obtained. -/
theorem NewRGBA_square (avail : Nat) (B : Int) (h0 : 0 ≤ B) (h1 : B ≤ maxInt) :
    NewRGBA avail (Rect 0 0 B B) =
      if 4 * B * B ≤ maxAlloc ∧ 4 * B * B ≤ avail then
        some { Rect := ⟨⟨0, 0⟩, ⟨B, B⟩⟩, Pix := fun _ _ => ⟨0, 0, 0, 0⟩ }
      else none := by
  have hP : 0 ≤ 4 * B * B := by nlinarith
  rw [Rect_origin B h0]
  unfold NewRGBA
  rw [pixelBufferLength_square B h0 h1]
  by_cases hA : 4 * B * B < 9223372036854775808
  · rw [if_pos hA]
    simp only
    by_cases hc : 4 * B * B ≤ maxAlloc ∧ 4 * B * B ≤ avail
    · rw [if_pos hc, if_pos ((makeslice_iff avail _).mpr ⟨hP, hc⟩)]
    · rw [if_neg hc, if_neg (fun h => hc ((makeslice_iff avail _).mp h).2)]
  · rw [if_neg hA, if_neg (by unfold maxAlloc; omega)]

theorem DisplayBoard_of_range (avail : Nat) (S : Int) (h0 : 0 ≤ S) (h1 : 8 * S ≤ maxInt)
    (pos : Position) (pieces : GoString → Option Image) :
    DisplayBoard avail (NewBoardConfig S) pos pieces =
      if 4 * (8 * S) * (8 * S) ≤ maxAlloc ∧ 4 * (8 * S) * (8 * S) ≤ avail then
        drawRanks (NewBoardConfig S) pieces 0 pos.pieces
          (Draw { Rect := ⟨⟨0, 0⟩, ⟨8 * S, 8 * S⟩⟩, Pix := fun _ _ => ⟨0, 0, 0, 0⟩ }
            ⟨⟨0, 0⟩, ⟨8 * S, 8 * S⟩⟩ (Uniform black) ZP .Src)
      else none := by
  have hB : (NewBoardConfig S).BoardSize = 8 * S := by
    unfold NewBoardConfig
    unfold maxInt at h1
    simp only
    rw [wrapInt_of_range _ (by omega) (by omega)]
    omega
  rw [DisplayBoard_eq, hB, NewRGBA_square avail (8 * S) (by omega) h1,
    Rect_origin (8 * S) (by omega)]
  by_cases hc : 4 * (8 * S) * (8 * S) ≤ maxAlloc ∧ 4 * (8 * S) * (8 * S) ≤ avail
  · rw [if_pos hc, if_pos hc]
    rfl
  · rw [if_neg hc, if_neg hc]
    rfl

/-- A buffer that `DisplayBoard` hands over was allocated, so that its side is
below 10^9, and is what the drawing loops leave. -/
theorem DisplayBoard_some (avail : Nat) (S : Int) (h0 : 0 ≤ S) (h1 : 8 * S ≤ maxInt)
    (pos : Position) (pieces : GoString → Option Image) (m : RGBAImage)
    (hm : DisplayBoard avail (NewBoardConfig S) pos pieces = some m) :
    (4 * (8 * S) * (8 * S) ≤ maxAlloc ∧ 4 * (8 * S) * (8 * S) ≤ avail) ∧
      8 * S ≤ 1000000000 ∧
      drawRanks (NewBoardConfig S) pieces 0 pos.pieces
        (Draw { Rect := ⟨⟨0, 0⟩, ⟨8 * S, 8 * S⟩⟩, Pix := fun _ _ => ⟨0, 0, 0, 0⟩ }
          ⟨⟨0, 0⟩, ⟨8 * S, 8 * S⟩⟩ (Uniform black) ZP .Src) = some m := by
  rw [DisplayBoard_of_range avail S h0 h1] at hm
  by_cases hc : 4 * (8 * S) * (8 * S) ≤ maxAlloc ∧ 4 * (8 * S) * (8 * S) ≤ avail
  · rw [if_pos hc] at hm
    refine ⟨hc, ?_, hm⟩
    have := hc.1
    unfold maxAlloc at this
    by_contra h
    push_neg at h
    nlinarith
  · rw [if_neg hc] at hm
    cases hm

theorem drawCell_isSome_iff (bc : BoardConfig) (pieces : GoString → Option Image) (r f : Nat)
    (ss : GoString) (m : RGBAImage) :
    (drawCell bc pieces r f ss m).isSome ↔ (ss ≠ emptyCell → (pieces ss).isSome) := by
  unfold drawCell
  simp only
  by_cases hss : ss ≠ emptyCell
  · rw [if_pos hss]
    cases hp : pieces ss with
    | none => simp [hss]
    | some sprite => simp
  · rw [if_neg hss]
    simp [hss]

theorem drawRank_isSome_iff (bc : BoardConfig) (pieces : GoString → Option Image) (r : Nat) :
    ∀ (cells : List GoString) (f : Nat) (m : RGBAImage),
      (drawRank bc pieces r f cells m).isSome ↔
        ∀ ss ∈ cells, ss ≠ emptyCell → (pieces ss).isSome := by
  intro cells
  induction cells with
  | nil => intro f m; simp [drawRank]
  | cons ss fs ih =>
    intro f m
    simp only [drawRank, List.mem_cons, forall_eq_or_imp]
    cases hc : drawCell bc pieces r f ss m with
    | none =>
      have := (drawCell_isSome_iff bc pieces r f ss m).not.mp (by rw [hc]; simp)
      simp only [Option.isSome_none]
      constructor
      · intro h; cases h
      · intro h; exact absurd h.1 this
    | some m1 =>
      have := (drawCell_isSome_iff bc pieces r f ss m).mp (by rw [hc]; rfl)
      simp only
      rw [ih (f + 1) m1]
      exact ⟨fun h => ⟨this, h⟩, fun h => h.2⟩

/-- The drawing loops run to the end exactly when every occupied cell has a
sprite in the map. -/
theorem drawRanks_isSome_iff (bc : BoardConfig) (pieces : GoString → Option Image) :
    ∀ (ranks : List (List GoString)) (r : Nat) (m : RGBAImage),
      (drawRanks bc pieces r ranks m).isSome ↔
        ∀ rank ∈ ranks, ∀ ss ∈ rank, ss ≠ emptyCell → (pieces ss).isSome := by
  intro ranks
  induction ranks with
  | nil => intro r m; simp [drawRanks]
  | cons fs rest ih =>
    intro r m
    simp only [drawRanks, List.mem_cons, forall_eq_or_imp]
    cases hc : drawRank bc pieces r 0 fs m with
    | none =>
      have := (drawRank_isSome_iff bc pieces r fs 0 m).not.mp (by rw [hc]; simp)
      simp only [Option.isSome_none]
      constructor
      · intro h; cases h
      · intro h; exact absurd h.1 this
    | some m1 =>
      have := (drawRank_isSome_iff bc pieces r fs 0 m).mp (by rw [hc]; rfl)
      simp only
      rw [ih (r + 1) m1]
      exact ⟨fun h => ⟨this, h⟩, fun h => h.2⟩

/-- When `DisplayBoard` hands a buffer to the encoder, for a square size
`S ≥ 0` with `8*S` within the range of `int`: exactly when the `4*(8*S)*(8*S)`
bytes of the buffer are at most `maxAlloc` and can be obtained, and every
occupied cell has a sprite in the map. -/
theorem DisplayBoard_isSome_iff (avail : Nat) (S : Int) (h0 : 0 ≤ S) (h1 : 8 * S ≤ maxInt)
    (pos : Position) (pieces : GoString → Option Image) :
    (DisplayBoard avail (NewBoardConfig S) pos pieces).isSome ↔
      4 * (8 * S) * (8 * S) ≤ maxAlloc ∧ 4 * (8 * S) * (8 * S) ≤ avail ∧
        ∀ rank ∈ pos.pieces, ∀ ss ∈ rank, ss ≠ emptyCell → (pieces ss).isSome := by
  rw [DisplayBoard_of_range avail S h0 h1]
  by_cases hc : 4 * (8 * S) * (8 * S) ≤ maxAlloc ∧ 4 * (8 * S) * (8 * S) ≤ avail
  · rw [if_pos hc, drawRanks_isSome_iff]
    exact ⟨fun h => ⟨hc.1, hc.2, h⟩, fun h => h.2.2⟩
  · rw [if_neg hc]
    simp only [Option.isSome_none]
    constructor
    · intro h; cases h
    · intro h; exact absurd ⟨h.1, h.2.1⟩ hc

/-- What `DisplayBoard` leaves at a pixel of an empty cell, for a board of
eight ranks of eight cells. -/
theorem DisplayBoard_Pix_empty (avail : Nat) (S : Int) (h0 : 0 < S) (hmax : 8 * S ≤ maxInt)
    (pos : Position) (pieces : GoString → Option Image)
    (h8 : pos.pieces.length = 8) (h88 : ∀ rank ∈ pos.pieces, rank.length = 8)
    (r f : Nat) (rank : List GoString) (hr : pos.pieces[r]? = some rank)
    (hf : rank[f]? = some emptyCell) (m : RGBAImage)
    (hm : DisplayBoard avail (NewBoardConfig S) pos pieces = some m) (x y : Int)
    (hin : (⟨x, y⟩ : Point).In (cellRect (NewBoardConfig S) r f)) :
    (⟨x, y⟩ : Point).In m.Rect ∧
      m.Pix x y = if (r + f) % 2 = 1 then white else black := by
  obtain ⟨_, h1, hm⟩ := DisplayBoard_some avail S (le_of_lt h0) hmax pos pieces m hm
  have hr8 : r < 8 := by
    have := (List.getElem?_eq_some_iff.mp hr).1
    omega
  have hf8 : f < 8 := by
    have h1 := (List.getElem?_eq_some_iff.mp hf).1
    have h2 := h88 rank (List.getElem?_mem hr)
    omega
  have hxy := (In_cellRect S (le_of_lt h0) hmax r f (by omega) (by omega) x y).mp hin
  have hfS0 : 0 ≤ (f : Int) * S := by positivity
  have hfS7 : (f : Int) * S ≤ 7 * S := by
    have : (f : Int) ≤ 7 := by exact_mod_cast (by omega : f ≤ 7)
    nlinarith
  have hrS0 : 0 ≤ (r : Int) * S := by positivity
  have hrS7 : (r : Int) * S ≤ 7 * S := by
    have : (r : Int) ≤ 7 := by exact_mod_cast (by omega : r ≤ 7)
    nlinarith
  have hRect : Rect 0 0 (8 * S) (8 * S) = ⟨⟨0, 0⟩, ⟨8 * S, 8 * S⟩⟩ := by
    unfold Rect
    rw [if_neg (by omega), if_neg (by omega)]
  have hinR : (⟨x, y⟩ : Point).In ⟨⟨0, 0⟩, ⟨8 * S, 8 * S⟩⟩ := by
    simp only [Point.In]
    omega
  have hcell := cellRect_of_range S (le_of_lt h0) hmax r f (by omega) (by omega)
  have hwhite : ∀ dst : RGBAImage, dst.Rect = ⟨⟨0, 0⟩, ⟨8 * S, 8 * S⟩⟩ →
      (Draw dst (cellRect (NewBoardConfig S) r f) (Uniform white) ZP .Src).Pix x y
        = white := by
    intro dst hdst
    rw [Draw_Uniform_Pix dst _ white x y hin (by rw [hdst]; exact hinR)
      (by rw [hcell]; exact hfS0) (by rw [hcell]; simp only; omega)
      (by rw [hcell]; simp only; omega) (by rw [hcell]; simp only; omega)
      (by rw [hcell]; simp only; omega) (by rw [hcell]; simp only; omega)]
    exact blend_Src_white _
  have hfill :
      (Draw { Rect := ⟨⟨0, 0⟩, ⟨8 * S, 8 * S⟩⟩, Pix := fun _ _ => ⟨0, 0, 0, 0⟩ }
        ⟨⟨0, 0⟩, ⟨8 * S, 8 * S⟩⟩ (Uniform black) ZP .Src).Pix x y = black := by
    rw [Draw_Uniform_Pix _ _ black x y hinR hinR (by simp) (by simp) (by simp) (by simp)
      (by simp only [Point.In] at hinR; simp only; omega)
      (by simp only [Point.In] at hinR; simp only; omega)]
    exact blend_Src_black _
  have hout : ∀ i2 j rank2, pos.pieces[i2]? = some rank2 → j < rank2.length →
      (i2 ≠ r ∨ j ≠ f) → ¬ (⟨x, y⟩ : Point).In (cellRect (NewBoardConfig S) (0 + i2) j) := by
    intro i2 j rank2 hi2 hj hne hc
    have hi8 : i2 < 8 := by
      have := (List.getElem?_eq_some_iff.mp hi2).1
      omega
    have hj8 : j < 8 := by
      have := h88 rank2 (List.getElem?_mem hi2)
      omega
    rw [Nat.zero_add] at hc
    have := cellRect_disjoint S h0 hmax i2 j r f (by omega) (by omega) (by omega) (by omega)
      x y hin hc
    omega
  have hpix := drawRanks_target (NewBoardConfig S) pieces r f x y ⟨⟨0, 0⟩, ⟨8 * S, 8 * S⟩⟩
    hin hwhite pos.pieces 0 _ m hm (Draw_Rect _ _ _ _ _) r rank (by omega) hr hf hout
  have hrect := drawRanks_Rect _ _ _ _ _ _ hm
  rw [Draw_Rect] at hrect
  refine ⟨by rw [hrect]; exact hinR, ?_⟩
  rw [hpix, hfill]

/-! ## Theorems on `DisplayBoard` -/

/-- C9, refuted as stated: with `SquareSize = -1` the rectangle of the cell at
rank 0, file 0 does not have `(f*S, BoardSize - r*S - S)` as its top-left and
`(x0+S, y0+S)` as its bottom-right corner: `image.Rect` swaps them. -/
theorem cellRect_negative_size :
    (NewBoardConfig (-1)).BoardSize = 8 * (-1) ∧
      ¬ ((cellRect (NewBoardConfig (-1)) 0 0).Min
            = ⟨0 * (-1), (NewBoardConfig (-1)).BoardSize - 0 * (-1) - (-1)⟩ ∧
          (cellRect (NewBoardConfig (-1)) 0 0).Max
            = ⟨0 * (-1) + (-1), (NewBoardConfig (-1)).BoardSize - 0 * (-1) - (-1) + (-1)⟩) := by
  decide

/-- C9, amended: for a square size `S` with `0 ≤ S` and `8*S` within the range
of `int`, `BoardSize` is `8*S` and the rectangle of the cell at rank `r ≤ 7`,
file `f ≤ 7` has top-left corner `(x0, y0) = (f*S, BoardSize - r*S - S)` and
bottom-right corner `(x0+S, y0+S)`; rank 0 spans `y` from `7*S` to `8*S` and
rank 7 from `0` to `S`. -/
theorem cellRect_corners (S : Int) (h0 : 0 ≤ S) (h1 : 8 * S ≤ maxInt) (r f : Nat)
    (hr : r ≤ 7) (hf : f ≤ 7) :
    (NewBoardConfig S).BoardSize = 8 * S ∧
      (cellRect (NewBoardConfig S) r f).Min
        = ⟨f * S, (NewBoardConfig S).BoardSize - r * S - S⟩ ∧
      (cellRect (NewBoardConfig S) r f).Max
        = ⟨f * S + S, (NewBoardConfig S).BoardSize - r * S - S + S⟩ ∧
      (cellRect (NewBoardConfig S) 0 f).Min.Y = 7 * S ∧
      (cellRect (NewBoardConfig S) 0 f).Max.Y = 8 * S ∧
      (cellRect (NewBoardConfig S) 7 f).Min.Y = 0 ∧
      (cellRect (NewBoardConfig S) 7 f).Max.Y = S := by
  have hB : (NewBoardConfig S).BoardSize = 8 * S := by
    rw [NewBoardConfig_of_range S h0 h1]
  rw [hB, cellRect_of_range S h0 h1 r f hr hf, cellRect_of_range S h0 h1 0 f (by omega) hf,
    cellRect_of_range S h0 h1 7 f (by omega) hf]
  refine ⟨rfl, rfl, rfl, ?_, ?_, ?_, ?_⟩ <;> simp only [Nat.cast_zero, Nat.cast_ofNat] <;>
    omega

theorem cellRect_corners_witness :
    (0 : Int) ≤ SQUARE_SIZE ∧ 8 * SQUARE_SIZE ≤ maxInt ∧
      (cellRect (NewBoardConfig SQUARE_SIZE) 2 3).Min
        = ⟨3 * SQUARE_SIZE, (NewBoardConfig SQUARE_SIZE).BoardSize - 2 * SQUARE_SIZE
            - SQUARE_SIZE⟩ :=
  ⟨by decide, by decide,
    (cellRect_corners SQUARE_SIZE (by decide) (by decide) 2 3 (by decide) (by decide)).2.1⟩

/-- C10, refuted as stated: with `SquareSize = 2^61 + 1` the product
`SquareSize * 8` overflows to 8, the buffer is 8 by 8 pixels (its 256 bytes
are allocated, 2^30 bytes being available), and the pixel `(0, 7)` of the
empty cell at rank 0, file 0 is light although `0 + 0` is even. -/
theorem DisplayBoard_overflow :
    (0 : Int) < 2305843009213693953 ∧ 2305843009213693953 ≤ maxInt ∧
      ∃ m, DisplayBoard 1073741824 (NewBoardConfig 2305843009213693953)
          { pieces := List.replicate 8 (List.replicate 8 emptyCell), active := [],
            castling := [], enpassant := [], halfmove := 0, fullmove := 0 }
          (fun _ => none) = some m ∧
        (⟨0, 7⟩ : Point).In (cellRect (NewBoardConfig 2305843009213693953) 0 0) ∧
        (0 + 0) % 2 = 0 ∧ m.RGBAAt 0 7 = white ∧ white ≠ black := by
  refine ⟨by decide, by decide, _, rfl, ?_, ?_, ?_, ?_⟩ <;> decide!

/-- C10, amended: for a square size `S > 0` with `8*S` within the range of
`int` and a board of eight ranks of eight cells, whenever `DisplayBoard` hands
a buffer to the encoder every pixel of an empty cell `(r, f)` is in the buffer
and has the light colour if `r + f` is odd and the dark colour if it is even,
whatever the other cells hold.  It hands over a buffer exactly when the
`4*(8*S)*(8*S)` bytes of the buffer are at most `maxAlloc` and can be
obtained and every occupied cell has a sprite; otherwise `image.NewRGBA` or
`draw.Draw` does not return.  On the empty board with `SQUARE_SIZE`, the
518400 bytes being available, the pixel `(0, 359)` of the square at rank 0,
file 0 is dark and the pixel `(45, 359)` of the square at rank 0, file 1 is
light. -/
theorem DisplayBoard_empty_cell (avail : Nat) (S : Int) (h0 : 0 < S) (h1 : 8 * S ≤ maxInt)
    (pos : Position) (pieces : GoString → Option Image)
    (h8 : pos.pieces.length = 8) (h88 : ∀ rank ∈ pos.pieces, rank.length = 8)
    (r f : Nat) (rank : List GoString) (hr : pos.pieces[r]? = some rank)
    (hf : rank[f]? = some emptyCell) :
    (∀ m, DisplayBoard avail (NewBoardConfig S) pos pieces = some m →
        ∀ x y, (⟨x, y⟩ : Point).In (cellRect (NewBoardConfig S) r f) →
          m.RGBAAt x y = if (r + f) % 2 = 1 then white else black) ∧
      ((DisplayBoard avail (NewBoardConfig S) pos pieces).isSome ↔
        4 * (8 * S) * (8 * S) ≤ maxAlloc ∧ 4 * (8 * S) * (8 * S) ≤ avail ∧
          ∀ rank ∈ pos.pieces, ∀ ss ∈ rank, ss ≠ emptyCell → (pieces ss).isSome) ∧
      (4 * (8 * SQUARE_SIZE) * (8 * SQUARE_SIZE) ≤ (avail : Int) →
        ∃ m, DisplayBoard avail (NewBoardConfig SQUARE_SIZE)
            { pieces := List.replicate 8 (List.replicate 8 emptyCell), active := [],
              castling := [], enpassant := [], halfmove := 0, fullmove := 0 }
            (fun _ => none) = some m ∧
          m.RGBAAt 0 359 = black ∧ m.RGBAAt 45 359 = white) := by
  refine ⟨?_, DisplayBoard_isSome_iff avail S (le_of_lt h0) h1 pos pieces, ?_⟩
  · intro m hm x y hin
    obtain ⟨hR, hpix⟩ :=
      DisplayBoard_Pix_empty avail S h0 h1 pos pieces h8 h88 r f rank hr hf m hm x y hin
    unfold RGBAImage.RGBAAt
    rw [if_pos hR, hpix]
  · intro hav
    rw [DisplayBoard_of_range avail SQUARE_SIZE (by decide) (by decide),
      if_pos ⟨by decide, hav⟩]
    refine ⟨_, rfl, ?_, ?_⟩ <;> decide!

theorem DisplayBoard_empty_cell_witness :
    (0 : Int) < SQUARE_SIZE ∧ 8 * SQUARE_SIZE ≤ maxInt ∧
      (DisplayBoard 1073741824 (NewBoardConfig SQUARE_SIZE)
        { pieces := [[str "R", str "_", str "_", str "_", str "K", str "_", str "_",
            str "R"]] ++ List.replicate 7 (List.replicate 8 emptyCell), active := [],
          castling := [], enpassant := [], halfmove := 0, fullmove := 0 }
        (fun _ => some (Uniform white))).isSome :=
  ⟨by decide, by decide,
    (DisplayBoard_empty_cell 1073741824 SQUARE_SIZE (by decide) (by decide)
      { pieces := [[str "R", str "_", str "_", str "_", str "K", str "_", str "_",
          str "R"]] ++ List.replicate 7 (List.replicate 8 emptyCell), active := [],
        castling := [], enpassant := [], halfmove := 0, fullmove := 0 }
      (fun _ => some (Uniform white)) (by decide) (by decide) 0 1
      [str "R", str "_", str "_", str "_", str "K", str "_", str "_", str "R"]
      (by decide) (by decide)).2.1.mpr ⟨by decide, by decide, by simp⟩⟩

/-! ## Further lemmas -/

theorem DisplayBoard_Rect (avail : Nat) (bc : BoardConfig) (pos : Position)
    (pieces : GoString → Option Image) (m : RGBAImage)
    (h : DisplayBoard avail bc pos pieces = some m) :
    m.Rect = Rect 0 0 bc.BoardSize bc.BoardSize := by
  rw [DisplayBoard_eq] at h
  by_cases hc : (NewRGBA avail (Rect 0 0 bc.BoardSize bc.BoardSize)).isSome
  · rw [if_pos hc] at h
    rw [drawRanks_Rect _ _ _ _ _ _ h, Draw_Rect]
  · rw [if_neg hc] at h
    cases h

/-- Every pixel of the 8x8 grid lies in the rectangle of the cell at rank
`7 - y / S`, file `x / S`. -/
theorem In_cellRect_div (S : Int) (h0 : 0 < S) (h1 : 8 * S ≤ maxInt) (x y : Int)
    (hx0 : 0 ≤ x) (hx1 : x < 8 * S) (hy0 : 0 ≤ y) (hy1 : y < 8 * S) :
    (x / S).toNat < 8 ∧ (y / S).toNat < 8 ∧
      (⟨x, y⟩ : Point).In (cellRect (NewBoardConfig S) (7 - (y / S).toNat) (x / S).toNat) := by
  have key : ∀ u : Int, 0 ≤ u → u < 8 * S →
      (u / S).toNat < 8 ∧ ((u / S).toNat : Int) * S ≤ u ∧ u < ((u / S).toNat : Int) * S + S := by
    intro u hu0 hu1
    have hq0 : 0 ≤ u / S := Int.ediv_nonneg hu0 (le_of_lt h0)
    have hq8 : u / S < 8 := Int.ediv_lt_of_lt_mul h0 (by omega)
    have hcast : ((u / S).toNat : Int) = u / S := Int.toNat_of_nonneg hq0
    have hle : u / S * S ≤ u := Int.ediv_mul_le u (ne_of_gt h0)
    have hlt : u < (u / S + 1) * S := Int.lt_ediv_add_one_mul_self u h0
    rw [add_mul, one_mul] at hlt
    refine ⟨by omega, by rw [hcast]; exact hle, by rw [hcast]; exact hlt⟩
  obtain ⟨hf8, hfl, hfu⟩ := key x hx0 hx1
  obtain ⟨hr8, hrl, hru⟩ := key y hy0 hy1
  refine ⟨hf8, hr8, ?_⟩
  rw [In_cellRect S (le_of_lt h0) h1 _ _ (by omega) (by omega)]
  have hsub : ((7 - (y / S).toNat : Nat) : Int) = 7 - ((y / S).toNat : Int) := by omega
  rw [hsub]
  have hmul : (7 - ((y / S).toNat : Int)) * S = 7 * S - ((y / S).toNat : Int) * S := by ring
  rw [hmul]
  refine ⟨hfl, hfu, by omega, by omega⟩

/-- The loop over the files of a rank, seen from a pixel of the cell at file
`F` that lies in no other rectangle of the rank: the pixel ends as drawing that
cell leaves it, on a buffer in which the pixel is as it was. -/
theorem drawRank_at (bc : BoardConfig) (pieces : GoString → Option Image) (r F : Nat)
    (x y : Int) (R : Rectangle) :
    ∀ (cells : List GoString) (f : Nat) (m m1 : RGBAImage),
      drawRank bc pieces r f cells m = some m1 → m.Rect = R →
      ∀ k ss, f + k = F → cells[k]? = some ss →
      (∀ j, j < cells.length → j ≠ k → ¬ (⟨x, y⟩ : Point).In (cellRect bc r (f + j))) →
      ∃ m0 m2, m0.Rect = R ∧ m0.Pix x y = m.Pix x y ∧
        drawCell bc pieces r F ss m0 = some m2 ∧ m1.Pix x y = m2.Pix x y := by
  intro cells
  induction cells with
  | nil => intro f m m1 _ _ k ss _ hk; simp at hk
  | cons c fs ih =>
    intro f m m1 h hR k ss hF hk hout
    simp only [drawRank] at h
    cases hc : drawCell bc pieces r f c m with
    | none => rw [hc] at h; cases h
    | some m2 =>
      rw [hc] at h
      cases k with
      | zero =>
        simp only [List.getElem?_cons_zero, Option.some.injEq] at hk
        subst hk
        simp only [Nat.add_zero] at hF
        subst hF
        refine ⟨m, m2, hR, rfl, hc, ?_⟩
        exact drawRank_outside bc pieces r x y fs (f + 1) m2 m1 h (fun j hj => by
          have := hout (j + 1) (by simp; omega) (by omega)
          rwa [show f + (j + 1) = f + 1 + j by omega] at this)
      | succ k =>
        simp only [List.getElem?_cons_succ] at hk
        have h0 : ¬ (⟨x, y⟩ : Point).In (cellRect bc r f) := by
          have := hout 0 (by simp) (by omega)
          simpa using this
        have e2 : m2.Pix x y = m.Pix x y := drawCell_outside _ _ _ _ _ _ _ hc x y h0
        have hR2 : m2.Rect = R := by rw [drawCell_Rect _ _ _ _ _ _ _ hc, hR]
        obtain ⟨m0, m3, hm0R, hm0P, hdraw, hfin⟩ := ih (f + 1) m2 m1 h hR2 k ss (by omega) hk
          (fun j hj hjk => by
            have := hout (j + 1) (by simp; omega) (by omega)
            rwa [show f + (j + 1) = f + 1 + j by omega] at this)
        exact ⟨m0, m3, hm0R, by rw [hm0P, e2], hdraw, hfin⟩

/-- The loop over the ranks, seen from a pixel of the cell at rank `T`, file
`F` that lies in no other rectangle drawn. -/
theorem drawRanks_at (bc : BoardConfig) (pieces : GoString → Option Image) (T F : Nat)
    (x y : Int) (R : Rectangle) :
    ∀ (ranks : List (List GoString)) (r : Nat) (m m1 : RGBAImage),
      drawRanks bc pieces r ranks m = some m1 → m.Rect = R →
      ∀ i rank ss, r + i = T → ranks[i]? = some rank → rank[F]? = some ss →
      (∀ i2 j rank2, ranks[i2]? = some rank2 → j < rank2.length → (i2 ≠ i ∨ j ≠ F) →
        ¬ (⟨x, y⟩ : Point).In (cellRect bc (r + i2) j)) →
      ∃ m0 m2, m0.Rect = R ∧ m0.Pix x y = m.Pix x y ∧
        drawCell bc pieces T F ss m0 = some m2 ∧ m1.Pix x y = m2.Pix x y := by
  intro ranks
  induction ranks with
  | nil => intro r m m1 _ _ i rank ss _ hi; simp at hi
  | cons fs rest ih =>
    intro r m m1 h hR i rank ss hT hi hk hout
    simp only [drawRanks] at h
    cases hc : drawRank bc pieces r 0 fs m with
    | none => rw [hc] at h; cases h
    | some m2 =>
      rw [hc] at h
      cases i with
      | zero =>
        simp only [List.getElem?_cons_zero, Option.some.injEq] at hi
        subst hi
        simp only [Nat.add_zero] at hT
        subst hT
        obtain ⟨m0, m3, hm0R, hm0P, hdraw, hfin⟩ :=
          drawRank_at bc pieces r F x y R fs 0 m m2 hc hR F ss (by omega) hk
            (fun j hj hjk => by
              have := hout 0 j fs (by simp) hj (Or.inr hjk)
              simpa using this)
        refine ⟨m0, m3, hm0R, hm0P, hdraw, ?_⟩
        rw [drawRanks_outside bc pieces x y rest (r + 1) m2 m1 h (fun i j rank hi hj => by
          have := hout (i + 1) j rank (by simpa using hi) hj (Or.inl (by omega))
          rwa [show r + (i + 1) = r + 1 + i by omega] at this)]
        exact hfin
      | succ i =>
        simp only [List.getElem?_cons_succ] at hi
        have e2 : m2.Pix x y = m.Pix x y :=
          drawRank_outside bc pieces r x y fs 0 m m2 hc (fun j hj => by
            have := hout 0 j fs (by simp) hj (Or.inl (by omega))
            simpa using this)
        have hR2 : m2.Rect = R := by rw [drawRank_Rect _ _ _ _ _ _ _ hc, hR]
        obtain ⟨m0, m3, hm0R, hm0P, hdraw, hfin⟩ :=
          ih (r + 1) m2 m1 h hR2 i rank ss (by omega) hi hk
            (fun i2 j rank2 hi2 hj hne => by
              have := hout (i2 + 1) j rank2 (by simpa using hi2) hj
                (by rcases hne with h1 | h1
                    · exact Or.inl (by omega)
                    · exact Or.inr h1)
              rwa [show r + (i2 + 1) = r + 1 + i2 by omega] at this)
        exact ⟨m0, m3, hm0R, by rw [hm0P, e2], hdraw, hfin⟩

/-- What `DisplayBoard` leaves at a pixel of the cell at rank `r`, file `f` of
a board of eight ranks of eight cells: what drawing that cell leaves on a
buffer in which the pixel holds the background colour. -/
theorem DisplayBoard_at (avail : Nat) (S : Int) (h0 : 0 < S) (hmax : 8 * S ≤ maxInt)
    (pos : Position) (pieces : GoString → Option Image)
    (h8 : pos.pieces.length = 8) (h88 : ∀ rank ∈ pos.pieces, rank.length = 8)
    (r f : Nat) (rank : List GoString) (ss : GoString) (hr : pos.pieces[r]? = some rank)
    (hf : rank[f]? = some ss) (m : RGBAImage)
    (hm : DisplayBoard avail (NewBoardConfig S) pos pieces = some m) (x y : Int)
    (hin : (⟨x, y⟩ : Point).In (cellRect (NewBoardConfig S) r f)) :
    r < 8 ∧ f < 8 ∧ (⟨x, y⟩ : Point).In m.Rect ∧
      ∃ m0 m2, m0.Rect = ⟨⟨0, 0⟩, ⟨8 * S, 8 * S⟩⟩ ∧ m0.Pix x y = black ∧
        drawCell (NewBoardConfig S) pieces r f ss m0 = some m2 ∧
        m.Pix x y = m2.Pix x y := by
  have h1 : 8 * S ≤ 1000000000 :=
    (DisplayBoard_some avail S (le_of_lt h0) hmax pos pieces m hm).2.1
  have hr8 : r < 8 := by
    have := (List.getElem?_eq_some_iff.mp hr).1
    omega
  have hf8 : f < 8 := by
    have h1 := (List.getElem?_eq_some_iff.mp hf).1
    have h2 := h88 rank (List.getElem?_mem hr)
    omega
  have hxy := (In_cellRect S (le_of_lt h0) hmax r f (by omega) (by omega) x y).mp hin
  have hfS0 : 0 ≤ (f : Int) * S := by positivity
  have hfS7 : (f : Int) * S ≤ 7 * S := by
    have : (f : Int) ≤ 7 := by exact_mod_cast (by omega : f ≤ 7)
    nlinarith
  have hrS0 : 0 ≤ (r : Int) * S := by positivity
  have hrS7 : (r : Int) * S ≤ 7 * S := by
    have : (r : Int) ≤ 7 := by exact_mod_cast (by omega : r ≤ 7)
    nlinarith
  have hinR : (⟨x, y⟩ : Point).In ⟨⟨0, 0⟩, ⟨8 * S, 8 * S⟩⟩ := by
    simp only [Point.In]
    omega
  have hrectm : m.Rect = ⟨⟨0, 0⟩, ⟨8 * S, 8 * S⟩⟩ := by
    have hB : (NewBoardConfig S).BoardSize = 8 * S := by
      rw [NewBoardConfig_of_range S (le_of_lt h0) hmax]
    rw [DisplayBoard_Rect _ _ _ _ _ hm, hB]
    exact Rect_origin _ (by omega)
  have hm := (DisplayBoard_some avail S (le_of_lt h0) hmax pos pieces m hm).2.2
  have hfill :
      (Draw { Rect := ⟨⟨0, 0⟩, ⟨8 * S, 8 * S⟩⟩, Pix := fun _ _ => ⟨0, 0, 0, 0⟩ }
        ⟨⟨0, 0⟩, ⟨8 * S, 8 * S⟩⟩ (Uniform black) ZP .Src).Pix x y = black := by
    rw [Draw_Uniform_Pix _ _ black x y hinR hinR (by simp) (by simp) (by simp) (by simp)
      (by simp only [Point.In] at hinR; simp only; omega)
      (by simp only [Point.In] at hinR; simp only; omega)]
    exact blend_Src_black _
  have hout : ∀ i2 j rank2, pos.pieces[i2]? = some rank2 → j < rank2.length →
      (i2 ≠ r ∨ j ≠ f) → ¬ (⟨x, y⟩ : Point).In (cellRect (NewBoardConfig S) (0 + i2) j) := by
    intro i2 j rank2 hi2 hj hne hc
    have hi8 : i2 < 8 := by
      have := (List.getElem?_eq_some_iff.mp hi2).1
      omega
    have hj8 : j < 8 := by
      have := h88 rank2 (List.getElem?_mem hi2)
      omega
    rw [Nat.zero_add] at hc
    have := cellRect_disjoint S h0 hmax i2 j r f (by omega) (by omega) (by omega) (by omega)
      x y hin hc
    omega
  obtain ⟨m0, m2, hm0R, hm0P, hdraw, hfin⟩ :=
    drawRanks_at (NewBoardConfig S) pieces r f x y ⟨⟨0, 0⟩, ⟨8 * S, 8 * S⟩⟩
      pos.pieces 0 _ m hm (Draw_Rect _ _ _ _ _) r rank ss (by omega) hr hf hout
  refine ⟨hr8, hf8, by rw [hrectm]; exact hinR, m0, m2, hm0R, ?_, hdraw, hfin⟩
  rw [hm0P, hfill]

theorem overChannel_full_alpha (d s : Nat) (hs : s ≤ 0xFFFF) :
    overChannel d s 0xFFFF = (s >>> 8) % 256 := by
  unfold overChannel
  have ha : ((0xFFFF + 4294967296 - 0xFFFF) % 4294967296 * 0x101) % 4294967296 = 0 := by
    decide
  rw [ha, Nat.mul_zero, Nat.zero_add]
  have : s * 0xFFFF % 4294967296 / 0xFFFF = s := by omega
  rw [this]

/-- A fully opaque source colour replaces the destination pixel. -/
theorem blend_Over_full_alpha (d : RGBA) (c : Color) (ha : c.a = 0xFFFF)
    (hr : c.r ≤ 0xFFFF) (hg : c.g ≤ 0xFFFF) (hb : c.b ≤ 0xFFFF) :
    blend .Over d c = RGBAModel c := by
  simp only [blend, RGBAModel, ha]
  rw [overChannel_full_alpha _ _ hr, overChannel_full_alpha _ _ hg, overChannel_full_alpha _ _ hb,
    overChannel_full_alpha _ _ (le_refl _)]

/-- A fully transparent source colour leaves the two square colours as they
are. -/
theorem blend_Over_transparent :
    blend .Over white ⟨0, 0, 0, 0⟩ = white ∧ blend .Over black ⟨0, 0, 0, 0⟩ = black := by
  decide

/-- Drawing an occupied cell whose sprite has the bounds `(0,0)-(S,S)`: at a
pixel of the cell the sprite pixel aligned to it, counted from the top-left
corner of the cell, is composited over the square colour. -/
theorem drawCell_occupied_Pix (S : Int) (h0 : 0 < S) (h1 : 8 * S ≤ 1000000000)
    (pieces : GoString → Option Image) (r f : Nat) (hr : r < 8) (hf : f < 8)
    (ss : GoString) (sprite : Image) (hss : ss ≠ emptyCell) (hsp : pieces ss = some sprite)
    (hb : sprite.Bounds = ⟨⟨0, 0⟩, ⟨S, S⟩⟩) (m0 m2 : RGBAImage)
    (hR : m0.Rect = ⟨⟨0, 0⟩, ⟨8 * S, 8 * S⟩⟩)
    (hd : drawCell (NewBoardConfig S) pieces r f ss m0 = some m2) (x y : Int)
    (hin : (⟨x, y⟩ : Point).In (cellRect (NewBoardConfig S) r f)) :
    m2.Pix x y =
      blend .Over (if (r + f) % 2 = 1 then white else m0.Pix x y)
        (sprite.At (x - f * S) (y - (8 * S - r * S - S))) := by
  have hmax : 8 * S ≤ maxInt := by unfold maxInt; omega
  have hxy := (In_cellRect S (le_of_lt h0) hmax r f (by omega) (by omega) x y).mp hin
  have hcell := cellRect_of_range S (le_of_lt h0) hmax r f (by omega) (by omega)
  have hfS0 : 0 ≤ (f : Int) * S := by positivity
  have hfS7 : (f : Int) * S ≤ 7 * S := by
    have : (f : Int) ≤ 7 := by exact_mod_cast (by omega : f ≤ 7)
    nlinarith
  have hrS0 : 0 ≤ (r : Int) * S := by positivity
  have hrS7 : (r : Int) * S ≤ 7 * S := by
    have : (r : Int) ≤ 7 := by exact_mod_cast (by omega : r ≤ 7)
    nlinarith
  have hinR : (⟨x, y⟩ : Point).In ⟨⟨0, 0⟩, ⟨8 * S, 8 * S⟩⟩ := by
    simp only [Point.In]
    omega
  unfold drawCell at hd
  simp only at hd
  rw [if_pos hss, hsp] at hd
  have hm2 := (Option.some.inj hd).symm
  have hsq : (if (r + f) % 2 = 1 then
        Draw m0 (cellRect (NewBoardConfig S) r f) (Uniform white) ZP .Src else m0).Pix x y
      = if (r + f) % 2 = 1 then white else m0.Pix x y := by
    by_cases hodd : (r + f) % 2 = 1
    · rw [if_pos hodd, if_pos hodd]
      rw [Draw_Uniform_Pix m0 _ white x y hin (by rw [hR]; exact hinR)
        (by rw [hcell]; exact hfS0) (by rw [hcell]; simp only; omega)
        (by rw [hcell]; simp only; omega) (by rw [hcell]; simp only; omega)
        (by rw [hcell]; simp only; omega) (by rw [hcell]; simp only; omega)]
      exact blend_Src_white _
    · rw [if_neg hodd, if_neg hodd]
  have hsqR : (if (r + f) % 2 = 1 then
        Draw m0 (cellRect (NewBoardConfig S) r f) (Uniform white) ZP .Src else m0).Rect
      = ⟨⟨0, 0⟩, ⟨8 * S, 8 * S⟩⟩ := by
    split_ifs
    · rw [Draw_Rect, hR]
    · exact hR
  rw [hm2, Draw_Pix, if_pos, hsq]
  · rw [hcell]
    simp only [ZP, zero_add]
    rw [wrapInt_of_range (x - f * S) (by omega) (by omega),
      wrapInt_of_range (y - (8 * S - r * S - S)) (by omega) (by omega)]
  · refine ⟨hin, by rw [hsqR]; exact hinR, ?_⟩
    rw [hb, hcell]
    simp only [Point.In, Rectangle.Add, Point.Add, Point.Sub, ZP, sub_zero, zero_add]
    rw [wrapInt_of_range ((f : Int) * S) (by omega) (by omega),
      wrapInt_of_range ((f : Int) * S) (by omega) (by omega),
      wrapInt_of_range (8 * S - r * S - S) (by omega) (by omega),
      wrapInt_of_range (8 * S - r * S - S) (by omega) (by omega),
      wrapInt_of_range (S + (f : Int) * S) (by omega) (by omega),
      wrapInt_of_range (S + (8 * S - r * S - S)) (by omega) (by omega)]
    omega

/-- The loop of `InitPieces` over any list of names: it stops with the error
of the first name that fails to load, having called `LoadPiece` on the names up
to that one; when no name fails it has called `LoadPiece` on every name and
the map holds the loaded image of each. -/
theorem InitPiecesFrom_spec {E : Type} (LoadPiece : GoString → Except E Image) :
    ∀ (names : List GoString) (pieces : GoString → Option Image) (calls : List GoString),
      (∀ e, (InitPiecesFrom LoadPiece names pieces calls).err = some e →
        ∃ pre n post, names = pre ++ n :: post ∧
          (∀ p ∈ pre, ∃ img, LoadPiece p = .ok img) ∧ LoadPiece n = .error e ∧
          (InitPiecesFrom LoadPiece names pieces calls).calls = calls ++ pre ++ [n]) ∧
      ((InitPiecesFrom LoadPiece names pieces calls).err = none →
        (InitPiecesFrom LoadPiece names pieces calls).calls = calls ++ names ∧
        (∀ n ∈ names, ∃ img, LoadPiece n = .ok img ∧
          (InitPiecesFrom LoadPiece names pieces calls).pieces n = some img) ∧
        ∀ k, k ∉ names → (InitPiecesFrom LoadPiece names pieces calls).pieces k = pieces k) := by
  intro names
  induction names with
  | nil =>
    intro pieces calls
    simp [InitPiecesFrom]
  | cons p rest ih =>
    intro pieces calls
    cases hl : LoadPiece p with
    | error err =>
      have hres : InitPiecesFrom LoadPiece (p :: rest) pieces calls
          = { err := some err, pieces := pieces, calls := calls ++ [p] } := by
        simp only [InitPiecesFrom, hl]
      rw [hres]
      refine ⟨?_, fun h => by simp at h⟩
      intro e he
      simp only [Option.some.injEq] at he
      subst he
      exact ⟨[], p, rest, rfl, by simp, hl, by simp⟩
    | ok img =>
      have hres : InitPiecesFrom LoadPiece (p :: rest) pieces calls
          = InitPiecesFrom LoadPiece rest (setPiece pieces p img) (calls ++ [p]) := by
        simp only [InitPiecesFrom, hl]
      rw [hres]
      obtain ⟨ih1, ih2⟩ := ih (setPiece pieces p img) (calls ++ [p])
      refine ⟨?_, ?_⟩
      · intro e he
        obtain ⟨pre, n, post, hnames, hpre, hn, hcalls⟩ := ih1 e he
        refine ⟨p :: pre, n, post, by rw [hnames]; rfl, ?_, hn, by rw [hcalls]; simp⟩
        intro q hq
        rcases List.mem_cons.mp hq with rfl | hq
        · exact ⟨img, hl⟩
        · exact hpre q hq
      · intro hnone
        obtain ⟨hcalls, hin, hout⟩ := ih2 hnone
        refine ⟨by rw [hcalls]; simp, ?_, ?_⟩
        · intro n hn
          by_cases hnr : n ∈ rest
          · exact hin n hnr
          · have hnp : n = p := by
              rcases List.mem_cons.mp hn with h | h
              · exact h
              · exact absurd h hnr
            subst hnp
            refine ⟨img, hl, ?_⟩
            rw [hout n hnr]
            simp [setPiece]
        · intro k hk
          have hkp : k ≠ p := fun h => hk (by simp [h])
          have hkr : k ∉ rest := fun h => hk (by simp [h])
          rw [hout k hkr]
          simp [setPiece, hkp]

theorem takeWhile_beq_replicate (l : GoString) (c : UInt8) :
    l.takeWhile (fun b => b == c)
      = List.replicate (l.takeWhile (fun b => b == c)).length c := by
  rw [List.eq_replicate_iff]
  refine ⟨rfl, fun b hb => ?_⟩
  have := List.mem_takeWhile_imp hb
  simpa using this

theorem head?_dropWhile_ne (l : GoString) (c : UInt8) :
    (l.dropWhile (fun b => b == c)).head? ≠ some c := by
  intro h
  have := List.head?_dropWhile_not (fun b => b == c) l
  rw [h] at this
  simp at this

/-- The function `strings.Trim` with the cutset `c` removes the leading and
the trailing run of `c`, and nothing else. -/
theorem Trim_spec (s : GoString) (c : UInt8) :
    (∃ i j, s = List.replicate i c ++ Trim s c ++ List.replicate j c) ∧
      (Trim s c).head? ≠ some c ∧ (Trim s c).getLast? ≠ some c := by
  have h1 := List.takeWhile_append_dropWhile (fun b => b == c) s
  have h2 := List.takeWhile_append_dropWhile (fun b => b == c)
    (s.dropWhile (fun b => b == c)).reverse
  have hd : s.dropWhile (fun b => b == c)
      = Trim s c ++ ((s.dropWhile (fun b => b == c)).reverse.takeWhile
          (fun b => b == c)).reverse := by
    have := congrArg List.reverse h2
    rw [List.reverse_reverse, List.reverse_append] at this
    exact this.symm
  have hlast : (Trim s c).getLast? ≠ some c := by
    unfold Trim
    rw [List.getLast?_reverse]
    exact head?_dropWhile_ne _ c
  refine ⟨⟨(s.takeWhile (fun b => b == c)).length,
    ((s.dropWhile (fun b => b == c)).reverse.takeWhile (fun b => b == c)).length, ?_⟩, ?_,
    hlast⟩
  · rw [← takeWhile_beq_replicate, List.append_assoc]
    have hrev : List.replicate
        ((s.dropWhile (fun b => b == c)).reverse.takeWhile (fun b => b == c)).length c
        = ((s.dropWhile (fun b => b == c)).reverse.takeWhile (fun b => b == c)).reverse := by
      rw [← List.reverse_replicate, ← takeWhile_beq_replicate]
    rw [hrev, ← hd, h1]
  · intro hhead
    have hne := head?_dropWhile_ne s c
    rw [hd, List.head?_append, hhead] at hne
    simp at hne

/-! ## Theorems on the board configuration, the grid and the errors -/

/-- C20: a position that `GetPosition` returns has only its grid populated:
`active`, `castling` and `enpassant` are empty and `halfmove` and `fullmove`
are 0, whatever the trailing fields of the FEN hold; for the example FEN with
the fields `b KQkq - 1 2`, `active` is `""`, not `"b"`, and `fullmove` is 0,
not 2. -/
theorem GetPosition_only_grid (fen : GoString) (pos : Position)
    (h : GetPosition fen = .ok pos) :
    (pos.active = [] ∧ pos.castling = [] ∧ pos.enpassant = [] ∧ pos.halfmove = 0 ∧
        pos.fullmove = 0) ∧
      ∃ p, GetPosition
          (str "rnbqkbnr/pp1ppppp/8/2p5/4P3/5N2/PPPP1PPP/RNBQKB1R b KQkq - 1 2") = .ok p ∧
        p.active = str "" ∧ p.active ≠ str "b" ∧ p.fullmove = 0 ∧ p.fullmove ≠ 2 := by
  constructor
  · rw [GetPosition_eq] at h
    split_ifs at h with h1 h2
    cases h
    exact ⟨rfl, rfl, rfl, rfl, rfl⟩
  · refine ⟨_, rfl, ?_, ?_, ?_, ?_⟩ <;> decide

theorem GetPosition_only_grid_witness :
    GetPosition (str "8/8/8/8/8/8/8/8 w KQkq e3 12 34") = .ok
        { pieces := List.replicate 8 (List.replicate 8 emptyCell), active := [],
          castling := [], enpassant := [], halfmove := 0, fullmove := 0 } ∧
      ((([] : GoString) = [] ∧ ([] : GoString) = [] ∧ ([] : GoString) = [] ∧
        (0 : Int) = 0 ∧ (0 : Int) = 0)) :=
  ⟨by decide,
    (GetPosition_only_grid (str "8/8/8/8/8/8/8/8 w KQkq e3 12 34")
      { pieces := List.replicate 8 (List.replicate 8 emptyCell), active := [],
        castling := [], enpassant := [], halfmove := 0, fullmove := 0 } (by decide)).1⟩

/-- C15, refuted as stated: the error for `"8/8"`, returned at the rank-count
test, and the error for `"7/8/8/8/8/8/8/8"`, returned at the rank-length test,
have the same text, `"Bad fen"`. -/
theorem GetPosition_errors_same_text :
    GetPosition (str "8/8") = .error .badRankCount ∧
      GetPosition (str "7/8/8/8/8/8/8/8") = .error .badRankLength ∧
      FenError.Error .badRankCount = FenError.Error .badRankLength ∧
      FenError.Error .badRankCount = str "Bad fen" := by
  refine ⟨?_, ?_, ?_, ?_⟩ <;> decide

/-- C15, amended: the two failure kinds of `GetPosition` are reported with the
same error text: whenever it fails, which it does at the rank-count test or at
the rank-length test, the text of the error is `"Bad fen"`, so the texts of
any two of its errors are equal. -/
theorem GetPosition_error_text (fen1 fen2 : GoString) (e1 e2 : FenError)
    (h1 : GetPosition fen1 = .error e1) (h2 : GetPosition fen2 = .error e2) :
    (e1 = .badRankCount ∨ e1 = .badRankLength) ∧ (e2 = .badRankCount ∨ e2 = .badRankLength) ∧
      e1.Error = str "Bad fen" ∧ e2.Error = str "Bad fen" ∧ e1.Error = e2.Error := by
  have kind : ∀ (fen : GoString) (e : FenError), GetPosition fen = .error e →
      e = .badRankCount ∨ e = .badRankLength := by
    intro fen e h
    rw [GetPosition_eq] at h
    split_ifs at h <;> cases h
    · exact Or.inl rfl
    · exact Or.inr rfl
  have key : ∀ e : FenError, e.Error = str "Bad fen" := by
    intro e; cases e <;> rfl
  exact ⟨kind fen1 e1 h1, kind fen2 e2 h2, key e1, key e2, by rw [key e1, key e2]⟩

theorem GetPosition_error_text_witness :
    GetPosition (str "8/8") = .error .badRankCount ∧
      GetPosition (str "7/8/8/8/8/8/8/8") = .error .badRankLength ∧
      FenError.Error .badRankCount = FenError.Error .badRankLength :=
  ⟨by decide, by decide,
    (GetPosition_error_text (str "8/8") (str "7/8/8/8/8/8/8/8") .badRankCount .badRankLength
      (by decide) (by decide)).2.2.2.2⟩

/-- C12, refuted as stated: for `SquareSize = -1` the board size is -8 and the
buffer `DisplayBoard` builds has its origin at `(-8, -8)`, not `(0, 0)`, and
is 8 pixels wide, not `BoardSize` pixels.  For `SquareSize = 2^60 - 1` the
board size is `8*S` without overflow, and `DisplayBoard` builds no buffer at
all, whatever the board, the sprites and the memory available:
`image.NewRGBA` panics on the `2^63 - 8` by `2^63 - 8` rectangle. -/
theorem DisplayBoard_negative_size :
    (NewBoardConfig (-1)).BoardSize = -8 ∧
      (∃ m, DisplayBoard 1073741824 (NewBoardConfig (-1))
          { pieces := List.replicate 8 (List.replicate 8 emptyCell), active := [],
            castling := [], enpassant := [], halfmove := 0, fullmove := 0 }
          (fun _ => none) = some m ∧
        m.Rect.Min = ⟨-8, -8⟩ ∧ m.Rect.Min ≠ ⟨0, 0⟩ ∧ m.Rect.Dx = 8 ∧
        m.Rect.Dx ≠ (NewBoardConfig (-1)).BoardSize) ∧
      (NewBoardConfig 1152921504606846975).BoardSize = 8 * 1152921504606846975 ∧
      ∀ (avail : Nat) (pos : Position) (pieces : GoString → Option Image),
        DisplayBoard avail (NewBoardConfig 1152921504606846975) pos pieces = none := by
  refine ⟨by decide, ⟨_, rfl, ?_, ?_, ?_, ?_⟩, by decide, ?_⟩
  · decide!
  · decide!
  · decide!
  · decide!
  · intro avail pos pieces
    rw [DisplayBoard_of_range avail _ (by decide) (by decide),
      if_neg (fun h => absurd h.1 (by decide))]

/-- C12, amended: for a square size `S` with `8*S` within the range of `int`,
`NewBoardConfig S` has `SquareSize = S` and `BoardSize = 8*S`.  When moreover
`0 ≤ S`, `image.NewRGBA` returns the buffer for that configuration exactly
when its `4*(8*S)*(8*S)` bytes are at most `maxAlloc` (2^48) and can be
obtained; the buffer then has its origin at `(0, 0)` and is `BoardSize` pixels
wide and high, and so has every buffer `DisplayBoard` hands to the encoder;
the example FEN is accepted and, with a sprite for each of the twelve piece
names and the buffer allocated, rendered into a buffer of `8*S` by `8*S`
pixels.  When the bytes exceed `maxAlloc` or cannot be obtained,
`DisplayBoard` does not return. -/
theorem NewBoardConfig_buffer (avail : Nat) (S : Int) (hlo : -(maxInt + 1) ≤ 8 * S)
    (h1 : 8 * S ≤ maxInt) (pos : Position) (pieces : GoString → Option Image) :
    (NewBoardConfig S).SquareSize = S ∧ (NewBoardConfig S).BoardSize = 8 * S ∧
      (0 ≤ S →
        ((NewRGBA avail
            (Rect 0 0 (NewBoardConfig S).BoardSize (NewBoardConfig S).BoardSize)).isSome ↔
          4 * (8 * S) * (8 * S) ≤ maxAlloc ∧ 4 * (8 * S) * (8 * S) ≤ avail)) ∧
      (0 ≤ S → ∀ m,
        NewRGBA avail (Rect 0 0 (NewBoardConfig S).BoardSize (NewBoardConfig S).BoardSize)
          = some m →
        m.Rect = ⟨⟨0, 0⟩, ⟨8 * S, 8 * S⟩⟩) ∧
      (0 ≤ S → ∀ m, DisplayBoard avail (NewBoardConfig S) pos pieces = some m →
        m.Rect.Min = ⟨0, 0⟩ ∧ m.Rect.Dx = (NewBoardConfig S).BoardSize ∧
          m.Rect.Dy = (NewBoardConfig S).BoardSize) ∧
      (0 ≤ S → 4 * (8 * S) * (8 * S) ≤ maxAlloc → 4 * (8 * S) * (8 * S) ≤ avail →
        (∀ n ∈ piece_names, (pieces n).isSome) →
        ∃ p m, GetPosition (str "rnbqkbnr/pp1ppppp/8/2p5/4P3/5N2/PPPP1PPP/RNBQKB1R") = .ok p ∧
          DisplayBoard avail (NewBoardConfig S) p pieces = some m ∧
          m.Rect.Min = ⟨0, 0⟩ ∧ m.Rect.Dx = 8 * S ∧ m.Rect.Dy = 8 * S) ∧
      (0 ≤ S → ¬ (4 * (8 * S) * (8 * S) ≤ maxAlloc ∧ 4 * (8 * S) * (8 * S) ≤ avail) →
        DisplayBoard avail (NewBoardConfig S) pos pieces = none) := by
  have hmax := h1
  have hmin := hlo
  unfold maxInt at hmax hmin
  have hB : (NewBoardConfig S).BoardSize = 8 * S := by
    unfold NewBoardConfig
    simp only
    rw [wrapInt_of_range _ (by omega) (by omega)]
    omega
  have hrect : 0 ≤ S → ∀ (q : Position) (m : RGBAImage),
      DisplayBoard avail (NewBoardConfig S) q pieces = some m →
      m.Rect.Min = ⟨0, 0⟩ ∧ m.Rect.Dx = 8 * S ∧ m.Rect.Dy = 8 * S := by
    intro h0 q m hm
    rw [DisplayBoard_Rect _ _ _ _ _ hm, hB, Rect_origin _ (by omega)]
    refine ⟨rfl, ?_, ?_⟩
    · simp only [Rectangle.Dx, sub_zero]
      exact wrapInt_of_range _ (by omega) (by omega)
    · simp only [Rectangle.Dy, sub_zero]
      exact wrapInt_of_range _ (by omega) (by omega)
  refine ⟨rfl, hB, ?_, ?_, ?_, ?_, ?_⟩
  · intro h0
    rw [hB, NewRGBA_square avail (8 * S) (by omega) h1]
    by_cases hc : 4 * (8 * S) * (8 * S) ≤ maxAlloc ∧ 4 * (8 * S) * (8 * S) ≤ avail
    · rw [if_pos hc]
      exact ⟨fun _ => hc, fun _ => rfl⟩
    · rw [if_neg hc]
      exact ⟨fun h => (by cases h), fun h => absurd h hc⟩
  · intro h0 m hm
    rw [NewRGBA_of_some _ _ _ hm, hB]
    exact Rect_origin _ (by omega)
  · intro h0 m hm
    rw [hB]
    exact hrect h0 pos m hm
  · intro h0 ha hav hp
    obtain ⟨p, hparse, hall⟩ : ∃ p,
        GetPosition (str "rnbqkbnr/pp1ppppp/8/2p5/4P3/5N2/PPPP1PPP/RNBQKB1R") = .ok p ∧
          ∀ rank ∈ p.pieces, ∀ ss ∈ rank, ss = emptyCell ∨ ss ∈ piece_names := by
      refine ⟨_, rfl, ?_⟩
      decide
    obtain ⟨m, hm⟩ := Option.isSome_iff_exists.mp
      ((DisplayBoard_isSome_iff avail S h0 h1 p pieces).mpr
        ⟨ha, hav, fun rank hr ss hs hne => by
          rcases hall rank hr ss hs with h | h
          · exact absurd h hne
          · exact hp ss h⟩)
    exact ⟨p, m, hparse, hm, hrect h0 p m hm⟩
  · intro h0 hc
    rw [DisplayBoard_of_range avail S h0 h1, if_neg hc]

theorem NewBoardConfig_buffer_witness :
    -(maxInt + 1) ≤ 8 * SQUARE_SIZE ∧ 8 * SQUARE_SIZE ≤ maxInt ∧
      (NewBoardConfig SQUARE_SIZE).SquareSize = SQUARE_SIZE ∧
      (NewBoardConfig SQUARE_SIZE).BoardSize = 8 * SQUARE_SIZE ∧
      ∃ p m, GetPosition (str "rnbqkbnr/pp1ppppp/8/2p5/4P3/5N2/PPPP1PPP/RNBQKB1R") = .ok p ∧
        DisplayBoard 1073741824 (NewBoardConfig SQUARE_SIZE) p
          (fun _ => some (Uniform white)) = some m ∧
        m.Rect.Min = ⟨0, 0⟩ ∧ m.Rect.Dx = 8 * SQUARE_SIZE ∧ m.Rect.Dy = 8 * SQUARE_SIZE :=
  ⟨by decide, by decide,
    (NewBoardConfig_buffer 1073741824 SQUARE_SIZE (by decide) (by decide)
      { pieces := List.replicate 8 (List.replicate 8 emptyCell), active := [],
        castling := [], enpassant := [], halfmove := 0, fullmove := 0 }
      (fun _ => some (Uniform white))).1,
    (NewBoardConfig_buffer 1073741824 SQUARE_SIZE (by decide) (by decide)
      { pieces := List.replicate 8 (List.replicate 8 emptyCell), active := [],
        castling := [], enpassant := [], halfmove := 0, fullmove := 0 }
      (fun _ => some (Uniform white))).2.1,
    (NewBoardConfig_buffer 1073741824 SQUARE_SIZE (by decide) (by decide)
      { pieces := List.replicate 8 (List.replicate 8 emptyCell), active := [],
        castling := [], enpassant := [], halfmove := 0, fullmove := 0 }
      (fun _ => some (Uniform white))).2.2.2.2.2.1 (by decide) (by decide) (by decide)
      (by simp)⟩

/-- C18, refuted as stated: with `SquareSize = 2^61 + 1` the rectangle of the
cell at rank 0, file 0 holds the point `(0, -1)`, outside the image, and
shares the pixel `(0, 7)` with the rectangle of the cell at rank 7, file 0. -/
theorem cellRect_overflow_overlap :
    (0 : Int) < 2305843009213693953 ∧ 2305843009213693953 ≤ maxInt ∧
      (⟨0, -1⟩ : Point).In (cellRect (NewBoardConfig 2305843009213693953) 0 0) ∧
      (⟨0, 7⟩ : Point).In (cellRect (NewBoardConfig 2305843009213693953) 0 0) ∧
      (⟨0, 7⟩ : Point).In (cellRect (NewBoardConfig 2305843009213693953) 7 0) := by
  refine ⟨?_, ?_, ?_, ?_, ?_⟩ <;> decide

/-- C18, amended: for a square size `S > 0` with `8*S` within the range of
`int`, the 64 rectangles tile the image: each lies inside
`[0, 8*S) x [0, 8*S)`, the rectangles of two different cells share no pixel,
every pixel `(x, y)` of the image lies in the rectangle of the cell at rank
`7 - y div S`, file `x div S` and in no other, and drawing a cell leaves the
pixels of every other cell as they are. -/
theorem cellRect_tiling (S : Int) (h0 : 0 < S) (h1 : 8 * S ≤ maxInt) :
    (∀ r f : Nat, r < 8 → f < 8 → ∀ x y : Int,
        (⟨x, y⟩ : Point).In (cellRect (NewBoardConfig S) r f) →
        0 ≤ x ∧ x < 8 * S ∧ 0 ≤ y ∧ y < 8 * S) ∧
      (∀ r f r2 f2 : Nat, r < 8 → f < 8 → r2 < 8 → f2 < 8 → (r ≠ r2 ∨ f ≠ f2) →
        ∀ x y : Int, ¬ ((⟨x, y⟩ : Point).In (cellRect (NewBoardConfig S) r f) ∧
          (⟨x, y⟩ : Point).In (cellRect (NewBoardConfig S) r2 f2))) ∧
      (∀ x y : Int, 0 ≤ x → x < 8 * S → 0 ≤ y → y < 8 * S →
        (x / S).toNat < 8 ∧ (y / S).toNat < 8 ∧
        (⟨x, y⟩ : Point).In
          (cellRect (NewBoardConfig S) (7 - (y / S).toNat) (x / S).toNat) ∧
        ∀ r f : Nat, r < 8 → f < 8 →
          (⟨x, y⟩ : Point).In (cellRect (NewBoardConfig S) r f) →
          r = 7 - (y / S).toNat ∧ f = (x / S).toNat) ∧
      (∀ (pieces : GoString → Option Image) (r f r2 f2 : Nat) (ss : GoString)
          (m m1 : RGBAImage) (x y : Int),
        r < 8 → f < 8 → r2 < 8 → f2 < 8 → (r ≠ r2 ∨ f ≠ f2) →
        drawCell (NewBoardConfig S) pieces r f ss m = some m1 →
        (⟨x, y⟩ : Point).In (cellRect (NewBoardConfig S) r2 f2) →
        m1.Pix x y = m.Pix x y) := by
  have hdisj : ∀ r f r2 f2 : Nat, r < 8 → f < 8 → r2 < 8 → f2 < 8 → (r ≠ r2 ∨ f ≠ f2) →
      ∀ x y : Int, ¬ ((⟨x, y⟩ : Point).In (cellRect (NewBoardConfig S) r f) ∧
        (⟨x, y⟩ : Point).In (cellRect (NewBoardConfig S) r2 f2)) := by
    intro r f r2 f2 hr hf hr2 hf2 hne x y hboth
    have := cellRect_disjoint S h0 h1 r f r2 f2 (by omega) (by omega) (by omega) (by omega)
      x y hboth.2 hboth.1
    omega
  refine ⟨?_, hdisj, ?_, ?_⟩
  · intro r f hr hf x y hin
    rw [In_cellRect S (le_of_lt h0) h1 r f (by omega) (by omega)] at hin
    have hfS0 : 0 ≤ (f : Int) * S := by positivity
    have hfS7 : (f : Int) * S ≤ 7 * S := by
      have : (f : Int) ≤ 7 := by exact_mod_cast (by omega : f ≤ 7)
      nlinarith
    have hrS0 : 0 ≤ (r : Int) * S := by positivity
    have hrS7 : (r : Int) * S ≤ 7 * S := by
      have : (r : Int) ≤ 7 := by exact_mod_cast (by omega : r ≤ 7)
      nlinarith
    omega
  · intro x y hx0 hx1 hy0 hy1
    obtain ⟨hf8, hr8, hin⟩ := In_cellRect_div S h0 h1 x y hx0 hx1 hy0 hy1
    refine ⟨hf8, hr8, hin, ?_⟩
    intro r f hr hf hin2
    exact cellRect_disjoint S h0 h1 r f _ _ (by omega) (by omega) (by omega) (by omega)
      x y hin hin2
  · intro pieces r f r2 f2 ss m m1 x y hr hf hr2 hf2 hne hdraw hin
    exact drawCell_outside _ _ _ _ _ _ _ hdraw x y
      (fun hc => hdisj r f r2 f2 hr hf hr2 hf2 hne x y ⟨hc, hin⟩)

theorem cellRect_tiling_witness :
    (0 : Int) < SQUARE_SIZE ∧ 8 * SQUARE_SIZE ≤ maxInt ∧
      ((100 : Int) / SQUARE_SIZE).toNat < 8 ∧ ((200 : Int) / SQUARE_SIZE).toNat < 8 ∧
      (⟨100, 200⟩ : Point).In (cellRect (NewBoardConfig SQUARE_SIZE)
        (7 - ((200 : Int) / SQUARE_SIZE).toNat) ((100 : Int) / SQUARE_SIZE).toNat) :=
  ⟨by decide, by decide,
    ((cellRect_tiling SQUARE_SIZE (by decide) (by decide)).2.2.1 100 200 (by decide)
      (by decide) (by decide) (by decide)).1,
    ((cellRect_tiling SQUARE_SIZE (by decide) (by decide)).2.2.1 100 200 (by decide)
      (by decide) (by decide) (by decide)).2.1,
    ((cellRect_tiling SQUARE_SIZE (by decide) (by decide)).2.2.1 100 200 (by decide)
      (by decide) (by decide) (by decide)).2.2.1⟩

/-! ## Theorems on sprites -/

/-- C11, refuted as stated: with `SquareSize = 2^61 + 1`, a rook on rank 0,
file 0 and a fully opaque red sprite of that size, the pixel `(0, 7)` of the
cell ends light, not red: the light square of the cell at rank 7, file 0 is
drawn over it.  The buffer is 8 by 8 pixels, and 2^30 bytes are available. -/
theorem DisplayBoard_sprite_overflow :
    (⟨0, 7⟩ : Point).In (cellRect (NewBoardConfig 2305843009213693953) 0 0) ∧
      ∃ m, DisplayBoard 1073741824 (NewBoardConfig 2305843009213693953)
          { pieces := [[str "R", str "_", str "_", str "_", str "_", str "_", str "_",
              str "_"]] ++ List.replicate 7 (List.replicate 8 emptyCell), active := [],
            castling := [], enpassant := [], halfmove := 0, fullmove := 0 }
          (fun ss => if ss = str "R" then
            some { Bounds := ⟨⟨0, 0⟩, ⟨2305843009213693953, 2305843009213693953⟩⟩,
                   At := fun _ _ => ⟨0xFFFF, 0, 0, 0xFFFF⟩ } else none) = some m ∧
        m.RGBAAt 0 7 = white ∧ white ≠ RGBAModel ⟨0xFFFF, 0, 0, 0xFFFF⟩ := by
  refine ⟨by decide, _, rfl, ?_, ?_⟩ <;> decide!

/-- C11, amended: for a square size `S > 0` with `8*S` within the range of
`int`, a board of eight ranks of eight cells, whatever memory is available,
and a cell `(r, f)` that holds a symbol other than
the empty marker whose sprite has the bounds `(0,0)-(S,S)`, every pixel of the
cell in the buffer `DisplayBoard` builds is the sprite pixel aligned to it,
counted from the top-left corner of the cell, composited with `draw.Over` over
the square colour: where the sprite is fully opaque it is the sprite's pixel,
where the sprite is fully transparent it is the square colour, light if
`r + f` is odd and dark otherwise.  For an empty cell no sprite is looked up
or drawn. -/
theorem DisplayBoard_sprite (avail : Nat) (S : Int) (h0 : 0 < S) (hmax : 8 * S ≤ maxInt)
    (pos : Position) (pieces : GoString → Option Image)
    (h8 : pos.pieces.length = 8) (h88 : ∀ rank ∈ pos.pieces, rank.length = 8)
    (r f : Nat) (rank : List GoString) (ss : GoString) (sprite : Image)
    (hr : pos.pieces[r]? = some rank) (hf : rank[f]? = some ss) (hss : ss ≠ emptyCell)
    (hsp : pieces ss = some sprite) (hb : sprite.Bounds = ⟨⟨0, 0⟩, ⟨S, S⟩⟩) (x y : Int)
    (hin : (⟨x, y⟩ : Point).In (cellRect (NewBoardConfig S) r f)) :
    (∀ m, DisplayBoard avail (NewBoardConfig S) pos pieces = some m →
        m.RGBAAt x y =
            blend .Over (if (r + f) % 2 = 1 then white else black)
              (sprite.At (x - f * S) (y - (8 * S - r * S - S))) ∧
          ((sprite.At (x - f * S) (y - (8 * S - r * S - S))).a = 0xFFFF →
            (sprite.At (x - f * S) (y - (8 * S - r * S - S))).r ≤ 0xFFFF →
            (sprite.At (x - f * S) (y - (8 * S - r * S - S))).g ≤ 0xFFFF →
            (sprite.At (x - f * S) (y - (8 * S - r * S - S))).b ≤ 0xFFFF →
            m.RGBAAt x y = RGBAModel (sprite.At (x - f * S) (y - (8 * S - r * S - S)))) ∧
          (sprite.At (x - f * S) (y - (8 * S - r * S - S)) = ⟨0, 0, 0, 0⟩ →
            m.RGBAAt x y = if (r + f) % 2 = 1 then white else black)) ∧
      ∀ m0 : RGBAImage, drawCell (NewBoardConfig S) pieces r f emptyCell m0 =
        some (if (r + f) % 2 = 1 then
          Draw m0 (cellRect (NewBoardConfig S) r f) (Uniform white) ZP .Src else m0) := by
  refine ⟨?_, fun m0 => drawCell_empty _ _ _ _ _⟩
  intro m hm
  have h1 : 8 * S ≤ 1000000000 :=
    (DisplayBoard_some avail S (le_of_lt h0) hmax pos pieces m hm).2.1
  obtain ⟨hr8, hf8, hinm, m0, m2, hm0R, hm0P, hdraw, hfin⟩ :=
    DisplayBoard_at avail S h0 hmax pos pieces h8 h88 r f rank ss hr hf m hm x y hin
  have hpix : m.RGBAAt x y =
      blend .Over (if (r + f) % 2 = 1 then white else black)
        (sprite.At (x - f * S) (y - (8 * S - r * S - S))) := by
    unfold RGBAImage.RGBAAt
    rw [if_pos hinm, hfin,
      drawCell_occupied_Pix S h0 h1 pieces r f hr8 hf8 ss sprite hss hsp hb m0 m2 hm0R hdraw
        x y hin, hm0P]
  refine ⟨hpix, ?_, ?_⟩
  · intro ha hcr hcg hcb
    rw [hpix, blend_Over_full_alpha _ _ ha hcr hcg hcb]
  · intro hc
    rw [hpix, hc]
    split_ifs
    · exact blend_Over_transparent.1
    · exact blend_Over_transparent.2

theorem DisplayBoard_sprite_witness :
    (0 : Int) < 1 ∧ 8 * (1 : Int) ≤ maxInt ∧
      (⟨0, 7⟩ : Point).In (cellRect (NewBoardConfig 1) 0 0) ∧
      (DisplayBoard 256 (NewBoardConfig 1)
        { pieces := [[str "R", str "_", str "_", str "_", str "_", str "_", str "_",
            str "_"]] ++ List.replicate 7 (List.replicate 8 emptyCell), active := [],
          castling := [], enpassant := [], halfmove := 0, fullmove := 0 }
        (fun ss => if ss = str "R" then
          some { Bounds := ⟨⟨0, 0⟩, ⟨1, 1⟩⟩, At := fun _ _ => ⟨0xFFFF, 0, 0, 0xFFFF⟩ }
          else none)).isSome = true ∧
      ∀ m, DisplayBoard 256 (NewBoardConfig 1)
          { pieces := [[str "R", str "_", str "_", str "_", str "_", str "_", str "_",
              str "_"]] ++ List.replicate 7 (List.replicate 8 emptyCell), active := [],
            castling := [], enpassant := [], halfmove := 0, fullmove := 0 }
          (fun ss => if ss = str "R" then
            some { Bounds := ⟨⟨0, 0⟩, ⟨1, 1⟩⟩, At := fun _ _ => ⟨0xFFFF, 0, 0, 0xFFFF⟩ }
            else none) = some m →
        m.RGBAAt 0 7 = blend .Over (if (0 + 0) % 2 = 1 then white else black)
          ⟨0xFFFF, 0, 0, 0xFFFF⟩ :=
  ⟨by decide, by decide, by decide, by decide!, fun m hm =>
    ((DisplayBoard_sprite 256 1 (by decide) (by decide)
      { pieces := [[str "R", str "_", str "_", str "_", str "_", str "_", str "_",
          str "_"]] ++ List.replicate 7 (List.replicate 8 emptyCell), active := [],
        castling := [], enpassant := [], halfmove := 0, fullmove := 0 }
      (fun ss => if ss = str "R" then
        some { Bounds := ⟨⟨0, 0⟩, ⟨1, 1⟩⟩, At := fun _ _ => ⟨0xFFFF, 0, 0, 0xFFFF⟩ } else none)
      (by decide) (by decide) 0 0
      [str "R", str "_", str "_", str "_", str "_", str "_", str "_", str "_"] (str "R")
      { Bounds := ⟨⟨0, 0⟩, ⟨1, 1⟩⟩, At := fun _ _ => ⟨0xFFFF, 0, 0, 0xFFFF⟩ }
      (by decide) (by decide) (by decide) (by simp) rfl 0 7 (by decide)).1 m hm).1⟩

/-! ## Theorems on start-up -/

/-- C14: with `LoadPiece` a function from the name to the image or the error,
`InitPieces` returns an error exactly when loading fails for one of the twelve
piece names; the error is that of the first name, in the order of
`piece_names`, that fails, and `LoadPiece` is called on no name after it; when
it returns no error the map holds the loaded image of each of the twelve
names. -/
theorem InitPieces_spec {E : Type} (LoadPiece : GoString → Except E Image)
    (pieces : GoString → Option Image) :
    ((InitPieces LoadPiece pieces).err.isSome ↔
        ∃ n ∈ piece_names, ∃ e, LoadPiece n = .error e) ∧
      (∀ e, (InitPieces LoadPiece pieces).err = some e →
        ∃ pre n post, piece_names = pre ++ n :: post ∧
          (∀ p ∈ pre, ∃ img, LoadPiece p = .ok img) ∧ LoadPiece n = .error e ∧
          (InitPieces LoadPiece pieces).calls = pre ++ [n]) ∧
      ((InitPieces LoadPiece pieces).err = none →
        (InitPieces LoadPiece pieces).calls = piece_names ∧
        ∀ n ∈ piece_names, ∃ img, LoadPiece n = .ok img ∧
          (InitPieces LoadPiece pieces).pieces n = some img) := by
  obtain ⟨h1, h2⟩ := InitPiecesFrom_spec LoadPiece piece_names pieces []
  have herr : ∀ e, (InitPieces LoadPiece pieces).err = some e →
      ∃ pre n post, piece_names = pre ++ n :: post ∧
        (∀ p ∈ pre, ∃ img, LoadPiece p = .ok img) ∧ LoadPiece n = .error e ∧
        (InitPieces LoadPiece pieces).calls = pre ++ [n] := by
    intro e he
    obtain ⟨pre, n, post, hn, hpre, hl, hc⟩ := h1 e he
    exact ⟨pre, n, post, hn, hpre, hl, by simpa using hc⟩
  have hok : (InitPieces LoadPiece pieces).err = none →
      (InitPieces LoadPiece pieces).calls = piece_names ∧
      ∀ n ∈ piece_names, ∃ img, LoadPiece n = .ok img ∧
        (InitPieces LoadPiece pieces).pieces n = some img := by
    intro hnone
    obtain ⟨hc, hin, _⟩ := h2 hnone
    exact ⟨by simpa using hc, hin⟩
  refine ⟨?_, herr, hok⟩
  constructor
  · intro hsome
    obtain ⟨e, he⟩ := Option.isSome_iff_exists.mp hsome
    obtain ⟨pre, n, post, hn, _, hl, _⟩ := herr e he
    exact ⟨n, by rw [hn]; simp, e, hl⟩
  · intro hfail
    obtain ⟨n, hn, e, hl⟩ := hfail
    cases hres : (InitPieces LoadPiece pieces).err with
    | some e2 => rfl
    | none =>
      obtain ⟨img, himg, _⟩ := (hok hres).2 n hn
      rw [hl] at himg
      cases himg

theorem InitPieces_spec_witness :
    (InitPieces (fun n => if n = str "q" ∨ n = str "K" then Except.error n
        else Except.ok (Uniform white)) (fun _ => none)).err = some (str "q") ∧
      ∃ pre n post, piece_names = pre ++ n :: post ∧
        (∀ p ∈ pre, ∃ img, (fun n => if n = str "q" ∨ n = str "K" then Except.error n
          else Except.ok (Uniform white)) p = .ok img) ∧
        (fun n => if n = str "q" ∨ n = str "K" then Except.error n
          else Except.ok (Uniform white)) n = .error (str "q") ∧
        (InitPieces (fun n => if n = str "q" ∨ n = str "K" then Except.error n
          else Except.ok (Uniform white)) (fun _ => none)).calls = pre ++ [n] :=
  ⟨by decide,
    (InitPieces_spec (fun n => if n = str "q" ∨ n = str "K" then Except.error n
      else Except.ok (Uniform white)) (fun _ => none)).2.1 (str "q") (by decide)⟩

/-- C16, the code on a failing load: when every `LoadPiece` fails, `InitPieces`
returns an error, and `init` logs it and still registers the handler for
`"/"`; the handler then serves the request `/8/8/8/8/8/8/8/8` with status 200
(2^30 bytes of memory being available) although no sprite is loaded.  Whatever `LoadPiece` is, `init` registers the
handler; `main` ends in `log.Fatal`, before `DisplayBoard`, whenever
`InitPieces` returns an error. -/
theorem init_registers_handler :
    (∀ (E : Type) (avail : Nat) (LoadPiece : GoString → Except E Image)
        (pieces : GoString → Option Image),
        (init LoadPiece pieces).handlers = [str "/"] ∧
        ((InitPieces LoadPiece pieces).err.isSome →
          (init LoadPiece pieces).logged.isSome ∧
          (match main avail LoadPiece pieces with
            | .fatal => True
            | _ => False))) ∧
      (InitPieces (fun _ => (Except.error () : Except Unit Image)) (fun _ => none)).err
        = some () ∧
      (init (fun _ => (Except.error () : Except Unit Image)) (fun _ => none)).handlers
        = [str "/"] ∧
      ∃ resp, handler 1073741824
          (init (fun _ => (Except.error () : Except Unit Image)) (fun _ => none)).pieces
          (fun _ => []) (str "/8/8/8/8/8/8/8/8") = some resp ∧ resp.status = 200 := by
  refine ⟨?_, by decide, rfl, ?_⟩
  · intro E avail LoadPiece pieces
    refine ⟨rfl, ?_⟩
    intro hsome
    refine ⟨hsome, ?_⟩
    obtain ⟨e, he⟩ := Option.isSome_iff_exists.mp hsome
    unfold main
    simp only [he]
  · refine ⟨_, rfl, ?_⟩
    decide!

/-! ## Theorems on the HTTP handler -/

/-- C13, refuted as stated: with a sprite for each of the twelve piece names,
the path `/xxxxxxxx/8/8/8/8/8/8/8` trims to a FEN that `GetPosition` accepts,
yet the handler sends no response with status 200 and an image, whatever
memory is available: it panics in `DisplayBoard`, which finds no sprite for
`"x"`. -/
theorem handler_panics_on_unknown_symbol :
    Trim (str "/xxxxxxxx/8/8/8/8/8/8/8") 47 = str "xxxxxxxx/8/8/8/8/8/8/8" ∧
      (∃ pos, GetPosition (Trim (str "/xxxxxxxx/8/8/8/8/8/8/8") 47) = .ok pos) ∧
      ∀ avail,
        (handler avail (fun ss => if ss ∈ piece_names then some (Uniform white) else none)
          (fun _ => []) (str "/xxxxxxxx/8/8/8/8/8/8/8")).isSome = false := by
  refine ⟨by decide, ⟨_, rfl⟩, ?_⟩
  intro avail
  obtain ⟨pos, hp, hd⟩ : ∃ pos,
      GetPosition (Trim (str "/xxxxxxxx/8/8/8/8/8/8/8") 47) = .ok pos ∧
        (drawRanks (NewBoardConfig SQUARE_SIZE)
          (fun ss => if ss ∈ piece_names then some (Uniform white) else none) 0 pos.pieces
          (Draw { Rect := Rect 0 0 (NewBoardConfig SQUARE_SIZE).BoardSize
                    (NewBoardConfig SQUARE_SIZE).BoardSize,
                  Pix := fun _ _ => ⟨0, 0, 0, 0⟩ }
            (Rect 0 0 (NewBoardConfig SQUARE_SIZE).BoardSize
              (NewBoardConfig SQUARE_SIZE).BoardSize) (Uniform black) ZP .Src)).isSome
          = false := by
    refine ⟨_, rfl, ?_⟩
    decide!
  unfold handler
  simp only [hp, DisplayBoard_eq_none avail _ _ _ hd]
  rfl

/-- C13, amended: the handler applies `GetPosition` to the path without its
leading and trailing `/`.  When that fails it responds with status 400 and the
text of the error as the body, and writes no image.  When it succeeds and
`DisplayBoard` completes, which it does when every occupied cell has a sprite
and the 518400 bytes of the buffer can be obtained, the handler responds with
status 200, the header `Content-Type: image/jpeg` and the encoded buffer as
the body.  A response has status 400 exactly when the parse failed.  When the
parse succeeds and the bytes of the buffer cannot be obtained, there is no
response. -/
theorem handler_spec (avail : Nat) (pieces : GoString → Option Image)
    (encode : RGBAImage → GoString) (path : GoString) :
    ((∃ i j, path = List.replicate i 47 ++ Trim path 47 ++ List.replicate j 47) ∧
        (Trim path 47).head? ≠ some 47 ∧ (Trim path 47).getLast? ≠ some 47) ∧
      (∀ e, GetPosition (Trim path 47) = .error e →
        handler avail pieces encode path =
          some { status := 400, header := [], body := e.Error }) ∧
      (∀ pos m, GetPosition (Trim path 47) = .ok pos →
        DisplayBoard avail (NewBoardConfig SQUARE_SIZE) pos pieces = some m →
        handler avail pieces encode path =
          some { status := 200, header := [(str "Content-Type", str "image/jpeg")],
                 body := encode m }) ∧
      (∀ pos, GetPosition (Trim path 47) = .ok pos →
        (∀ rank ∈ pos.pieces, ∀ ss ∈ rank, ss ≠ emptyCell → (pieces ss).isSome) →
        4 * (8 * SQUARE_SIZE) * (8 * SQUARE_SIZE) ≤ (avail : Int) →
        ∃ m, DisplayBoard avail (NewBoardConfig SQUARE_SIZE) pos pieces = some m ∧
          handler avail pieces encode path =
            some { status := 200, header := [(str "Content-Type", str "image/jpeg")],
                   body := encode m }) ∧
      (∀ resp, handler avail pieces encode path = some resp →
        (resp.status = 400 ↔ ∃ e, GetPosition (Trim path 47) = .error e)) ∧
      (∀ pos, GetPosition (Trim path 47) = .ok pos →
        (avail : Int) < 4 * (8 * SQUARE_SIZE) * (8 * SQUARE_SIZE) →
        handler avail pieces encode path = none) := by
  have hkey : CanonicalMIMEHeaderKey (str "Content-type") = str "Content-Type" := by decide
  have hok : ∀ pos m, GetPosition (Trim path 47) = .ok pos →
      DisplayBoard avail (NewBoardConfig SQUARE_SIZE) pos pieces = some m →
      handler avail pieces encode path =
        some { status := 200, header := [(str "Content-Type", str "image/jpeg")],
               body := encode m } := by
    intro pos m hp hm
    unfold handler
    simp only [hp, hm, hkey]
  have herr : ∀ e, GetPosition (Trim path 47) = .error e →
      handler avail pieces encode path =
        some { status := 400, header := [], body := e.Error } := by
    intro e he
    unfold handler
    simp only [he]
  refine ⟨Trim_spec path 47, herr, hok, ?_, ?_, ?_⟩
  · intro pos hp hs hav
    obtain ⟨m, hm⟩ := Option.isSome_iff_exists.mp
      ((DisplayBoard_isSome_iff avail SQUARE_SIZE (by decide) (by decide) pos pieces).mpr
        ⟨by decide, hav, hs⟩)
    exact ⟨m, hm, hok pos m hp hm⟩
  · intro resp hresp
    cases hp : GetPosition (Trim path 47) with
    | error e =>
      rw [herr e hp] at hresp
      cases hresp
      simp
    | ok pos =>
      cases hm : DisplayBoard avail (NewBoardConfig SQUARE_SIZE) pos pieces with
      | none =>
        unfold handler at hresp
        simp only [hp, hm] at hresp
        cases hresp
      | some m =>
        rw [hok pos m hp hm] at hresp
        cases hresp
        simp
  · intro pos hp hav
    have hn : DisplayBoard avail (NewBoardConfig SQUARE_SIZE) pos pieces = none := by
      rw [DisplayBoard_of_range avail SQUARE_SIZE (by decide) (by decide),
        if_neg (fun h => absurd h.2 (not_le.mpr hav))]
    unfold handler
    simp only [hp, hn]

theorem handler_spec_witness :
    GetPosition (Trim (str "/8/8/8/") 47) = .error .badRankCount ∧
      handler 1073741824 (fun _ => none) (fun _ => []) (str "/8/8/8/")
        = some { status := 400, header := [], body := str "Bad fen" } :=
  ⟨by decide,
    (handler_spec 1073741824 (fun _ => none) (fun _ => []) (str "/8/8/8/")).2.1 .badRankCount
      (by decide)⟩

/-! ## Lemmas on ASCII bytes in a placement field -/

theorem DecodeRune_append_ascii (a b : UInt8) (u v : GoString) (ha : a.toNat < 128) :
    DecodeRuneInString (b :: (u ++ a :: v)) = DecodeRuneInString (b :: u) := by
  unfold DecodeRuneInString
  simp only [byteAt, List.length_cons, List.length_append, List.getD_cons_zero,
    List.getD_cons_succ]
  cases hf : first b.toNat with
  | ascii => simp
  | invalid => simp
  | lead sz lo hi =>
    obtain ⟨hsz, hlo⟩ := first_lead _ _ _ _ hf
    rcases u with _ | ⟨c1, _ | ⟨c2, _ | ⟨c3, u⟩⟩⟩ <;> rcases hsz with rfl | rfl | rfl <;>
      simp <;> first | omega | (split_ifs <;> first | rfl | omega)

/-- The bytes a decoded rune spans are there. -/
theorem DecodeRune_width_le (b : UInt8) (u : GoString) :
    (DecodeRuneInString (b :: u)).2 - 1 ≤ u.length := by
  by_cases h : (DecodeRuneInString (b :: u)).2 - 1 = 0
  · omega
  · have := (DecodeRune_skipped b u ((DecodeRuneInString (b :: u)).2 - 1 - 1) (by omega)).1
    omega

theorem rangeFrom_zero_cons (b : UInt8) (s : GoString) :
    rangeFrom 0 (b :: s) = (DecodeRuneInString (b :: s)).1 ::
      rangeFrom ((DecodeRuneInString (b :: s)).2 - 1) s := rfl

theorem rangeFrom_succ_cons (k : Nat) (b : UInt8) (s : GoString) :
    rangeFrom (k + 1) (b :: s) = rangeFrom k s := rfl

/-- An ASCII byte starts a rune wherever it stands: the runes of a string
around it are those of the part before it, the byte itself, and those of the
part after it. -/
theorem rangeFrom_append_ascii (a : UInt8) (v : GoString) (ha : a.toNat < 128) :
    ∀ (u : GoString) (skip : Nat), skip ≤ u.length →
      rangeFrom skip (u ++ a :: v) = rangeFrom skip u ++ a.toNat :: rangeFrom 0 v := by
  intro u
  induction u with
  | nil =>
    intro skip hs
    have : skip = 0 := by simpa using hs
    subst this
    simp [rangeFrom, DecodeRune_ascii a v ha]
  | cons b u ih =>
    intro skip hs
    cases skip with
    | zero =>
      rw [List.cons_append, rangeFrom_zero_cons, rangeFrom_zero_cons,
        DecodeRune_append_ascii a b u v ha, ih _ (DecodeRune_width_le b u)]
      rfl
    | succ k =>
      rw [List.cons_append, rangeFrom_succ_cons, rangeFrom_succ_cons]
      exact ih k (by simpa using hs)

theorem runes_append_ascii (a : UInt8) (u v : GoString) (ha : a.toNat < 128) :
    runes (u ++ a :: v) = runes u ++ a.toNat :: runes v :=
  rangeFrom_append_ascii a v ha u 0 (Nat.zero_le _)



theorem Split_append_sep_left (a s : GoString) (sep : UInt8) :
    Split (a ++ sep :: s) sep = Split a sep ++ Split s sep := by
  induction a with
  | nil => simp [Split]
  | cons c a ih =>
    rw [List.cons_append, Split_cons, Split_cons, ih]
    by_cases hc : c = sep
    · simp [hc]
    · rw [if_neg hc, if_neg hc]
      cases h : Split a sep with
      | nil => exact absurd h (Split_ne_nil a sep)
      | cons x xs => simp

theorem Split_append_of_not_mem (u s : GoString) (sep : UInt8) (hu : sep ∉ u)
    (h : GoString) (t : List GoString) (hs : Split s sep = h :: t) :
    Split (u ++ s) sep = (u ++ h) :: t := by
  induction u with
  | nil => simpa using hs
  | cons c u ih =>
    have hc : c ≠ sep := fun e => hu (by simp [e])
    have hu2 : sep ∉ u := fun e => hu (by simp [e])
    rw [List.cons_append, Split_cons, if_neg hc, ih hu2]
    rfl

theorem last_sep_cases (a : GoString) (sep : UInt8) :
    sep ∉ a ∨ ∃ a2 u, a = a2 ++ sep :: u ∧ sep ∉ u := by
  induction a with
  | nil => left; simp
  | cons c a ih =>
    rcases ih with h | ⟨a2, u, ha, hu⟩
    · by_cases hc : c = sep
      · right
        exact ⟨[], a, by simp [hc], h⟩
      · left
        simp only [List.mem_cons, not_or]
        exact ⟨fun e => hc e.symm, h⟩
    · right
      exact ⟨c :: a2, u, by rw [ha]; rfl, hu⟩

theorem segBefore_of_not_mem (u : GoString) (hu : (47 : UInt8) ∉ u) : segBefore u = u := by
  unfold segBefore
  rw [List.takeWhile_eq_self_iff.mpr, List.reverse_reverse]
  intro x hx
  have : x ≠ 47 := fun e => hu (e ▸ List.mem_reverse.mp hx)
  simpa using this

theorem takeWhile_append_stop {α : Type} (p : α → Bool) (l1 l2 : List α) (x : α)
    (h1 : ∀ y ∈ l1, p y = true) (hx : p x = false) :
    (l1 ++ x :: l2).takeWhile p = l1 := by
  induction l1 with
  | nil => simp [List.takeWhile_cons, hx]
  | cons c l ih =>
    rw [List.cons_append, List.takeWhile_cons, h1 c (by simp)]
    simp only [if_true]
    rw [ih (fun y hy => h1 y (by simp [hy]))]

theorem segBefore_append (a2 u : GoString) (hu : (47 : UInt8) ∉ u) :
    segBefore (a2 ++ 47 :: u) = u := by
  unfold segBefore
  rw [List.reverse_append, List.reverse_cons, List.append_assoc, List.singleton_append,
    takeWhile_append_stop _ _ _ _ _ (by decide), List.reverse_reverse]
  intro x hx
  have : x ≠ 47 := fun e => hu (e ▸ List.mem_reverse.mp hx)
  simpa using this

theorem placement_append_left (a x : GoString) (ha : (32 : UInt8) ∉ a) :
    placement (a ++ x) = a ++ placement x := by
  unfold placement
  induction a with
  | nil => rfl
  | cons c a ih =>
    have hc : c ≠ 32 := fun e => ha (by simp [e])
    have ha2 : (32 : UInt8) ∉ a := fun e => ha (by simp [e])
    have hne : (c != 32) = true := by simpa using hc
    rw [List.cons_append, List.takeWhile_cons, hne]
    simp only [if_true]
    rw [ih ha2]
    rfl

theorem takeWhile_placement (b : GoString) :
    (placement b).takeWhile (fun x => x != 47) = segAfter b := by
  unfold placement segAfter
  induction b with
  | nil => rfl
  | cons c b ih =>
    by_cases h32 : c = 32
    · subst h32
      simp [List.takeWhile_cons]
    · by_cases h47 : c = 47
      · subst h47
        simp [List.takeWhile_cons]
      · have e1 : (c != 32) = true := by simpa using h32
        have e2 : (c != 47) = true := by simpa using h47
        simp only [List.takeWhile_cons, e1, e2, if_true, Bool.and_self]
        rw [ih]

/-- The first segment of the placement field of `b` is `segAfter b`. -/
theorem Split_placement_head (b : GoString) :
    ∃ post, Split (placement b) 47 = segAfter b :: post := by
  obtain ⟨post, hpost⟩ := Split_head (placement b) 47
  exact ⟨post, by rw [hpost, takeWhile_placement]⟩

/-- The segments of the placement field of `a ++ M ++ b`, for a position
inside the placement field and a text `M` without `/` and space: those before
the position, the segment around it with `M` inserted, and those after it. -/
theorem Split_around (a b : GoString) (ha : (32 : UInt8) ∉ a) :
    ∃ pre post : List GoString, ∀ M : GoString, (47 : UInt8) ∉ M → (32 : UInt8) ∉ M →
      Split (placement (a ++ M ++ b)) 47 = pre ++ (segBefore a ++ M ++ segAfter b) :: post := by
  obtain ⟨post, hpost⟩ := Split_placement_head b
  have hpl : ∀ M : GoString, (32 : UInt8) ∉ M →
      placement (a ++ M ++ b) = a ++ M ++ placement b := by
    intro M hM
    rw [placement_append_left (a ++ M) b]
    intro h
    rcases List.mem_append.mp h with h | h
    · exact ha h
    · exact hM h
  rcases last_sep_cases a 47 with hna | ⟨a2, u, hau, hu⟩
  · refine ⟨[], post, fun M hM47 hM32 => ?_⟩
    rw [hpl M hM32, segBefore_of_not_mem a hna, List.nil_append]
    exact Split_append_of_not_mem (a ++ M) (placement b) 47
      (fun h => by
        rcases List.mem_append.mp h with h | h
        · exact hna h
        · exact hM47 h) _ _ hpost
  · refine ⟨Split a2 47, post, fun M hM47 hM32 => ?_⟩
    rw [hpl M hM32, hau, segBefore_append a2 u hu]
    have : a2 ++ 47 :: u ++ M ++ placement b = a2 ++ 47 :: (u ++ M ++ placement b) := by
      simp
    rw [this, Split_append_sep_left]
    congr 1
    exact Split_append_of_not_mem (u ++ M) (placement b) 47
      (fun h => by
        rcases List.mem_append.mp h with h | h
        · exact hu h
        · exact hM47 h) _ _ hpost

/-- The outcome of `GetPosition` is a function of the expansions of the
segments of the placement field. -/
theorem GetPosition_congr (f1 f2 : GoString)
    (h : (Split (placement f1) 47).map expansion = (Split (placement f2) 47).map expansion) :
    GetPosition f1 = GetPosition f2 := by
  have hlen : (Split (placement f1) 47).length = (Split (placement f2) 47).length := by
    have := congrArg List.length h
    simpa using this
  have hall : ∀ f : GoString, (∀ seg ∈ Split (placement f) 47, (expansion seg).length = 8) ↔
      ∀ l ∈ (Split (placement f) 47).map expansion, l.length = 8 := by
    intro f
    simp
  rw [GetPosition_eq, GetPosition_eq, hlen]
  simp only [hall, h]

/-- Replacing, at a position inside the placement field, a text without `/`
and space by another one leaves the outcome of `GetPosition` as it is when the
segment around the position expands to the same cells with either text. -/
theorem GetPosition_replace (a b M1 M2 : GoString) (ha : (32 : UInt8) ∉ a)
    (h1 : (47 : UInt8) ∉ M1 ∧ (32 : UInt8) ∉ M1) (h2 : (47 : UInt8) ∉ M2 ∧ (32 : UInt8) ∉ M2)
    (hexp : expansion (segBefore a ++ M1 ++ segAfter b)
      = expansion (segBefore a ++ M2 ++ segAfter b)) :
    GetPosition (a ++ M1 ++ b) = GetPosition (a ++ M2 ++ b) := by
  obtain ⟨pre, post, hsplit⟩ := Split_around a b ha
  apply GetPosition_congr
  rw [hsplit M1 h1.1 h1.2, hsplit M2 h2.1 h2.2]
  simp only [List.map_append, List.map_cons, hexp]
theorem expansion_nil : expansion [] = [] := rfl

/-- Around an ASCII byte the expansion of a segment is that of the part
before it, the cells of the byte, and the expansion of the part after it. -/
theorem expansion_append_ascii (c : UInt8) (u v : GoString) (hc : c.toNat < 128) :
    expansion (u ++ c :: v) = expansion u ++ cellsOf c.toNat ++ expansion v := by
  unfold expansion
  rw [runes_append_ascii c u v hc]
  simp [List.flatMap_append, List.flatMap_cons]

theorem expansion_ascii_front (R v : GoString) (hR : ∀ c ∈ R, c.toNat < 128) :
    expansion (R ++ v) = R.flatMap (fun c => cellsOf c.toNat) ++ expansion v := by
  induction R with
  | nil => rfl
  | cons r R ih =>
    have := expansion_append_ascii r [] (R ++ v) (hR r (by simp))
    rw [List.nil_append, expansion_nil, List.nil_append] at this
    rw [List.cons_append, this, ih (fun c hc => hR c (by simp [hc])), List.flatMap_cons,
      List.append_assoc]

/-- A non-empty ASCII text inside a segment expands on its own. -/
theorem expansion_ascii_middle (u R v : GoString) (hR : ∀ c ∈ R, c.toNat < 128)
    (hne : R ≠ []) :
    expansion (u ++ R ++ v) = expansion u ++ R.flatMap (fun c => cellsOf c.toNat)
      ++ expansion v := by
  cases R with
  | nil => exact absurd rfl hne
  | cons r R =>
    have h1 : u ++ r :: R ++ v = u ++ r :: (R ++ v) := by simp
    rw [h1, expansion_append_ascii r u (R ++ v) (hR r (by simp)),
      expansion_ascii_front R v (fun c hc => hR c (by simp [hc])), List.flatMap_cons]
    simp [List.append_assoc]

/-- The cells of a text of underscores and digits are empty markers, one for
each underscore and as many as its value for each digit. -/
theorem cells_of_blanks (R : GoString)
    (hR : ∀ c ∈ R, c = 95 ∨ (48 ≤ c.toNat ∧ c.toNat ≤ 57)) :
    R.flatMap (fun c => cellsOf c.toNat)
      = List.replicate ((R.map (fun c => if c = 95 then 1 else c.toNat - 48)).sum)
          emptyCell := by
  induction R with
  | nil => rfl
  | cons r R ih =>
    rw [List.flatMap_cons, ih (fun c hc => hR c (by simp [hc])), List.map_cons, List.sum_cons,
      List.replicate_add]
    congr 1
    rcases hR r (by simp) with h | h
    · subst h
      decide
    · have hne : r ≠ 95 := by
        intro e; rw [e] at h; exact absurd h (by decide)
      rw [if_neg hne]
      unfold cellsOf
      rw [if_pos h]

/-! ## Theorems on digits and underscores -/

/-- A position between the two bytes of one character is not a position of
the text: `"é7/8/8/8/8/8/8/8"` is accepted, the two bytes of `é` counting for
one cell; with the byte `0` put between these two bytes the first segment has
nine cells and `GetPosition` fails at the rank-length test. -/
theorem GetPosition_zero_inside_character :
    str "é7/8/8/8/8/8/8/8" = [0xC3] ++ ([0xA9] ++ str "7/8/8/8/8/8/8/8") ∧
      (∃ pos, GetPosition ([0xC3] ++ ([0xA9] ++ str "7/8/8/8/8/8/8/8")) = .ok pos) ∧
      GetPosition ([0xC3] ++ 48 :: ([0xA9] ++ str "7/8/8/8/8/8/8/8"))
        = .error .badRankLength := by
  refine ⟨by decide, ⟨_, rfl⟩, by decide⟩

/-- C17: the digit `0` contributes no cell: inserting a `0` at any position of
a rank segment of the placement field leaves the outcome of `GetPosition` as
it is; the rank `"08"` is eight empty cells and is accepted, and the rank
`"ppppppp0"` fails at the rank-length test.  The position is given by the text
`a` before it, which has no space, and the text `b` after it; it is a position
between characters: the characters of the segment around it are those before
it followed by those after it. -/
theorem GetPosition_insert_zero (a b : GoString) (ha : (32 : UInt8) ∉ a)
    (hb : runes (segBefore a ++ segAfter b) = runes (segBefore a) ++ runes (segAfter b)) :
    GetPosition (a ++ 48 :: b) = GetPosition (a ++ b) ∧
      expandRank (str "08") = List.replicate 8 (str "_") ∧
      (∃ pos, GetPosition (str "08/8/8/8/8/8/8/8") = .ok pos ∧
        pos.pieces[7]? = some (List.replicate 8 (str "_"))) ∧
      GetPosition (str "ppppppp0/8/8/8/8/8/8/8") = .error .badRankLength := by
  refine ⟨?_, by decide, ⟨_, rfl, by decide⟩, by decide⟩
  have h := GetPosition_replace a b [48] [] ha (by decide) (by simp) (by
    rw [List.append_assoc, List.singleton_append,
      expansion_append_ascii 48 _ _ (by decide), List.append_nil]
    have h0 : cellsOf (48 : UInt8).toNat = [] := by decide
    rw [h0, List.append_nil]
    unfold expansion
    rw [hb, List.flatMap_append])
  simpa using h

theorem GetPosition_insert_zero_witness :
    (32 : UInt8) ∉ str "8/pp" ∧
      GetPosition (str "8/pp" ++ 48 :: str "pppppp/8/8/8/8/8/8 w")
        = GetPosition (str "8/pp" ++ str "pppppp/8/8/8/8/8/8 w") ∧
      (32 : UInt8) ∉ str "é" ∧
      GetPosition (str "é" ++ 48 :: str "7/8/8/8/8/8/8/8")
        = GetPosition (str "é" ++ str "7/8/8/8/8/8/8/8") :=
  ⟨by decide, (GetPosition_insert_zero (str "8/pp") (str "pppppp/8/8/8/8/8/8 w") (by decide)
    (by decide)).1, by decide,
    (GetPosition_insert_zero (str "é") (str "7/8/8/8/8/8/8/8") (by decide) (by decide)).1⟩

/-- C19, refuted as stated: in `"8/8/8/8/8/8/8/"` followed by the bytes C3, `0`,
A9 and `7` the last segment has nine cells and `GetPosition` fails; with the
digit `0` replaced by zero underscores the bytes C3 and A9 are one character
and the FEN is accepted. -/
theorem GetPosition_zero_removed :
    GetPosition (str "8/8/8/8/8/8/8/" ++ [0xC3] ++ 48 :: ([0xA9] ++ str "7"))
        = .error .badRankLength ∧
      ∃ pos, GetPosition (str "8/8/8/8/8/8/8/" ++ [0xC3] ++ List.replicate 0 95
        ++ ([0xA9] ++ str "7")) = .ok pos := by
  refine ⟨by decide, ⟨_, rfl⟩⟩

/-- C19, amended: an underscore is read as an empty square.  Replacing an ASCII
digit `d` in a rank segment by a text `R` of underscores and digits that
stands for as many cells (`d` underscores, or digits of sum `d`) leaves the
outcome of `GetPosition` as it is, provided `R` is not empty or, when it is,
the bytes on the two sides of the digit are not joined into one character.
The ranks `"8"`, `"44"` and `"________"` expand to the same rank, two
different FENs give the same board, and for a cell holding `"_"` no sprite is
looked up or drawn. -/
theorem GetPosition_digit_replace (a b R : GoString) (d : UInt8) (ha : (32 : UInt8) ∉ a)
    (hd : 48 ≤ d.toNat ∧ d.toNat ≤ 57)
    (hR : ∀ c ∈ R, c = 95 ∨ (48 ≤ c.toNat ∧ c.toNat ≤ 57))
    (hsum : (R.map (fun c => if c = 95 then 1 else c.toNat - 48)).sum = d.toNat - 48)
    (hne : R ≠ [] ∨
      runes (segBefore a ++ segAfter b) = runes (segBefore a) ++ runes (segAfter b)) :
    GetPosition (a ++ R ++ b) = GetPosition (a ++ d :: b) ∧
      (expandRank (str "44") = expandRank (str "8") ∧
        expandRank (str "________") = expandRank (str "8")) ∧
      (∃ pos, GetPosition (str "8/8/8/8/8/8/8/8") = .ok pos ∧
        GetPosition (str "________/44/8/8/8/8/8/8") = .ok pos ∧
        str "8/8/8/8/8/8/8/8" ≠ str "________/44/8/8/8/8/8/8") ∧
      ∀ (bc : BoardConfig) (pieces : GoString → Option Image) (r f : Nat) (m : RGBAImage),
        drawCell bc pieces r f (str "_") m =
          some (if (r + f) % 2 = 1 then Draw m (cellRect bc r f) (Uniform white) ZP .Src
            else m) := by
  refine ⟨?_, ⟨by decide, by decide⟩, ⟨_, rfl, by decide, by decide⟩,
    fun bc pieces r f m => drawCell_empty bc pieces r f m⟩
  have hascii : ∀ c ∈ R, c.toNat < 128 := by
    intro c hc
    rcases hR c hc with h | h
    · subst h; decide
    · omega
  have hR47 : (47 : UInt8) ∉ R := by
    intro h
    rcases hR 47 h with h | h
    · exact absurd h (by decide)
    · exact absurd h (by decide)
  have hR32 : (32 : UInt8) ∉ R := by
    intro h
    rcases hR 32 h with h | h
    · exact absurd h (by decide)
    · exact absurd h (by decide)
  have hd47 : (47 : UInt8) ∉ [d] := by
    intro h
    have : d = 47 := (List.mem_singleton.mp h).symm
    rw [this] at hd
    exact absurd hd (by decide)
  have hd32 : (32 : UInt8) ∉ [d] := by
    intro h
    have : d = 32 := (List.mem_singleton.mp h).symm
    rw [this] at hd
    exact absurd hd (by decide)
  have hcd : cellsOf d.toNat = List.replicate (d.toNat - 48) emptyCell := by
    unfold cellsOf
    rw [if_pos hd]
  have hexpd : expansion (segBefore a ++ [d] ++ segAfter b)
      = expansion (segBefore a) ++ List.replicate (d.toNat - 48) emptyCell
        ++ expansion (segAfter b) := by
    rw [List.append_assoc, List.singleton_append,
      expansion_append_ascii d _ _ (by omega), hcd]
  have hexpR : expansion (segBefore a ++ R ++ segAfter b)
      = expansion (segBefore a) ++ List.replicate (d.toNat - 48) emptyCell
        ++ expansion (segAfter b) := by
    by_cases hnil : R = []
    · subst hnil
      have hb : runes (segBefore a ++ segAfter b)
          = runes (segBefore a) ++ runes (segAfter b) := by
        rcases hne with h | h
        · exact absurd rfl h
        · exact h
      have h0 : d.toNat - 48 = 0 := by simpa using hsum.symm
      rw [h0, List.append_nil]
      unfold expansion
      rw [hb, List.flatMap_append]
      simp
    · rw [expansion_ascii_middle _ R _ hascii hnil, cells_of_blanks R hR, hsum]
  have h := GetPosition_replace a b R [d] ha ⟨hR47, hR32⟩ ⟨hd47, hd32⟩ (by rw [hexpR, hexpd])
  simpa using h

theorem GetPosition_digit_replace_witness :
    (32 : UInt8) ∉ str "8/p" ∧
      GetPosition (str "8/p" ++ List.replicate 3 95 ++ str "pppp/8/8/8/8/8/8 w")
        = GetPosition (str "8/p" ++ 51 :: str "pppp/8/8/8/8/8/8 w") :=
  ⟨by decide,
    (GetPosition_digit_replace (str "8/p") (str "pppp/8/8/8/8/8/8 w") (List.replicate 3 95) 51
      (by decide) (by decide) (by decide) (by decide) (Or.inl (by decide))).1⟩

end Chessimage
